import Mathlib

/-!
# Let_It_Go, `4. Block_Chain/Block_Chain.go`: the proof-of-work ledger

A shallow embedding of the ledger of `Block_Chain.go` and theorems about it.

Conventions of the embedding.

* Go `int` is the 64-bit two-complement integer: values are Lean integers and
  every `+ 1` / `++` of the source goes through `wrapInt`.
* Go `string` is a Lean `String`.
* `crypto/sha256` followed by `hex.EncodeToString` is a library function that is
  not part of the repository: it is the parameter `sha256hex` of every
  definition that hashes.  The string handed to it, `record`, is built as the
  source builds it with `fmt.Sprintf`.
* `time.Now().Format(time.RFC3339)` is the parameter `now`.
* The globals `Blockchain`, `mutex`, `peers`, `peersMutex` are the fields of
  `Node`.  A `sync.Mutex` is a boolean (held or free); it is not reentrant, so
  `Lock()` on a held mutex does not proceed.  Every operation returns an
  `Outcome`: it returned a value, it is blocked for ever on a `Lock()`, or it
  panicked (index out of range).
* The unbounded `for` of `proofOfWork` takes a bound on the number of
  iterations and answers `none` when the bound is exhausted.
* Console output, the JSON file written by `saveBlockchain`, the goroutines
  spawned by `broadcastBlock` and the websocket writes of `notifyConnections`
  touch none of the four globals and are not part of the state.  Where the
  order of such statements matters, a call is the list of its `Step`s.
* `http.Get(peer + "/blocks")` followed by the decoding of the body is the
  parameter `fetch` of the synchronisation pass.
-/

namespace BlockChain

/-! ## Data model -/

/-- The source's `type Transaction struct`. -/
structure Transaction where
  Sender : String
  Recipient : String
  Amount : Int
deriving DecidableEq

/-- The source's `type Block struct`. -/
structure Block where
  Index : Int
  Timestamp : String
  Transactions : List Transaction
  PrevHash : String
  Hash : String
  Nonce : Int
deriving DecidableEq

/-- The source's `const difficulty = 4`. -/
def difficulty : Nat := 4

/-- Largest value of a Go `int` (64 bit). -/
def maxInt : Int := 2 ^ 63 - 1

/-- Smallest value of a Go `int` (64 bit). -/
def minInt : Int := -(2 ^ 63)

/-- Reduction of an integer to the 64-bit two-complement range, the result of
Go integer arithmetic on `int`. -/
def wrapInt (z : Int) : Int := (z + 2 ^ 63) % 2 ^ 64 - 2 ^ 63

/-! ## Strings -/

/-- Go `strings.Repeat(s, n)`. -/
def stringsRepeat (s : String) (n : Nat) : String :=
  String.join (List.replicate n s)

/-- Go `strings.HasPrefix(s, pre)`. -/
def stringsHasPrefix (s pre : String) : Bool :=
  pre.data.isPrefixOf s.data

/-- Go `%d` of an `int`. -/
def fmtInt (z : Int) : String := toString z

/-- Go `%v` of one `Transaction`: the fields between braces, blank separated. -/
def fmtTransaction (t : Transaction) : String :=
  "\x7b" ++ t.Sender ++ " " ++ t.Recipient ++ " " ++ fmtInt t.Amount ++ "\x7d"

/-- Go `%v` of a `[]Transaction`: the elements between brackets, blank
separated. -/
def fmtTransactions (ts : List Transaction) : String :=
  "[" ++ " ".intercalate (ts.map fmtTransaction) ++ "]"

/-! ## The library digest

`sha256.Sum256` of Go `crypto/sha256` followed by `hex.EncodeToString`, written
out from FIPS 180-4 on natural numbers reduced modulo `2 ^ 32`.  The
definitions of the ledger take the digest as the parameter `sha256hex`; this
one instantiates it on concrete ledgers. -/

namespace Sha256

/-- The first sixty-four prime numbers. -/
def primes : List Nat :=
  [2, 3, 5, 7, 11, 13, 17, 19] ++ [23, 29, 31, 37, 41, 43, 47, 53] ++
  [59, 61, 67, 71, 73, 79, 83, 89] ++ [97, 101, 103, 107, 109, 113, 127, 131] ++
  [137, 139, 149, 151, 157, 163, 167, 173] ++ [179, 181, 191, 193, 197, 199, 211, 223] ++
  [227, 229, 233, 239, 241, 251, 257, 263] ++ [269, 271, 277, 281, 283, 293, 307, 311]

/-- The integer part of the `k`-th root of `n`, for `n` below `2 ^ (40 * k)`:
the bits of the root are settled from bit 39 down to bit 0. -/
def iroot (k n : Nat) : Nat :=
  (List.range 40).foldr (fun b r => if (r + 2 ^ b) ^ k ≤ n then r + 2 ^ b else r) 0

/-- The first thirty-two bits of the fractional part of the `k`-th root of `p`. -/
def rootFraction (k p : Nat) : Nat := iroot k (p * 2 ^ (32 * k)) % 2 ^ 32

/-- The eight 32-bit words of a 256-bit number, most significant first. -/
def wordsOf (row : Nat) : List Nat :=
  (List.range 8).map (fun i => (row >>> (32 * (7 - i))) % 2 ^ 32)

/-- The sixty-four round constants, eight to a row. -/
def roundConstantRows : List Nat := [
  0x428a2f9871374491b5c0fbcfe9b5dba53956c25b59f111f1923f82a4ab1c5ed5,
  0xd807aa9812835b01243185be550c7dc372be5d7480deb1fe9bdc06a7c19bf174,
  0xe49b69c1efbe47860fc19dc6240ca1cc2de92c6f4a7484aa5cb0a9dc76f988da,
  0x983e5152a831c66db00327c8bf597fc7c6e00bf3d5a7914706ca635114292967,
  0x27b70a852e1b21384d2c6dfc53380d13650a7354766a0abb81c2c92e92722c85,
  0xa2bfe8a1a81a664bc24b8b70c76c51a3d192e819d6990624f40e3585106aa070,
  0x19a4c1161e376c082748774c34b0bcb5391c0cb34ed8aa4a5b9cca4f682e6ff3,
  0x748f82ee78a5636f84c878148cc7020890befffaa4506cebbef9a3f7c67178f2]

/-- The sixty-four round constants (the fractional parts of the cube roots of
the first sixty-four primes, see `roundConstants_eq_cube_roots`). -/
def roundConstants : List Nat := roundConstantRows.flatMap wordsOf

/-- The initial hash value as one 256-bit number. -/
def initialRow : Nat := 0x6a09e667bb67ae853c6ef372a54ff53a510e527f9b05688c1f83d9ab5be0cd19

/-- Rotation to the right of a 32-bit word. -/
def rotr (w k : Nat) : Nat := (w >>> k ||| w <<< (32 - k)) % 2 ^ 32

/-- The function written capital sigma, index 0, in the standard. -/
def bigSigma0 (w : Nat) : Nat := rotr w 2 ^^^ rotr w 13 ^^^ rotr w 22

/-- The function written capital sigma, index 1, in the standard. -/
def bigSigma1 (w : Nat) : Nat := rotr w 6 ^^^ rotr w 11 ^^^ rotr w 25

/-- The function written small sigma, index 0, in the standard. -/
def smallSigma0 (w : Nat) : Nat := rotr w 7 ^^^ rotr w 18 ^^^ w >>> 3

/-- The function written small sigma, index 1, in the standard. -/
def smallSigma1 (w : Nat) : Nat := rotr w 17 ^^^ rotr w 19 ^^^ w >>> 10

/-- The choice function of the standard. -/
def choose (u v w : Nat) : Nat := (u &&& v) ^^^ ((u ^^^ (2 ^ 32 - 1)) &&& w)

/-- The majority function of the standard. -/
def majority (u v w : Nat) : Nat := (u &&& v) ^^^ (u &&& w) ^^^ (v &&& w)

/-- The padded message: a `0x80` byte, zero bytes up to 56 modulo 64, and the
bit length on eight bytes, most significant first. -/
def pad (msg : List Nat) : List Nat :=
  let l := msg.length
  let k := (119 - l % 64) % 64
  let bits := 8 * l
  msg ++ [0x80] ++ List.replicate k 0 ++
    (List.range 8).map (fun i => (bits >>> (8 * (7 - i))) % 256)

/-- Bytes to 32-bit words, most significant byte first. -/
def toWords : List Nat → List Nat
  | b0 :: b1 :: b2 :: b3 :: rest => (((b0 * 256 + b1) * 256 + b2) * 256 + b3) :: toWords rest
  | _ => []

/-- The message schedule grown by `n` words; `w` holds the words computed so
far, the latest first. -/
def extend : Nat → List Nat → List Nat
  | 0, w => w
  | n + 1, w =>
    match w with
    | _ :: w2 :: _ :: _ :: _ :: _ :: w7 :: _ :: _ :: _ :: _ :: _ :: _ :: _ :: w15 :: w16 :: _ =>
      extend n (((smallSigma1 w2 + w7 + smallSigma0 w15 + w16) % 2 ^ 32) :: w)
    | _ => w

/-- The eight working variables. -/
structure Vars where
  a : Nat
  b : Nat
  c : Nat
  d : Nat
  e : Nat
  f : Nat
  g : Nat
  h : Nat

/-- One round, on a round constant paired with a schedule word. -/
def round (s : Vars) (kw : Nat × Nat) : Vars :=
  let t1 := (s.h + bigSigma1 s.e + choose s.e s.f s.g + kw.1 + kw.2) % 2 ^ 32
  let t2 := (bigSigma0 s.a + majority s.a s.b s.c) % 2 ^ 32
  { a := (t1 + t2) % 2 ^ 32, b := s.a, c := s.b, d := s.c
    e := (s.d + t1) % 2 ^ 32, f := s.e, g := s.f, h := s.g }

/-- The compression of one 64-byte block into the running hash value. -/
def compress (s : Vars) (block : List Nat) : Vars :=
  let w := (extend 48 (toWords block).reverse).reverse
  let r := (roundConstants.zip w).foldl round s
  { a := (s.a + r.a) % 2 ^ 32, b := (s.b + r.b) % 2 ^ 32
    c := (s.c + r.c) % 2 ^ 32, d := (s.d + r.d) % 2 ^ 32
    e := (s.e + r.e) % 2 ^ 32, f := (s.f + r.f) % 2 ^ 32
    g := (s.g + r.g) % 2 ^ 32, h := (s.h + r.h) % 2 ^ 32 }

/-- The first `n` blocks of 64 bytes. -/
def blocks : Nat → List Nat → List (List Nat)
  | 0, _ => []
  | n + 1, bs => bs.take 64 :: blocks n (bs.drop 64)

/-- The initial hash value (the fractional parts of the square roots of the
first eight primes, see `initial_eq_square_roots`). -/
def initial : Vars :=
  match wordsOf initialRow with
  | [a, b, c, d, e, f, g, h] =>
    { a := a, b := b, c := c, d := d, e := e, f := f, g := g, h := h }
  | _ => { a := 0, b := 0, c := 0, d := 0, e := 0, f := 0, g := 0, h := 0 }

/-- The digest of a list of bytes. -/
def digest (msg : List Nat) : Vars :=
  let p := pad msg
  (blocks (p.length / 64) p).foldl compress initial

/-- The eight lower-case hexadecimal digits of a 32-bit word. -/
def hexWord (w : Nat) : List Char :=
  (List.range 8).map (fun i => "0123456789abcdef".data.getD ((w >>> (4 * (7 - i))) % 16) '0')

/-- The bytes of a string (UTF-8), as `[]byte(record)` gives them. -/
def bytes (s : String) : List Nat :=
  s.data.flatMap (fun c => (String.utf8EncodeChar c).map UInt8.toNat)

end Sha256

/-- Go `hex.EncodeToString(h[:])` for `h := sha256.Sum256([]byte(s))`. -/
def sha256Sum (s : String) : String :=
  let d := Sha256.digest (Sha256.bytes s)
  String.mk ([d.a, d.b, d.c, d.d, d.e, d.f, d.g, d.h].flatMap Sha256.hexWord)

/-! ## Hashing and mining -/

/-- The `record` of `calculateHash`:
`fmt.Sprintf("%d%s%v%s%d", Index, Timestamp, Transactions, PrevHash, Nonce)`. -/
def record (block : Block) : String :=
  fmtInt block.Index ++ block.Timestamp ++ fmtTransactions block.Transactions
    ++ block.PrevHash ++ fmtInt block.Nonce

/-- The source's `calculateHash`. -/
def calculateHash (sha256hex : String → String) (block : Block) : String :=
  sha256hex (record block)

/-- The source's `proofOfWork`, with a bound on the iterations of its loop. -/
def proofOfWork (sha256hex : String → String) : Nat → Block → Option Block
  | 0, _ => none
  | fuel + 1, block =>
    let hash := calculateHash sha256hex block
    if stringsHasPrefix hash (stringsRepeat "0" difficulty) then
      some { block with Hash := hash }
    else
      proofOfWork sha256hex fuel { block with Nonce := wrapInt (block.Nonce + 1) }

/-- The source's `generateBlock`. -/
def generateBlock (sha256hex : String → String) (fuel : Nat) (now : String)
    (prevBlock : Block) (transactions : List Transaction) : Option Block :=
  let newBlock : Block :=
    { Index := wrapInt (prevBlock.Index + 1)
      Timestamp := now
      Transactions := transactions
      PrevHash := prevBlock.Hash
      Nonce := 0
      Hash := "" }
  proofOfWork sha256hex fuel newBlock

/-- The source's `createGenesisBlock`. -/
def createGenesisBlock (sha256hex : String → String) (fuel : Nat) (now : String) :
    Option Block :=
  let genesisBlock : Block :=
    { Index := 0
      Timestamp := now
      Transactions := []
      PrevHash := ""
      Nonce := 0
      Hash := "" }
  proofOfWork sha256hex fuel genesisBlock

/-! ## Validation -/

/-- The source's `isBlockValid`: four checks, each returning `false` at once. -/
def isBlockValid (sha256hex : String → String) (newBlock prevBlock : Block) : Bool :=
  if wrapInt (prevBlock.Index + 1) ≠ newBlock.Index then
    false
  else if prevBlock.Hash ≠ newBlock.PrevHash then
    false
  else if calculateHash sha256hex newBlock ≠ newBlock.Hash then
    false
  else if !stringsHasPrefix newBlock.Hash (stringsRepeat "0" difficulty) then
    false
  else
    true

/-- The loop `for i := ...; i < len(chain); i++` of `isBlockchainValidChain`,
entered at `i` with `n` iterations left to spend. -/
def isBlockchainValidChain.loop (sha256hex : String → String) (chain : List Block) :
    Nat → Nat → Bool
  | _, 0 => true
  | i, n + 1 =>
    if h : i < chain.length then
      have h1 : i - 1 < chain.length := by omega
      if !isBlockValid sha256hex chain[i] chain[i - 1] then
        false
      else
        isBlockchainValidChain.loop sha256hex chain (i + 1) n
    else
      true

/-- The source's `isBlockchainValidChain`; the loop starts at `i = 1` and runs
less than `len(chain)` times. -/
def isBlockchainValidChain (sha256hex : String → String) (chain : List Block) : Bool :=
  isBlockchainValidChain.loop sha256hex chain 1 chain.length

/-! ## The node: globals, mutexes, outcomes -/

/-- The global variables of the program. -/
structure Node where
  Blockchain : List Block
  mutex : Bool
  peers : List String
  peersMutex : Bool
deriving DecidableEq

/-- How a call ends: it returns `val` in state `s`; it is blocked for ever on a
`Lock()` in state `s`; or it panics in state `s` (deferred unlocks done). -/
inductive Outcome (α : Type) where
  | returned (val : α) (s : Node)
  | blocked (s : Node)
  | panicked (s : Node)
deriving DecidableEq

/-- The state of the globals when the call has ended or is stuck. -/
def Outcome.state {α : Type} : Outcome α → Node
  | .returned _ s => s
  | .blocked s => s
  | .panicked s => s

/-- The value returned, when the call returned. -/
def Outcome.value {α : Type} : Outcome α → Option α
  | .returned v _ => some v
  | .blocked _ => none
  | .panicked _ => none

/-- The source's `saveBlockchain`: `mutex.Lock()`, the chain is marshalled and
written to `blockchain.json` (an error is printed, nothing else), and the
deferred `mutex.Unlock()`. -/
def saveBlockchain (s : Node) : Outcome Unit :=
  if s.mutex then
    -- `mutex.Lock()` on a held mutex
    .blocked s
  else
    let s1 := { s with mutex := true }
    .returned () { s1 with mutex := false }

/-- The source's `addBlock`.  `broadcastBlock` and `notifyConnections` leave
the globals as they are; `saveBlockchain` is called before the deferred
`mutex.Unlock()` has run. -/
def addBlock (sha256hex : String → String) (s : Node) (newBlock : Block) : Outcome Bool :=
  if s.mutex then
    -- `mutex.Lock()` on a held mutex
    .blocked s
  else
    let s1 := { s with mutex := true }
    -- `Blockchain[len(Blockchain)-1]`
    match s1.Blockchain.getLast? with
    | none => .panicked { s1 with mutex := false }
    | some tip =>
      if isBlockValid sha256hex newBlock tip then
        -- `Blockchain = append(Blockchain, newBlock)`
        let s2 := { s1 with Blockchain := s1.Blockchain ++ [newBlock] }
        -- `saveBlockchain()`, then `return true` and the deferred unlock
        match saveBlockchain s2 with
        | .returned _ s3 => .returned true { s3 with mutex := false }
        | .blocked s3 => .blocked s3
        | .panicked s3 => .panicked { s3 with mutex := false }
      else
        -- `return false` and the deferred unlock
        .returned false { s1 with mutex := false }

/-- The loop of the source's `isBlockchainValid`, over the global chain, with
the four checks written out as the source writes them. -/
def isBlockchainValid.loop (sha256hex : String → String) (chain : List Block) :
    Nat → Nat → Bool
  | _, 0 => true
  | i, n + 1 =>
    if h : i < chain.length then
      have h1 : i - 1 < chain.length := by omega
      let currentBlock := chain[i]
      let prevBlock := chain[i - 1]
      if currentBlock.Index ≠ wrapInt (prevBlock.Index + 1) then
        false
      else if currentBlock.PrevHash ≠ prevBlock.Hash then
        false
      else if calculateHash sha256hex currentBlock ≠ currentBlock.Hash then
        false
      else if !stringsHasPrefix currentBlock.Hash (stringsRepeat "0" difficulty) then
        false
      else
        isBlockchainValid.loop sha256hex chain (i + 1) n
    else
      true

/-- The source's `isBlockchainValid`. -/
def isBlockchainValid (sha256hex : String → String) (s : Node) : Outcome Bool :=
  if s.mutex then
    .blocked s
  else
    let s1 := { s with mutex := true }
    .returned (isBlockchainValid.loop sha256hex s1.Blockchain 1 s1.Blockchain.length)
      { s1 with mutex := false }

/-- The replace step of the source's `syncBlockchain`: the statements from
`mutex.Lock()` to `mutex.Unlock()` in the body of its loop, for one decoded
peer chain. -/
def syncReplace (sha256hex : String → String) (s : Node) (peerBlockchain : List Block) :
    Outcome Unit :=
  if s.mutex then
    -- `mutex.Lock()` on a held mutex
    .blocked s
  else
    let s1 := { s with mutex := true }
    if peerBlockchain.length > s1.Blockchain.length
        && isBlockchainValidChain sha256hex peerBlockchain then
      -- `Blockchain = peerBlockchain`
      let s2 := { s1 with Blockchain := peerBlockchain }
      -- `saveBlockchain()`, then `mutex.Unlock()`
      match saveBlockchain s2 with
      | .returned _ s3 => .returned () { s3 with mutex := false }
      | .blocked s3 => .blocked s3
      | .panicked s3 => .panicked s3
    else
      -- `mutex.Unlock()`
      .returned () { s1 with mutex := false }

/-- Calls of `addBlock` made one after another, each from the state the
previous one left; the outcomes in call order. -/
def addBlockSeq (sha256hex : String → String) : Node → List Block → List (Outcome Bool)
  | _, [] => []
  | s, b :: bs =>
    let o := addBlock sha256hex s b
    o :: addBlockSeq sha256hex o.state bs

/-- The state after the calls of `addBlockSeq`. -/
def addBlockSeqState (sha256hex : String → String) : Node → List Block → Node
  | s, [] => s
  | s, b :: bs => addBlockSeqState sha256hex (addBlock sha256hex s b).state bs

/-- The blocks accepted in the calls of `addBlockSeq` (those the call appended:
the chain is one block longer when the call ends), each paired with the block
that was the tip when the call was made: `(tip, accepted)`, in call order. -/
def acceptedBlocks (sha256hex : String → String) : Node → List Block → List (Block × Block)
  | _, [] => []
  | s, b :: bs =>
    let o := addBlock sha256hex s b
    let rest := acceptedBlocks sha256hex o.state bs
    match s.Blockchain.getLast? with
    | some tip =>
      if o.state.Blockchain.length = s.Blockchain.length + 1 then (tip, b) :: rest else rest
    | none => rest

/-! ## Mining: the candidate and its nonces -/

/-- The block `generateBlock` builds and hands to `proofOfWork`. -/
def generateBlockCandidate (now : String) (prevBlock : Block)
    (transactions : List Transaction) : Block :=
  { Index := wrapInt (prevBlock.Index + 1)
    Timestamp := now
    Transactions := transactions
    PrevHash := prevBlock.Hash
    Nonce := 0
    Hash := "" }

/-- The block `createGenesisBlock` builds and hands to `proofOfWork`. -/
def genesisCandidate (now : String) : Block :=
  { Index := 0
    Timestamp := now
    Transactions := []
    PrevHash := ""
    Nonce := 0
    Hash := "" }

/-- The test of the loop of `proofOfWork` on `candidate` with nonce `n`: the
hash begins with `difficulty` characters `0`. -/
def nonceWorks (sha256hex : String → String) (candidate : Block) (n : Int) : Bool :=
  stringsHasPrefix (calculateHash sha256hex { candidate with Nonce := n })
    (stringsRepeat "0" difficulty)

/-! ## Tampering -/

/-- The transaction `t'` is `t` with exactly one of its three fields changed. -/
def OneFieldChanged (t t' : Transaction) : Prop :=
  (t'.Sender ≠ t.Sender ∧ t'.Recipient = t.Recipient ∧ t'.Amount = t.Amount) ∨
  (t'.Sender = t.Sender ∧ t'.Recipient ≠ t.Recipient ∧ t'.Amount = t.Amount) ∨
  (t'.Sender = t.Sender ∧ t'.Recipient = t.Recipient ∧ t'.Amount ≠ t.Amount)

/-- What `String.intercalate` puts after the first element: each further
element with the separator before it. -/
def separated (sep : String) : List String → String
  | [] => ""
  | a :: rest => sep ++ a ++ separated sep rest

/-! ## The handlers `createBlock` and `getBlock` -/

/-- The answer a handler writes: the status code and, on success, the block of
the body. -/
inductive Reply where
  | ok (block : Block)
  | created (block : Block)
  | badRequest
  | notFound
  | internalError
deriving DecidableEq

/-- The HTTP status code of a reply. -/
def Reply.status : Reply → Nat
  | .ok _ => 200
  | .created _ => 201
  | .badRequest => 400
  | .notFound => 404
  | .internalError => 500

/-- The calls `createBlock` makes into the miner and the ledger. -/
inductive Call where
  | generateBlock (prevBlock : Block) (transactions : List Transaction)
  | addBlock (newBlock : Block)
deriving DecidableEq

/-- The source's `createBlock`.  `body` is what `Decode` gives: `none` for a
body that cannot be decoded, otherwise the decoded `transactions` (empty when
the field is absent).  The result is the list of calls made, in order, and
how the handler ends (`none`: mining has not ended within `fuel` iterations). -/
def createBlock (sha256hex : String → String) (fuel : Nat) (now : String) (s : Node)
    (body : Option (List Transaction)) : List Call × Option (Outcome Reply) :=
  match body with
  | none => ([], some (.returned .badRequest s))
  | some transactions =>
    if transactions.length = 0 then
      ([], some (.returned .badRequest s))
    else if s.mutex then
      -- `mutex.Lock()` on a held mutex
      ([], some (.blocked s))
    else
      let s1 := { s with mutex := true }
      -- `prevBlock := Blockchain[len(Blockchain)-1]`, no deferred unlock
      match s1.Blockchain.getLast? with
      | none => ([], some (.panicked s1))
      | some prevBlock =>
        let s2 := { s1 with mutex := false }
        match generateBlock sha256hex fuel now prevBlock transactions with
        | none => ([.generateBlock prevBlock transactions], none)
        | some newBlock =>
          let calls := [Call.generateBlock prevBlock transactions, Call.addBlock newBlock]
          match addBlock sha256hex s2 newBlock with
          | .returned true s3 => (calls, some (.returned (.created newBlock) s3))
          | .returned false s3 => (calls, some (.returned .internalError s3))
          | .blocked s3 => (calls, some (.blocked s3))
          | .panicked s3 => (calls, some (.panicked s3))

/-- The source's `getBlock`.  `parsed` is what `strconv.Atoi` gives on the
path after `/blocks/`: `none` for an error.  (`json.MarshalIndent` of a block
does not fail.) -/
def getBlock (s : Node) (parsed : Option Int) : Outcome Reply :=
  match parsed with
  | none => .returned .badRequest s
  | some index =>
    if s.mutex then
      -- `mutex.Lock()` on a held mutex
      .blocked s
    else
      let s1 := { s with mutex := true }
      if index < 0 || index ≥ s1.Blockchain.length then
        .returned .notFound { s1 with mutex := false }
      else
        -- `Blockchain[index]`
        match s1.Blockchain[index.toNat]? with
        | some block => .returned (.ok block) { s1 with mutex := false }
        | none => .panicked { s1 with mutex := false }

/-! ## The peer registry -/

/-- The source's `savePeers`: `peersMutex.Lock()`, the list is marshalled and
written to `peers.json`, and the deferred `peersMutex.Unlock()`. -/
def savePeers (s : Node) : Outcome Unit :=
  if s.peersMutex then
    -- `peersMutex.Lock()` on a held mutex
    .blocked s
  else
    let s1 := { s with peersMutex := true }
    .returned () { s1 with peersMutex := false }

/-- The source's `addPeer`. -/
def addPeer (s : Node) (peer : String) : Outcome Unit :=
  if s.peersMutex then
    -- `peersMutex.Lock()` on a held mutex
    .blocked s
  else
    let s1 := { s with peersMutex := true }
    -- `for _, p := range peers`: `return` at the first `p == peer`
    if s1.peers.any (fun p => p == peer) then
      .returned () { s1 with peersMutex := false }
    else
      -- `peers = append(peers, peer)`
      let s2 := { s1 with peers := s1.peers ++ [peer] }
      -- `savePeers()`, then the deferred unlock
      match savePeers s2 with
      | .returned _ s3 => .returned () { s3 with peersMutex := false }
      | .blocked s3 => .blocked s3
      | .panicked s3 => .panicked { s3 with peersMutex := false }

/-- The loop of the source's `removePeer`: the list without the first element
equal to `peer` (`append(peers[:i], peers[i+1:]...)` and `break`), the list
itself when there is none. -/
def removeFirst (peer : String) : List String → List String
  | [] => []
  | p :: rest => if p == peer then rest else p :: removeFirst peer rest

/-- The source's `removePeer`. -/
def removePeer (s : Node) (peer : String) : Outcome Unit :=
  if s.peersMutex then
    -- `peersMutex.Lock()` on a held mutex
    .blocked s
  else
    let s1 := { s with peersMutex := true }
    let s2 := { s1 with peers := removeFirst peer s1.peers }
    -- `savePeers()`, called whether or not a peer was removed, then the
    -- deferred unlock
    match savePeers s2 with
    | .returned _ s3 => .returned () { s3 with peersMutex := false }
    | .blocked s3 => .blocked s3
    | .panicked s3 => .panicked { s3 with peersMutex := false }

/-! ## Synchronisation and the monitor

The fetch of a peer's chain, `http.Get(peer + "/blocks")` followed by the
decoding of the body, is the parameter `fetch`: `none` when the peer cannot be
reached or its answer cannot be decoded. -/

/-- The loop `for _, peer := range peers` of the source's `syncBlockchain`. -/
def syncLoop (sha256hex : String → String) (fetch : String → Option (List Block)) :
    Node → List String → Outcome Unit
  | s, [] => .returned () s
  | s, peer :: rest =>
    match fetch peer with
    | none =>
      -- `continue`
      syncLoop sha256hex fetch s rest
    | some peerBlockchain =>
      match syncReplace sha256hex s peerBlockchain with
      | .returned _ s1 => syncLoop sha256hex fetch s1 rest
      | .blocked s1 => .blocked s1
      | .panicked s1 => .panicked s1

/-- The source's `syncBlockchain`: one pass over the peers known when it
starts. -/
def syncBlockchain (sha256hex : String → String) (fetch : String → Option (List Block))
    (s : Node) : Outcome Unit :=
  syncLoop sha256hex fetch s s.peers

/-- The chains fetched in the pass of `syncLoop`, in order; each is handed to
the replace step as soon as it is decoded. -/
def fetchedChains (sha256hex : String → String) (fetch : String → Option (List Block)) :
    Node → List String → List (List Block)
  | _, [] => []
  | s, peer :: rest =>
    match fetch peer with
    | none => fetchedChains sha256hex fetch s rest
    | some peerBlockchain =>
      peerBlockchain ::
        (match syncReplace sha256hex s peerBlockchain with
          | .returned _ s1 => fetchedChains sha256hex fetch s1 rest
          | .blocked _ => []
          | .panicked _ => [])

/-- The start of the source's `main`: the chain after `loadBlockchain` and the
creation of the genesis block when the chain is empty.  `loaded` is the
content of `blockchain.json` when it exists, can be read and can be decoded
(`none` otherwise, the global stays empty); the result is `none` when mining
has not ended within `fuel` iterations. -/
def initialChain (sha256hex : String → String) (fuel : Nat) (now : String)
    (loaded : Option (List Block)) : Option (List Block) :=
  let chain := loaded.getD []
  if chain.length = 0 then
    match createGenesisBlock sha256hex fuel now with
    | none => none
    | some genesisBlock => some (chain ++ [genesisBlock])
  else
    some chain

/-! ## The chain mutex along a call

The statements of a call that lock or unlock the chain mutex, mine, or write
to a file or to the network, in the order of the source, and for each one
executed whether the chain mutex is held by the caller at that moment. -/

/-- A statement of interest. -/
inductive Step where
  /-- The statement `mutex.Lock()`. -/
  | lock
  /-- The statement `mutex.Unlock()`, deferred or not. -/
  | unlock
  /-- The call `generateBlock(...)`, that is `proofOfWork`. -/
  | mine
  /-- The call `http.Get(peer + "/blocks")` and the decoding of the body. -/
  | httpGet (peer : String)
  /-- The statement `go func(peer string) ...` of `broadcastBlock`: it starts
  the goroutine that calls `http.Post`; the caller does not wait for it. -/
  | goPost (peer : String)
  /-- One `conn.WriteMessage` of `notifyConnections`. -/
  | notifyWrite
  /-- The call `ioutil.WriteFile` of `saveBlockchain`. -/
  | fileWrite
deriving DecidableEq

/-- The statements executed, each with the state of the chain mutex (held by
the caller or not) when it is reached; execution stops at `mutex.Lock()` on a
held mutex. -/
def executed : Bool → List Step → List (Step × Bool)
  | _, [] => []
  | held, .lock :: rest =>
    if held then [(.lock, true)] else (.lock, false) :: executed true rest
  | held, .unlock :: rest => (.unlock, held) :: executed false rest
  | held, .mine :: rest => (.mine, held) :: executed held rest
  | held, .httpGet peer :: rest => (.httpGet peer, held) :: executed held rest
  | held, .goPost peer :: rest => (.goPost peer, held) :: executed held rest
  | held, .notifyWrite :: rest => (.notifyWrite, held) :: executed held rest
  | held, .fileWrite :: rest => (.fileWrite, held) :: executed held rest

/-- The statements of `saveBlockchain`. -/
def saveBlockchainSteps : List Step := [.lock, .fileWrite, .unlock]

/-- The statements of `addBlock` called in state `s` with `connections`
websocket connections open: `broadcastBlock` starts one goroutine a peer,
`notifyConnections` writes to each connection, then `saveBlockchain`. -/
def addBlockSteps (sha256hex : String → String) (connections : Nat) (s : Node)
    (newBlock : Block) : List Step :=
  .lock ::
    (match s.Blockchain.getLast? with
      | none => [.unlock]
      | some tip =>
        if isBlockValid sha256hex newBlock tip then
          s.peers.map Step.goPost ++ List.replicate connections Step.notifyWrite ++
            saveBlockchainSteps ++ [.unlock]
        else
          [.unlock])

/-- The statements of `createBlock` on a decoded body with transactions. -/
def createBlockSteps (sha256hex : String → String) (fuel : Nat) (now : String)
    (connections : Nat) (s : Node) (transactions : List Transaction) : List Step :=
  .lock ::
    (match s.Blockchain.getLast? with
      | none => []
      | some prevBlock =>
        .unlock :: .mine ::
          (match generateBlock sha256hex fuel now prevBlock transactions with
            | none => []
            | some newBlock => addBlockSteps sha256hex connections s newBlock))

/-- The statements of the loop of `syncBlockchain`. -/
def syncLoopSteps (sha256hex : String → String) (fetch : String → Option (List Block)) :
    Node → List String → List Step
  | _, [] => []
  | s, peer :: rest =>
    .httpGet peer ::
      (match fetch peer with
        | none => syncLoopSteps sha256hex fetch s rest
        | some peerBlockchain =>
          if peerBlockchain.length > s.Blockchain.length
              && isBlockchainValidChain sha256hex peerBlockchain then
            .lock :: (saveBlockchainSteps ++ .unlock ::
              syncLoopSteps sha256hex fetch { s with Blockchain := peerBlockchain } rest)
          else
            .lock :: .unlock :: syncLoopSteps sha256hex fetch s rest)

/-! ## Concrete ledgers

Blocks mined with SHA-256 at difficulty 4, used where a statement is evaluated
at a concrete input. -/

/-- A genesis block as `createGenesisBlock` mines it at `2024-01-02T02:05:25Z`. -/
def genesisA : Block :=
  { Index := 0, Timestamp := "2024-01-02T02:05:25Z", Transactions := [], PrevHash := ""
    Hash := "00008ea9fe1e641e19b30444ca475d9e456fef2d7341e8e079a71747c2309313", Nonce := 2 }

/-- The block `generateBlock` mines on `genesisA` for the transaction
`A -> B : 10` at `2024-01-02T18:26:48Z`. -/
def blockA1 : Block :=
  { Index := 1, Timestamp := "2024-01-02T18:26:48Z"
    Transactions := [{ Sender := "A", Recipient := "B", Amount := 10 }]
    PrevHash := "00008ea9fe1e641e19b30444ca475d9e456fef2d7341e8e079a71747c2309313"
    Hash := "0000a0cb3b2f36c64fa378174870a91ce4b83baf1faa065833506ebdb1a198d3", Nonce := 1 }

/-- A second block mined on `genesisA`, for `C -> D : 5`. -/
def blockB1 : Block :=
  { Index := 1, Timestamp := "2024-01-02T18:52:35Z"
    Transactions := [{ Sender := "C", Recipient := "D", Amount := 5 }]
    PrevHash := "00008ea9fe1e641e19b30444ca475d9e456fef2d7341e8e079a71747c2309313"
    Hash := "000040bed3531b61ad949a0f949631e7534b6f4090d286c30de66a746b741670", Nonce := 0 }

/-- A third block mined on `genesisA`, for `E -> F : 7`. -/
def blockC1 : Block :=
  { Index := 1, Timestamp := "2024-01-02T14:11:53Z"
    Transactions := [{ Sender := "E", Recipient := "F", Amount := 7 }]
    PrevHash := "00008ea9fe1e641e19b30444ca475d9e456fef2d7341e8e079a71747c2309313"
    Hash := "000083a7cdefc858f76d98d872344cbabe4bb81472269c07c2fd8564b6640b0b", Nonce := 0 }

/-- The block mined on `blockA1` for `B -> C : 4`. -/
def blockA2 : Block :=
  { Index := 2, Timestamp := "2024-01-03T08:01:14Z"
    Transactions := [{ Sender := "B", Recipient := "C", Amount := 4 }]
    PrevHash := "0000a0cb3b2f36c64fa378174870a91ce4b83baf1faa065833506ebdb1a198d3"
    Hash := "0000d793264096b58e4efdae220581e1699f5eaf6bfd65a1f24c35f9a0050384", Nonce := 0 }

/-- The block `genesisA` with its nonce changed and its stored hash kept: the
stored hash is no longer the hash of the block. -/
def genesisForged : Block := { genesisA with Nonce := 0 }

/-- The block mined on `blockA2` for `C -> D : 3`. -/
def blockA3 : Block :=
  { Index := 3, Timestamp := "2024-01-04T01:03:56Z"
    Transactions := [{ Sender := "C", Recipient := "D", Amount := 3 }]
    PrevHash := "0000d793264096b58e4efdae220581e1699f5eaf6bfd65a1f24c35f9a0050384"
    Hash := "000021ed932ef9421cb257f9482e397be23127f3c448d736cde466343f1a516c", Nonce := 0 }

/-- The block mined on `blockA3` for `D -> E : 2`. -/
def blockA4 : Block :=
  { Index := 4, Timestamp := "2024-01-04T06:55:14Z"
    Transactions := [{ Sender := "D", Recipient := "E", Amount := 2 }]
    PrevHash := "000021ed932ef9421cb257f9482e397be23127f3c448d736cde466343f1a516c"
    Hash := "00001ebf47267fd1d359b7f7f3b65d47871863d2006d154cfc6c3af3612d4efa", Nonce := 0 }

/-- The block `blockA2` with the amount of its transaction changed from 4 to
400 and its stored hash kept. -/
def blockA2Tampered : Block :=
  { blockA2 with Transactions := [{ Sender := "B", Recipient := "C", Amount := 400 }] }

/-- A block mined on `genesisA` with two transactions, `A -> B : 10` then
`C -> D : 5`. -/
def blockD1 : Block :=
  { Index := 1, Timestamp := "2024-01-03T18:49:03Z"
    Transactions := [{ Sender := "A", Recipient := "B", Amount := 10 },
      { Sender := "C", Recipient := "D", Amount := 5 }]
    PrevHash := "00008ea9fe1e641e19b30444ca475d9e456fef2d7341e8e079a71747c2309313"
    Hash := "0000187f2ab01f5d67a792f33ebc3aed276177f0b020dce36cfd5dbb9ea9df3d", Nonce := 0 }

/-- Two different transactions with the same rendering `A B C 1` between
braces: the blank is in the sender of the first and in the recipient of the
second. -/
def txBlankSender : Transaction := { Sender := "A B", Recipient := "C", Amount := 1 }

/-- See `txBlankSender`. -/
def txBlankRecipient : Transaction := { Sender := "A", Recipient := "B C", Amount := 1 }

/-- A block candidate on `genesisA` holding `txBlankSender` then
`txBlankRecipient`. -/
def blockBlanks : Block :=
  { Index := 1, Timestamp := "2024-01-03T00:00:00Z"
    Transactions := [txBlankSender, txBlankRecipient]
    PrevHash := "00008ea9fe1e641e19b30444ca475d9e456fef2d7341e8e079a71747c2309313"
    Hash := "", Nonce := 0 }

/-- The block mined on `genesisA` for the transaction `txBlankSender`. -/
def blockBlankSender : Block :=
  { Index := 1, Timestamp := "2024-01-02T22:01:50Z"
    Transactions := [txBlankSender]
    PrevHash := "00008ea9fe1e641e19b30444ca475d9e456fef2d7341e8e079a71747c2309313"
    Hash := "0000eb01a86ab1ca589bf88553f4eba1b2f064f8184940d8ca25d218bab7b40e", Nonce := 0 }

/-- The block `blockBlankSender` with its transaction replaced by
`txBlankRecipient`. -/
def blockBlankRecipient : Block :=
  { blockBlankSender with Transactions := [txBlankRecipient] }

/-- A fetch that reaches two peers: the first holds `[genesisA, blockA1]`, the
second `[genesisA, blockA1, blockA2]`; every other address fails. -/
def fetchTwo (peer : String) : Option (List Block) :=
  if peer = "http://localhost:8081" then some [genesisA, blockA1]
  else if peer = "http://localhost:8082" then some [genesisA, blockA1, blockA2]
  else none

/-- A block whose index is the largest `int`, as a peer or the saved file can
supply it. -/
def blockMax : Block :=
  { Index := 9223372036854775807, Timestamp := "2024-01-01T11:54:04Z", Transactions := []
    PrevHash := ""
    Hash := "0000a566c7810a0688ad2b4cc5060df66c7c3fc929af76640964b35c6acc6ef1", Nonce := 0 }

/-- The block `generateBlock` mines on `blockMax` for `A -> B : 10` at
`2024-01-04T05:58:46Z`: its index is the smallest `int`. -/
def blockWrapped : Block :=
  { Index := -9223372036854775808, Timestamp := "2024-01-04T05:58:46Z"
    Transactions := [{ Sender := "A", Recipient := "B", Amount := 10 }]
    PrevHash := "0000a566c7810a0688ad2b4cc5060df66c7c3fc929af76640964b35c6acc6ef1"
    Hash := "000004072e8f2e95bceb1115443fa1195b17d693e7b2d1440f04d76d6fa27e54", Nonce := 1 }

/-- A node whose ledger holds `chain`, both mutexes free, no peer. -/
def nodeOf (chain : List Block) : Node :=
  { Blockchain := chain, mutex := false, peers := [], peersMutex := false }

/-- A node whose ledger holds `chain` and whose registry holds `peers`, both
mutexes free. -/
def nodeWith (chain : List Block) (peers : List String) : Node :=
  { Blockchain := chain, mutex := false, peers := peers, peersMutex := false }

/-! ## Strings and integers -/

theorem stringsRepeat_zero_difficulty : stringsRepeat "0" difficulty = "0000" := by decide

theorem stringsHasPrefix_zeros_iff (h : String) :
    stringsHasPrefix h (stringsRepeat "0" difficulty) = true ↔
      ∃ rest : List Char, h.data = '0' :: '0' :: '0' :: '0' :: rest := by
  rw [stringsRepeat_zero_difficulty]
  unfold stringsHasPrefix
  rw [List.isPrefixOf_iff_prefix]
  constructor
  · rintro ⟨t, ht⟩
    exact ⟨t, ht.symm⟩
  · rintro ⟨t, ht⟩
    exact ⟨t, ht.symm⟩

theorem wrapInt_of_range (z : Int) (h1 : minInt ≤ z) (h2 : z ≤ maxInt) : wrapInt z = z := by
  unfold wrapInt minInt maxInt at *
  omega

theorem wrapInt_succ_of_lt (z : Int) (h1 : minInt ≤ z) (h2 : z < maxInt) :
    wrapInt (z + 1) = z + 1 := by
  unfold wrapInt minInt maxInt at *
  omega

theorem wrapInt_range (z : Int) : minInt ≤ wrapInt z ∧ wrapInt z ≤ maxInt := by
  unfold wrapInt minInt maxInt
  omega

/-! ## Validation: characterisations -/

theorem isBlockValid_eq_true_iff (sha256hex : String → String) (newBlock prevBlock : Block) :
    isBlockValid sha256hex newBlock prevBlock = true ↔
      (wrapInt (prevBlock.Index + 1) = newBlock.Index ∧ prevBlock.Hash = newBlock.PrevHash ∧
        calculateHash sha256hex newBlock = newBlock.Hash ∧
        stringsHasPrefix newBlock.Hash (stringsRepeat "0" difficulty) = true) := by
  unfold isBlockValid
  by_cases h1 : wrapInt (prevBlock.Index + 1) = newBlock.Index <;>
  by_cases h2 : prevBlock.Hash = newBlock.PrevHash <;>
  by_cases h3 : calculateHash sha256hex newBlock = newBlock.Hash <;>
  by_cases h4 : stringsHasPrefix newBlock.Hash (stringsRepeat "0" difficulty) = true <;>
  simp [h1, h2, h3, h4]

theorem isBlockchainValidChain_loop_iff (sha256hex : String → String) (chain : List Block) :
    ∀ (n i : Nat), chain.length ≤ i + n →
      (isBlockchainValidChain.loop sha256hex chain i n = true ↔
        ∀ j, i ≤ j → ∀ h : j < chain.length,
          isBlockValid sha256hex (chain.get ⟨j, h⟩) (chain.get ⟨j - 1, by omega⟩) = true) := by
  intro n
  induction n with
  | zero =>
    intro i hi
    simp only [isBlockchainValidChain.loop, true_iff]
    intro j hj h
    omega
  | succ n ih =>
    intro i hi
    unfold isBlockchainValidChain.loop
    by_cases hlt : i < chain.length
    · simp only [hlt, dite_true]
      by_cases hv : isBlockValid sha256hex chain[i] chain[i - 1] = true
      · simp only [hv, Bool.not_true, Bool.false_eq_true, if_false]
        rw [ih (i + 1) (by omega)]
        constructor
        · intro hall j hj h
          rcases Nat.eq_or_lt_of_le hj with heq | hgt
          · subst heq
            simpa using hv
          · exact hall j hgt h
        · intro hall j hj h
          exact hall j (by omega) h
      · have hv2 : isBlockValid sha256hex chain[i] chain[i - 1] = false := by
          simpa using hv
        simp only [hv2, Bool.not_false, if_true, Bool.false_eq_true, false_iff]
        intro hall
        have := hall i (le_refl i) hlt
        simp only [List.get_eq_getElem] at this
        rw [hv2] at this
        exact Bool.noConfusion this
    · simp only [hlt, dite_false, true_iff]
      intro j hj h
      omega

theorem isBlockchainValidChain_iff_get (sha256hex : String → String) (chain : List Block) :
    isBlockchainValidChain sha256hex chain = true ↔
      ∀ j, 1 ≤ j → ∀ h : j < chain.length,
        isBlockValid sha256hex (chain.get ⟨j, h⟩) (chain.get ⟨j - 1, by omega⟩) = true := by
  unfold isBlockchainValidChain
  exact isBlockchainValidChain_loop_iff sha256hex chain chain.length 1 (by omega)

theorem isBlockchainValidChain_iff_chain (sha256hex : String → String) (chain : List Block) :
    isBlockchainValidChain sha256hex chain = true ↔
      List.Chain' (fun a b => isBlockValid sha256hex b a = true) chain := by
  rw [isBlockchainValidChain_iff_get, List.chain'_iff_get]
  constructor
  · intro hall i hi
    have := hall (i + 1) (by omega) (by omega)
    simpa using this
  · intro hall j hj h
    have := hall (j - 1) (by omega)
    have e : j - 1 + 1 = j := by omega
    simp only [e] at this
    exact this

theorem inlined_checks_eq (sha256hex : String → String) (currentBlock prevBlock : Block)
    (k : Bool) :
    (if currentBlock.Index ≠ wrapInt (prevBlock.Index + 1) then false
      else if currentBlock.PrevHash ≠ prevBlock.Hash then false
      else if calculateHash sha256hex currentBlock ≠ currentBlock.Hash then false
      else if !stringsHasPrefix currentBlock.Hash (stringsRepeat "0" difficulty) then false
      else k) =
    (if !isBlockValid sha256hex currentBlock prevBlock then false else k) := by
  unfold isBlockValid
  by_cases h1 : wrapInt (prevBlock.Index + 1) = currentBlock.Index
  · by_cases h2 : prevBlock.Hash = currentBlock.PrevHash
    · by_cases h3 : calculateHash sha256hex currentBlock = currentBlock.Hash <;>
      by_cases h4 : stringsHasPrefix currentBlock.Hash (stringsRepeat "0" difficulty) = true <;>
      simp [h1, h2, h3, h4]
    · have h2b : ¬ currentBlock.PrevHash = prevBlock.Hash := fun h => h2 h.symm
      simp [h1, h2, h2b]
  · have h1b : ¬ currentBlock.Index = wrapInt (prevBlock.Index + 1) := fun h => h1 h.symm
    simp [h1, h1b]

theorem isBlockchainValid_loop_eq (sha256hex : String → String) (chain : List Block) :
    ∀ (n i : Nat), isBlockchainValid.loop sha256hex chain i n =
      isBlockchainValidChain.loop sha256hex chain i n := by
  intro n
  induction n with
  | zero =>
    intro i
    rfl
  | succ n ih =>
    intro i
    unfold isBlockchainValid.loop isBlockchainValidChain.loop
    by_cases hlt : i < chain.length
    · simp only [hlt, dite_true, ih (i + 1)]
      exact inlined_checks_eq sha256hex _ _ _
    · simp only [hlt, dite_false]

theorem isBlockchainValid_of_free (sha256hex : String → String) (s : Node)
    (hm : s.mutex = false) :
    isBlockchainValid sha256hex s =
      .returned (isBlockchainValidChain sha256hex s.Blockchain) s := by
  cases s with
  | mk chain m p pm =>
    simp only at hm
    subst hm
    simp [isBlockchainValid, isBlockchainValidChain, isBlockchainValid_loop_eq]

theorem isBlockchainValidChain_cons_cons (sha256hex : String → String) (a b : Block)
    (rest : List Block) :
    isBlockchainValidChain sha256hex (a :: b :: rest) =
      (isBlockValid sha256hex b a && isBlockchainValidChain sha256hex (b :: rest)) := by
  rw [Bool.eq_iff_iff, Bool.and_eq_true, isBlockchainValidChain_iff_chain,
    isBlockchainValidChain_iff_chain, List.chain'_cons]

theorem isBlockValid_congr_prev (sha256hex : String → String) (b p q : Block)
    (hi : p.Index = q.Index) (hh : p.Hash = q.Hash) :
    isBlockValid sha256hex b p = isBlockValid sha256hex b q := by
  simp only [isBlockValid, hi, hh]

/-! ## Mining -/

theorem record_with_hash (block : Block) (hash : String) :
    record { block with Hash := hash } = record block := rfl

theorem proofOfWork_some (sha256hex : String → String) :
    ∀ (fuel : Nat) (block b : Block), proofOfWork sha256hex fuel block = some b →
      b.Index = block.Index ∧ b.Timestamp = block.Timestamp ∧
        b.Transactions = block.Transactions ∧ b.PrevHash = block.PrevHash ∧
        calculateHash sha256hex b = b.Hash ∧
        stringsHasPrefix b.Hash (stringsRepeat "0" difficulty) = true := by
  intro fuel
  induction fuel with
  | zero =>
    intro block b h
    simp [proofOfWork] at h
  | succ fuel ih =>
    intro block b h
    unfold proofOfWork at h
    by_cases hp : stringsHasPrefix (calculateHash sha256hex block)
        (stringsRepeat "0" difficulty) = true
    · simp only [hp, if_true, Option.some.injEq] at h
      subst h
      exact ⟨rfl, rfl, rfl, rfl, rfl, hp⟩
    · simp only [hp, Bool.false_eq_true, if_false] at h
      have hrec := ih { block with Nonce := wrapInt (block.Nonce + 1) } b h
      exact hrec

/-! ## Operations: one lemma per path -/

theorem saveBlockchain_of_held (s : Node) (hm : s.mutex = true) :
    saveBlockchain s = .blocked s := by
  simp [saveBlockchain, hm]

theorem addBlock_of_held (sha256hex : String → String) (s : Node) (b : Block)
    (hm : s.mutex = true) : addBlock sha256hex s b = .blocked s := by
  simp [addBlock, hm]

theorem addBlock_of_empty (sha256hex : String → String) (s : Node) (b : Block)
    (hm : s.mutex = false) (he : s.Blockchain = []) :
    addBlock sha256hex s b = .panicked s := by
  cases s with
  | mk chain m p pm =>
    simp only at hm he
    subst hm he
    simp [addBlock]

theorem addBlock_of_valid (sha256hex : String → String) (s : Node) (b tip : Block)
    (hm : s.mutex = false) (ht : s.Blockchain.getLast? = some tip)
    (hv : isBlockValid sha256hex b tip = true) :
    addBlock sha256hex s b =
      .blocked { s with Blockchain := s.Blockchain ++ [b], mutex := true } := by
  simp [addBlock, hm, ht, hv, saveBlockchain]

theorem addBlock_of_invalid (sha256hex : String → String) (s : Node) (b tip : Block)
    (hm : s.mutex = false) (ht : s.Blockchain.getLast? = some tip)
    (hv : isBlockValid sha256hex b tip = false) :
    addBlock sha256hex s b = .returned false s := by
  cases s with
  | mk chain m p pm =>
    simp only at hm ht
    subst hm
    simp [addBlock, ht, hv]

theorem syncReplace_of_held (sha256hex : String → String) (s : Node) (peer : List Block)
    (hm : s.mutex = true) : syncReplace sha256hex s peer = .blocked s := by
  simp [syncReplace, hm]

theorem syncReplace_of_better (sha256hex : String → String) (s : Node) (peer : List Block)
    (hm : s.mutex = false) (hl : s.Blockchain.length < peer.length)
    (hv : isBlockchainValidChain sha256hex peer = true) :
    syncReplace sha256hex s peer = .blocked { s with Blockchain := peer, mutex := true } := by
  simp [syncReplace, hm, hl, hv, saveBlockchain]

theorem syncReplace_of_not_better (sha256hex : String → String) (s : Node) (peer : List Block)
    (hm : s.mutex = false)
    (hc : ¬ (s.Blockchain.length < peer.length ∧ isBlockchainValidChain sha256hex peer = true)) :
    syncReplace sha256hex s peer = .returned () s := by
  cases s with
  | mk chain m p pm =>
    simp only at hm hc
    subst hm
    have hc2 : (decide (peer.length > chain.length)
        && isBlockchainValidChain sha256hex peer) = false := by
      by_cases hl : chain.length < peer.length
      · have : isBlockchainValidChain sha256hex peer = false := by
          by_contra hne
          exact hc ⟨hl, by simpa using hne⟩
        simp [this]
      · simp [hl]
    simp [syncReplace, hc2]

theorem isBlockchainValidChain_append_one (sha256hex : String → String) (chain : List Block)
    (b tip : Block) (hc : isBlockchainValidChain sha256hex chain = true)
    (ht : chain.getLast? = some tip) (hv : isBlockValid sha256hex b tip = true) :
    isBlockchainValidChain sha256hex (chain ++ [b]) = true := by
  rw [isBlockchainValidChain_iff_chain] at hc ⊢
  rw [List.chain'_append]
  refine ⟨hc, List.chain'_singleton b, ?_⟩
  intro x hx y hy
  rw [ht] at hx
  simp only [Option.mem_def, Option.some.injEq, List.head?_cons] at hx hy
  subst hx hy
  exact hv

/-! ## Sequences of `addBlock` calls -/

theorem addBlockSeq_of_held (sha256hex : String → String) (s : Node) (hm : s.mutex = true) :
    ∀ bs : List Block,
      (∀ o ∈ addBlockSeq sha256hex s bs, o = Outcome.blocked s) ∧
        addBlockSeqState sha256hex s bs = s ∧ acceptedBlocks sha256hex s bs = [] := by
  intro bs
  induction bs with
  | nil => simp [addBlockSeq, addBlockSeqState, acceptedBlocks]
  | cons b bs ih =>
    have hb := addBlock_of_held sha256hex s b hm
    simp only [addBlockSeq, addBlockSeqState, acceptedBlocks, hb, Outcome.state]
    refine ⟨?_, ih.2.1, ?_⟩
    · intro o ho
      rcases List.mem_cons.mp ho with h | h
      · exact h
      · exact ih.1 o h
    · rw [ih.2.2]
      cases s.Blockchain.getLast? <;> simp

theorem acceptedBlocks_cases (sha256hex : String → String) :
    ∀ (bs : List Block) (s : Node),
      acceptedBlocks sha256hex s bs = [] ∨
        ∃ tip b, acceptedBlocks sha256hex s bs = [(tip, b)] ∧
          s.Blockchain.getLast? = some tip ∧ isBlockValid sha256hex b tip = true := by
  intro bs
  induction bs with
  | nil =>
    intro s
    exact Or.inl rfl
  | cons b bs ih =>
    intro s
    by_cases hm : s.mutex = true
    · exact Or.inl (addBlockSeq_of_held sha256hex s hm (b :: bs)).2.2
    · have hm2 : s.mutex = false := by simpa using hm
      cases ht : s.Blockchain.getLast? with
      | none =>
        have hb := addBlock_of_empty sha256hex s b hm2 (List.getLast?_eq_none_iff.mp ht)
        have hrec := ih s
        rw [ht] at hrec
        simp only [acceptedBlocks, hb, Outcome.state, ht]
        exact hrec
      | some tip =>
        by_cases hv : isBlockValid sha256hex b tip = true
        · have hb := addBlock_of_valid sha256hex s b tip hm2 ht hv
          have hrest := (addBlockSeq_of_held sha256hex
            { s with Blockchain := s.Blockchain ++ [b], mutex := true } rfl bs).2.2
          refine Or.inr ⟨tip, b, ?_, rfl, hv⟩
          simp only [acceptedBlocks, hb, Outcome.state, ht, hrest, List.length_append,
            List.length_singleton, if_true]
        · have hv2 : isBlockValid sha256hex b tip = false := by simpa using hv
          have hb := addBlock_of_invalid sha256hex s b tip hm2 ht hv2
          have hrec := ih s
          rw [ht] at hrec
          simp only [acceptedBlocks, hb, Outcome.state, ht]
          have hlen : ¬ s.Blockchain.length = s.Blockchain.length + 1 := by omega
          simp only [hlen, if_false]
          exact hrec

/-! ## Library digest: the constants and the standard test vectors -/

set_option maxRecDepth 1000000 in
theorem roundConstants_eq_cube_roots :
    Sha256.roundConstants = Sha256.primes.map (Sha256.rootFraction 3) := by
  decide

set_option maxRecDepth 1000000 in
theorem initial_eq_square_roots :
    Sha256.wordsOf Sha256.initialRow = (Sha256.primes.take 8).map (Sha256.rootFraction 2) := by
  decide

set_option maxRecDepth 1000000 in
theorem sha256Sum_abc :
    sha256Sum "abc" = "ba7816bf8f01cfea414140de5dae2223b00361a396177a9cb410ff61f20015ad" := by
  decide

set_option maxRecDepth 1000000 in
theorem sha256Sum_empty :
    sha256Sum "" = "e3b0c44298fc1c149afbf4c8996fb92427ae41e4649b934ca495991b7852b855" := by
  decide

/-! ## Concrete ledgers: what the code computes on them -/

set_option maxRecDepth 1000000 in
theorem genesisA_mined :
    createGenesisBlock sha256Sum 3 "2024-01-02T02:05:25Z" = some genesisA := by
  decide

set_option maxRecDepth 1000000 in
theorem blockA1_mined :
    generateBlock sha256Sum 2 "2024-01-02T18:26:48Z" genesisA
      [{ Sender := "A", Recipient := "B", Amount := 10 }] = some blockA1 := by
  decide

set_option maxRecDepth 1000000 in
theorem blockA1_valid : isBlockValid sha256Sum blockA1 genesisA = true := by
  decide

set_option maxRecDepth 1000000 in
theorem blockB1_valid : isBlockValid sha256Sum blockB1 genesisA = true := by
  decide

set_option maxRecDepth 1000000 in
theorem blockC1_valid : isBlockValid sha256Sum blockC1 genesisA = true := by
  decide

set_option maxRecDepth 1000000 in
theorem blockA2_valid : isBlockValid sha256Sum blockA2 blockA1 = true := by
  decide

theorem blockA2_invalid_on_genesisA : isBlockValid sha256Sum blockA2 genesisA = false := by
  decide

set_option maxRecDepth 1000000 in
theorem genesisForged_hash_mismatch :
    calculateHash sha256Sum genesisForged ≠ genesisForged.Hash := by
  decide

set_option maxRecDepth 1000000 in
theorem blockMax_hash : calculateHash sha256Sum blockMax = blockMax.Hash := by
  decide

set_option maxRecDepth 1000000 in
theorem blockWrapped_mined :
    generateBlock sha256Sum 2 "2024-01-04T05:58:46Z" blockMax
      [{ Sender := "A", Recipient := "B", Amount := 10 }] = some blockWrapped := by
  decide

set_option maxRecDepth 1000000 in
theorem blockWrapped_valid : isBlockValid sha256Sum blockWrapped blockMax = true := by
  decide

theorem chainA1_valid : isBlockchainValidChain sha256Sum [genesisA, blockA1] = true := by
  rw [isBlockchainValidChain_cons_cons, blockA1_valid]
  rfl

theorem chainB1_valid : isBlockchainValidChain sha256Sum [genesisA, blockB1] = true := by
  rw [isBlockchainValidChain_cons_cons, blockB1_valid]
  rfl

theorem chainA2_valid :
    isBlockchainValidChain sha256Sum [genesisA, blockA1, blockA2] = true := by
  rw [isBlockchainValidChain_cons_cons, isBlockchainValidChain_cons_cons, blockA1_valid,
    blockA2_valid]
  rfl

theorem chainForged_valid :
    isBlockchainValidChain sha256Sum [genesisForged, blockA1, blockA2] = true := by
  rw [isBlockchainValidChain_cons_cons, isBlockchainValidChain_cons_cons,
    isBlockValid_congr_prev sha256Sum blockA1 genesisForged genesisA rfl rfl, blockA1_valid,
    blockA2_valid]
  rfl

/-! ## C1 to C4: the block check, `addBlock`, the chain check -/

/-- C1: `isBlockValid(newBlock, prevBlock)` is `true` exactly when the four
conditions hold together: `newBlock.Index = prevBlock.Index + 1` (the `+` of Go
`int`), `newBlock.PrevHash = prevBlock.Hash`,
`calculateHash(newBlock) = newBlock.Hash`, and `newBlock.Hash` begins with four
characters `0`; it is `false` exactly when one of them fails. -/
theorem isBlockValid_iff_four_conditions (sha256hex : String → String)
    (newBlock prevBlock : Block) :
    (isBlockValid sha256hex newBlock prevBlock = true ↔
      (newBlock.Index = wrapInt (prevBlock.Index + 1) ∧
        newBlock.PrevHash = prevBlock.Hash ∧
        calculateHash sha256hex newBlock = newBlock.Hash ∧
        ∃ rest : List Char, newBlock.Hash.data = '0' :: '0' :: '0' :: '0' :: rest)) ∧
    (isBlockValid sha256hex newBlock prevBlock = false ↔
      (newBlock.Index ≠ wrapInt (prevBlock.Index + 1) ∨
        newBlock.PrevHash ≠ prevBlock.Hash ∨
        calculateHash sha256hex newBlock ≠ newBlock.Hash ∨
        ¬ ∃ rest : List Char, newBlock.Hash.data = '0' :: '0' :: '0' :: '0' :: rest)) := by
  have key : isBlockValid sha256hex newBlock prevBlock = true ↔
      (newBlock.Index = wrapInt (prevBlock.Index + 1) ∧
        newBlock.PrevHash = prevBlock.Hash ∧
        calculateHash sha256hex newBlock = newBlock.Hash ∧
        ∃ rest : List Char, newBlock.Hash.data = '0' :: '0' :: '0' :: '0' :: rest) := by
    rw [isBlockValid_eq_true_iff, stringsHasPrefix_zeros_iff]
    constructor
    · rintro ⟨h1, h2, h3, h4⟩
      exact ⟨h1.symm, h2.symm, h3, h4⟩
    · rintro ⟨h1, h2, h3, h4⟩
      exact ⟨h1.symm, h2.symm, h3, h4⟩
  refine ⟨key, ?_⟩
  rw [← Bool.not_eq_true, key]
  tauto

/-- C2: on a ledger whose mutex is free and whose chain is not empty, a call
of `addBlock` with a candidate that `isBlockValid` accepts against the tip
appends the candidate and then does not return: it calls `saveBlockchain`
while it holds `mutex`, and `saveBlockchain` locks `mutex` again.  The ledger
chain is the old chain with the candidate appended, and `mutex` stays held. -/
theorem addBlock_valid_does_not_return (sha256hex : String → String) (s : Node)
    (candidate tip : Block) (hm : s.mutex = false)
    (ht : s.Blockchain.getLast? = some tip)
    (hv : isBlockValid sha256hex candidate tip = true) :
    (addBlock sha256hex s candidate).value = none ∧
      addBlock sha256hex s candidate =
        .blocked { s with Blockchain := s.Blockchain ++ [candidate], mutex := true } ∧
      saveBlockchain { s with Blockchain := s.Blockchain ++ [candidate], mutex := true } =
        .blocked { s with Blockchain := s.Blockchain ++ [candidate], mutex := true } := by
  have h := addBlock_of_valid sha256hex s candidate tip hm ht hv
  refine ⟨?_, h, ?_⟩
  · rw [h]
    rfl
  · exact saveBlockchain_of_held _ rfl

set_option maxRecDepth 1000000 in
/-- C2, at a concrete ledger: the chain is `[genesisA]`, the mutex is free, the
candidate is `blockA1`, which `generateBlock` mines on `genesisA` with SHA-256;
`addBlock` does not return and leaves the chain `[genesisA, blockA1]` with the
mutex held. -/
theorem addBlock_valid_does_not_return_witness :
    generateBlock sha256Sum 2 "2024-01-02T18:26:48Z" genesisA
        [{ Sender := "A", Recipient := "B", Amount := 10 }] = some blockA1 ∧
      (addBlock sha256Sum (nodeOf [genesisA]) blockA1).value = none ∧
      addBlock sha256Sum (nodeOf [genesisA]) blockA1 =
        .blocked { nodeOf [genesisA] with Blockchain := [genesisA, blockA1], mutex := true } :=
  ⟨blockA1_mined,
    (addBlock_valid_does_not_return sha256Sum (nodeOf [genesisA]) blockA1 genesisA
      rfl rfl blockA1_valid).1,
    (addBlock_valid_does_not_return sha256Sum (nodeOf [genesisA]) blockA1 genesisA
      rfl rfl blockA1_valid).2.1⟩

/-- C3: on a ledger whose mutex is free and whose chain is not empty, a call
of `addBlock` with a candidate that `isBlockValid` rejects against the tip
returns `false` and leaves the whole state, the chain in particular, as it
was. -/
theorem addBlock_invalid_returns_false (sha256hex : String → String) (s : Node)
    (candidate tip : Block) (hm : s.mutex = false)
    (ht : s.Blockchain.getLast? = some tip)
    (hv : isBlockValid sha256hex candidate tip = false) :
    addBlock sha256hex s candidate = .returned false s ∧
      (addBlock sha256hex s candidate).state.Blockchain = s.Blockchain := by
  have h := addBlock_of_invalid sha256hex s candidate tip hm ht hv
  refine ⟨h, ?_⟩
  rw [h]
  rfl

set_option maxRecDepth 1000000 in
/-- C3, at a concrete ledger: on the chain `[genesisA]` the candidate `blockA2`
(index 2, mined on `blockA1`) is rejected; `addBlock` returns `false` and the
state is unchanged. -/
theorem addBlock_invalid_returns_false_witness :
    isBlockValid sha256Sum blockA2 genesisA = false ∧
      addBlock sha256Sum (nodeOf [genesisA]) blockA2 = .returned false (nodeOf [genesisA]) :=
  ⟨blockA2_invalid_on_genesisA,
    (addBlock_invalid_returns_false sha256Sum (nodeOf [genesisA]) blockA2 genesisA
      rfl rfl blockA2_invalid_on_genesisA).1⟩

/-- C4: `isBlockchainValidChain(chain)` is `true` exactly when
`isBlockValid(chain[i], chain[i-1])` holds at every position `i` from 1 to
`len(chain) - 1`; for the empty chain it is `true`. -/
theorem isBlockchainValidChain_iff_adjacent (sha256hex : String → String)
    (chain : List Block) :
    (isBlockchainValidChain sha256hex chain = true ↔
      ∀ (i : Nat) (h : i < chain.length), 1 ≤ i →
        isBlockValid sha256hex (chain.get ⟨i, h⟩) (chain.get ⟨i - 1, by omega⟩) = true) ∧
    isBlockchainValidChain sha256hex [] = true := by
  refine ⟨?_, rfl⟩
  rw [isBlockchainValidChain_iff_get]
  constructor
  · intro hall i h hi
    exact hall i hi h
  · intro hall i hi h
    exact hall i h hi

/-! ## C5: the first block -/

set_option maxRecDepth 1000000 in
/-- C5, refuted at a concrete chain: `genesisForged` carries a stored hash that
is not the SHA-256 hash of its fields, and the chain
`[genesisForged, blockA1, blockA2]` is reported valid by
`isBlockchainValidChain` and, on the ledger, by `isBlockchainValid`. -/
theorem forged_genesis_reported_valid :
    calculateHash sha256Sum genesisForged ≠ genesisForged.Hash ∧
      isBlockchainValidChain sha256Sum [genesisForged, blockA1, blockA2] = true ∧
      isBlockchainValid sha256Sum (nodeOf [genesisForged, blockA1, blockA2]) =
        .returned true (nodeOf [genesisForged, blockA1, blockA2]) := by
  refine ⟨genesisForged_hash_mismatch, chainForged_valid, ?_⟩
  rw [isBlockchainValid_of_free sha256Sum _ rfl]
  exact congrArg (fun v => Outcome.returned v (nodeOf [genesisForged, blockA1, blockA2]))
    chainForged_valid

/-- C5, as amended: the chain check does not examine the hash of the first
block.  When `isBlockchainValidChain` is `true`, the stored hash of every block
at a position from 1 on equals `calculateHash` of that block; `isBlockchainValid`
on a ledger with a free mutex returns what `isBlockchainValidChain` gives on the
ledger chain; the result depends on the first block through its `Index` and
its stored `Hash` only; and every chain of one block is reported valid. -/
theorem chain_check_skips_first_block_hash (sha256hex : String → String) :
    (∀ chain : List Block, isBlockchainValidChain sha256hex chain = true →
      ∀ (i : Nat) (h : i < chain.length), 1 ≤ i →
        calculateHash sha256hex (chain.get ⟨i, h⟩) = (chain.get ⟨i, h⟩).Hash) ∧
    (∀ s : Node, s.mutex = false →
      isBlockchainValid sha256hex s =
        .returned (isBlockchainValidChain sha256hex s.Blockchain) s) ∧
    (∀ (first other : Block) (rest : List Block),
      first.Index = other.Index → first.Hash = other.Hash →
        isBlockchainValidChain sha256hex (first :: rest) =
          isBlockchainValidChain sha256hex (other :: rest)) ∧
    (∀ b : Block, isBlockchainValidChain sha256hex [b] = true) := by
  refine ⟨?_, ?_, ?_, ?_⟩
  · intro chain hv i h hi
    have := (isBlockchainValidChain_iff_get sha256hex chain).mp hv i hi h
    exact ((isBlockValid_eq_true_iff sha256hex _ _).mp this).2.2.1
  · intro s hm
    exact isBlockchainValid_of_free sha256hex s hm
  · intro first other rest hi hh
    cases rest with
    | nil => rfl
    | cons b rest =>
      rw [isBlockchainValidChain_cons_cons, isBlockchainValidChain_cons_cons]
      congr 1
      simp only [isBlockValid, hi, hh]
  · intro b
    rfl

/-! ## C6: the replace step -/

/-- C6: on a ledger whose mutex is free, the replace step of `syncBlockchain`
leaves the ledger chain equal to the candidate when the candidate is longer
than the current chain and `isBlockchainValidChain` accepts it, and in every
other case returns with the whole state, the chain in particular, as it was.
(On the adopting path the step sets the chain and is then stopped in
`saveBlockchain`, which locks the mutex the step holds.) -/
theorem syncReplace_adopts_iff_longer_valid (sha256hex : String → String) (s : Node)
    (candidate : List Block) (hm : s.mutex = false) :
    (s.Blockchain.length < candidate.length ∧
        isBlockchainValidChain sha256hex candidate = true →
      (syncReplace sha256hex s candidate).state.Blockchain = candidate) ∧
    (¬ (s.Blockchain.length < candidate.length ∧
        isBlockchainValidChain sha256hex candidate = true) →
      (syncReplace sha256hex s candidate).state.Blockchain = s.Blockchain ∧
        syncReplace sha256hex s candidate = .returned () s) := by
  constructor
  · rintro ⟨hl, hv⟩
    rw [syncReplace_of_better sha256hex s candidate hm hl hv]
    rfl
  · intro hc
    rw [syncReplace_of_not_better sha256hex s candidate hm hc]
    exact ⟨rfl, rfl⟩

set_option maxRecDepth 1000000 in
/-- C6, at concrete ledgers: the ledger `[genesisA]` takes the longer valid
chain `[genesisA, blockA1]`; the ledger `[genesisA, blockA1]` keeps its chain
against the valid chain `[genesisA, blockB1]` of equal length. -/
theorem syncReplace_adopts_iff_longer_valid_witness :
    (syncReplace sha256Sum (nodeOf [genesisA]) [genesisA, blockA1]).state.Blockchain =
        [genesisA, blockA1] ∧
      isBlockchainValidChain sha256Sum [genesisA, blockB1] = true ∧
      syncReplace sha256Sum (nodeOf [genesisA, blockA1]) [genesisA, blockB1] =
        .returned () (nodeOf [genesisA, blockA1]) :=
  ⟨(syncReplace_adopts_iff_longer_valid sha256Sum (nodeOf [genesisA]) [genesisA, blockA1]
      rfl).1 ⟨by decide, chainA1_valid⟩,
    chainB1_valid,
    ((syncReplace_adopts_iff_longer_valid sha256Sum (nodeOf [genesisA, blockA1])
      [genesisA, blockB1] rfl).2 (fun h => absurd h.1 (by decide))).2⟩

/-! ## C7: mining -/

/-- C7: a block `b` returned by `generateBlock(prev, txs)` passes
`isBlockValid(b, prev)`: `b.Index = prev.Index + 1` (the `+` of Go `int`),
`b.PrevHash = prev.Hash`, `b.Transactions = txs`, `b.Hash = calculateHash(b)`
and `b.Hash` begins with four characters `0`. -/
theorem generateBlock_isBlockValid (sha256hex : String → String) (fuel : Nat)
    (now : String) (prev : Block) (txs : List Transaction) (b : Block)
    (hg : generateBlock sha256hex fuel now prev txs = some b) :
    isBlockValid sha256hex b prev = true ∧
      b.Index = wrapInt (prev.Index + 1) ∧ b.PrevHash = prev.Hash ∧
      b.Transactions = txs ∧ b.Hash = calculateHash sha256hex b ∧
      ∃ rest : List Char, b.Hash.data = '0' :: '0' :: '0' :: '0' :: rest := by
  obtain ⟨h1, _, h3, h4, h5, h6⟩ := proofOfWork_some sha256hex fuel _ b hg
  simp only at h1 h3 h4
  refine ⟨?_, h1, h4, h3, h5.symm, (stringsHasPrefix_zeros_iff b.Hash).mp h6⟩
  rw [isBlockValid_eq_true_iff]
  exact ⟨h1.symm, h4.symm, h5, h6⟩

set_option maxRecDepth 1000000 in
/-- C7, at the scenario of the specification: on the genesis block `genesisA`
(index 0, empty `PrevHash`) and the transaction `A -> B : 10`, mining with
SHA-256 returns `blockA1`, a block at index 1 whose `PrevHash` is the hash of
the genesis block and which `isBlockValid` accepts. -/
theorem generateBlock_isBlockValid_witness :
    genesisA.Index = 0 ∧ genesisA.PrevHash = "" ∧
      generateBlock sha256Sum 2 "2024-01-02T18:26:48Z" genesisA
        [{ Sender := "A", Recipient := "B", Amount := 10 }] = some blockA1 ∧
      blockA1.Index = 1 ∧ blockA1.PrevHash = genesisA.Hash ∧
      isBlockValid sha256Sum blockA1 genesisA = true :=
  ⟨rfl, rfl, blockA1_mined, rfl, rfl,
    (generateBlock_isBlockValid sha256Sum 2 "2024-01-02T18:26:48Z" genesisA
      [{ Sender := "A", Recipient := "B", Amount := 10 }] blockA1 blockA1_mined).1⟩

/-! ## C8 to C10: sequences of `addBlock` calls -/

/-- C8: on a ledger whose mutex is free, with tip `tip`, when `N >= 1`
candidates that each pass `isBlockValid` against `tip` are submitted to
`addBlock` one after another, no call returns: the first appends its candidate
and is stopped in `saveBlockchain` holding the mutex, the others are stopped at
`mutex.Lock()`.  The number of calls returning `true` is 0 and the number
returning `false` is 0; the chain has grown by the first candidate alone. -/
theorem addBlockSeq_same_tip_no_call_returns (sha256hex : String → String) (s : Node)
    (tip first : Block) (others : List Block) (hm : s.mutex = false)
    (ht : s.Blockchain.getLast? = some tip)
    (hall : ∀ c ∈ first :: others, isBlockValid sha256hex c tip = true) :
    (∀ o ∈ addBlockSeq sha256hex s (first :: others), o.value = none) ∧
      (addBlockSeq sha256hex s (first :: others)).countP (fun o => o.value = some true) = 0 ∧
      (addBlockSeq sha256hex s (first :: others)).countP (fun o => o.value = some false) = 0 ∧
      (addBlockSeqState sha256hex s (first :: others)).Blockchain = s.Blockchain ++ [first] ∧
      (addBlockSeqState sha256hex s (first :: others)).mutex = true := by
  have hfirst := addBlock_of_valid sha256hex s first tip hm ht
    (hall first (List.mem_cons_self _ _))
  have hrest := addBlockSeq_of_held sha256hex
    { s with Blockchain := s.Blockchain ++ [first], mutex := true } rfl others
  have hnone : ∀ o ∈ addBlockSeq sha256hex s (first :: others), o.value = none := by
    intro o ho
    simp only [addBlockSeq, hfirst, Outcome.state] at ho
    rcases List.mem_cons.mp ho with h | h
    · rw [h]
      rfl
    · rw [hrest.1 o h]
      rfl
  refine ⟨hnone, ?_, ?_, ?_, ?_⟩
  · rw [List.countP_eq_zero]
    intro o ho
    simp [hnone o ho]
  · rw [List.countP_eq_zero]
    intro o ho
    simp [hnone o ho]
  · simp only [addBlockSeqState, hfirst, Outcome.state]
    rw [hrest.2.1]
  · simp only [addBlockSeqState, hfirst, Outcome.state]
    rw [hrest.2.1]

set_option maxRecDepth 1000000 in
/-- C8, at a concrete ledger: on the chain `[genesisA]` the three blocks
`blockA1`, `blockB1`, `blockC1`, each mined on `genesisA` with SHA-256, are
submitted in that order; each of the three calls is blocked, none returns. -/
theorem addBlockSeq_same_tip_no_call_returns_witness :
    addBlockSeq sha256Sum (nodeOf [genesisA]) [blockA1, blockB1, blockC1] =
        [.blocked { nodeOf [genesisA] with Blockchain := [genesisA, blockA1], mutex := true },
          .blocked { nodeOf [genesisA] with Blockchain := [genesisA, blockA1], mutex := true },
          .blocked { nodeOf [genesisA] with Blockchain := [genesisA, blockA1], mutex := true }] ∧
      (addBlockSeq sha256Sum (nodeOf [genesisA]) [blockA1, blockB1, blockC1]).countP
        (fun o => o.value = some true) = 0 :=
  ⟨by decide,
    (addBlockSeq_same_tip_no_call_returns sha256Sum (nodeOf [genesisA]) genesisA blockA1
      [blockB1, blockC1] rfl rfl (by
        intro c hc
        simp only [List.mem_cons, List.mem_singleton, List.not_mem_nil, or_false] at hc
        rcases hc with rfl | rfl | rfl
        exacts [blockA1_valid, blockB1_valid, blockC1_valid])).2.1⟩

/-- C9: chain validity is kept by `addBlock` and by the replace step of
`syncBlockchain`: when `isBlockchainValidChain` accepts the ledger chain before
the call, it accepts the ledger chain the call leaves, whatever the candidate
block or the peer chain, accepted or not. -/
theorem chain_validity_preserved (sha256hex : String → String) (s : Node)
    (hv : isBlockchainValidChain sha256hex s.Blockchain = true) :
    (∀ candidate : Block,
      isBlockchainValidChain sha256hex (addBlock sha256hex s candidate).state.Blockchain
        = true) ∧
    (∀ peerChain : List Block,
      isBlockchainValidChain sha256hex (syncReplace sha256hex s peerChain).state.Blockchain
        = true) := by
  constructor
  · intro candidate
    by_cases hm : s.mutex = true
    · rw [addBlock_of_held sha256hex s candidate hm]
      exact hv
    · have hm2 : s.mutex = false := by simpa using hm
      cases ht : s.Blockchain.getLast? with
      | none =>
        rw [addBlock_of_empty sha256hex s candidate hm2 (List.getLast?_eq_none_iff.mp ht)]
        exact hv
      | some tip =>
        by_cases hb : isBlockValid sha256hex candidate tip = true
        · rw [addBlock_of_valid sha256hex s candidate tip hm2 ht hb]
          exact isBlockchainValidChain_append_one sha256hex s.Blockchain candidate tip hv ht hb
        · have hb2 : isBlockValid sha256hex candidate tip = false := by simpa using hb
          rw [addBlock_of_invalid sha256hex s candidate tip hm2 ht hb2]
          exact hv
  · intro peerChain
    by_cases hm : s.mutex = true
    · rw [syncReplace_of_held sha256hex s peerChain hm]
      exact hv
    · have hm2 : s.mutex = false := by simpa using hm
      by_cases hc : s.Blockchain.length < peerChain.length ∧
          isBlockchainValidChain sha256hex peerChain = true
      · rw [syncReplace_of_better sha256hex s peerChain hm2 hc.1 hc.2]
        exact hc.2
      · rw [syncReplace_of_not_better sha256hex s peerChain hm2 hc]
        exact hv

set_option maxRecDepth 1000000 in
/-- C9, at a concrete ledger: the chain `[genesisA, blockA1]` is valid; after
`addBlock` with `blockA2` the ledger chain is `[genesisA, blockA1, blockA2]`
and valid, and after the replace step with the peer chain
`[genesisA, blockA1, blockA2]` it is valid too. -/
theorem chain_validity_preserved_witness :
    isBlockchainValidChain sha256Sum (nodeOf [genesisA, blockA1]).Blockchain = true ∧
      (addBlock sha256Sum (nodeOf [genesisA, blockA1]) blockA2).state.Blockchain =
        [genesisA, blockA1, blockA2] ∧
      isBlockchainValidChain sha256Sum
        (addBlock sha256Sum (nodeOf [genesisA, blockA1]) blockA2).state.Blockchain = true ∧
      isBlockchainValidChain sha256Sum
        (syncReplace sha256Sum (nodeOf [genesisA, blockA1])
          [genesisA, blockA1, blockA2]).state.Blockchain = true :=
  ⟨chainA1_valid,
    by rw [addBlock_of_valid sha256Sum (nodeOf [genesisA, blockA1]) blockA2 blockA1 rfl rfl
      blockA2_valid]; rfl,
    (chain_validity_preserved sha256Sum (nodeOf [genesisA, blockA1]) chainA1_valid).1 blockA2,
    (chain_validity_preserved sha256Sum (nodeOf [genesisA, blockA1]) chainA1_valid).2
      [genesisA, blockA1, blockA2]⟩

set_option maxRecDepth 1000000 in
/-- C10, refuted at a concrete ledger: the chain is `[blockMax]`, whose tip has
the largest `int` as index; `generateBlock` mines `blockWrapped` on it with
SHA-256 and `addBlock` accepts it; the index of the accepted block is the
smallest `int`: it is not one greater than the index of the tip, it is below
it. -/
theorem accepted_index_wraps_at_largest_int :
    calculateHash sha256Sum blockMax = blockMax.Hash ∧
      generateBlock sha256Sum 2 "2024-01-04T05:58:46Z" blockMax
        [{ Sender := "A", Recipient := "B", Amount := 10 }] = some blockWrapped ∧
      acceptedBlocks sha256Sum (nodeOf [blockMax]) [blockWrapped] =
        [(blockMax, blockWrapped)] ∧
      blockWrapped.Index ≠ blockMax.Index + 1 ∧ blockWrapped.Index < blockMax.Index :=
  ⟨blockMax_hash, blockWrapped_mined, by decide, by decide, by decide⟩

/-- C10, as amended: for every starting ledger and every sequence of `addBlock`
calls, each accepted block has as `Index` the `Index` of the block that was the
tip when it was accepted plus one in Go `int` arithmetic, which is exactly one
greater when that tip's index is below the largest `int`; the first accepted
block was checked against the last block of the starting chain, and each later
one against the block accepted before it, with an index one greater than that
block's when it is below the largest `int`. -/
theorem accepted_index_is_tip_index_plus_one (sha256hex : String → String) (s : Node)
    (candidates : List Block) :
    (∀ p ∈ acceptedBlocks sha256hex s candidates,
      p.2.Index = wrapInt (p.1.Index + 1) ∧
        (minInt ≤ p.1.Index → p.1.Index < maxInt → p.2.Index = p.1.Index + 1)) ∧
    (∀ p ∈ (acceptedBlocks sha256hex s candidates).head?,
      s.Blockchain.getLast? = some p.1) ∧
    List.Chain' (fun p q : Block × Block =>
        q.1 = p.2 ∧ (minInt ≤ p.2.Index → p.2.Index < maxInt → q.2.Index = p.2.Index + 1))
      (acceptedBlocks sha256hex s candidates) := by
  rcases acceptedBlocks_cases sha256hex candidates s with h | ⟨tip, b, h, ht, hv⟩
  · rw [h]
    simp
  · rw [h]
    have hidx : b.Index = wrapInt (tip.Index + 1) :=
      ((isBlockValid_eq_true_iff sha256hex b tip).mp hv).1.symm
    refine ⟨?_, ?_, List.chain'_singleton _⟩
    · intro p hp
      rw [List.mem_singleton] at hp
      subst hp
      refine ⟨hidx, ?_⟩
      intro h1 h2
      simp only
      rw [hidx, wrapInt_succ_of_lt tip.Index h1 h2]
    · intro p hp
      simp only [List.head?_cons, Option.mem_def, Option.some.injEq] at hp
      subst hp
      exact ht

set_option maxRecDepth 1000000 in
/-- C10, at a concrete ledger: on the chain `[genesisA]` the candidates
`blockA2`, `blockA1`, `blockB1` are submitted in that order; `blockA1` alone is
accepted, against the tip `genesisA`, and its index 1 is one greater than the
index 0 of the tip. -/
theorem accepted_index_is_tip_index_plus_one_witness :
    acceptedBlocks sha256Sum (nodeOf [genesisA]) [blockA2, blockA1, blockB1] =
        [(genesisA, blockA1)] ∧
      blockA1.Index = wrapInt (genesisA.Index + 1) ∧ blockA1.Index = genesisA.Index + 1 :=
  ⟨by decide,
    ((accepted_index_is_tip_index_plus_one sha256Sum (nodeOf [genesisA])
      [blockA2, blockA1, blockB1]).1 (genesisA, blockA1) (by decide)).1,
    ((accepted_index_is_tip_index_plus_one sha256Sum (nodeOf [genesisA])
      [blockA2, blockA1, blockB1]).1 (genesisA, blockA1) (by decide)).2
        (by decide) (by decide)⟩

/-! ## Rendering of integers -/

theorem digitChar_isDigit (d : Nat) (h : d < 10) : (Nat.digitChar d).isDigit = true := by
  interval_cases d <;> decide

theorem digitChar_toNat (d : Nat) (h : d < 10) : (Nat.digitChar d).toNat - 48 = d := by
  interval_cases d <;> decide

theorem toDigitsCore_isDigit :
    ∀ (fuel n : Nat) (ds : List Char), (∀ c ∈ ds, c.isDigit = true) →
      ∀ c ∈ Nat.toDigitsCore 10 fuel n ds, c.isDigit = true := by
  intro fuel
  induction fuel with
  | zero =>
    intro n ds hds c hc
    exact hds c hc
  | succ fuel ih =>
    intro n ds hds c hc
    have hd : ∀ c ∈ Nat.digitChar (n % 10) :: ds, c.isDigit = true := by
      intro c hc
      rcases List.mem_cons.mp hc with h | h
      · rw [h]
        exact digitChar_isDigit _ (Nat.mod_lt _ (by decide))
      · exact hds c h
    unfold Nat.toDigitsCore at hc
    by_cases h0 : n / 10 = 0
    · simp only [h0, if_true] at hc
      exact hd c hc
    · simp only [h0, if_false] at hc
      exact ih _ _ hd c hc

theorem toDigitsCore_value :
    ∀ (fuel n : Nat) (ds : List Char), n < fuel →
      (Nat.toDigitsCore 10 fuel n ds).foldl (fun a c => 10 * a + (c.toNat - 48)) 0 =
        ds.foldl (fun a c => 10 * a + (c.toNat - 48)) n := by
  intro fuel
  induction fuel with
  | zero =>
    intro n ds h
    omega
  | succ fuel ih =>
    intro n ds h
    unfold Nat.toDigitsCore
    by_cases h0 : n / 10 = 0
    · simp only [h0, if_true, List.foldl_cons, Nat.mul_zero, Nat.zero_add]
      rw [digitChar_toNat _ (Nat.mod_lt _ (by decide))]
      congr 1
      omega
    · simp only [h0, if_false]
      rw [ih (n / 10) _ (by omega)]
      simp only [List.foldl_cons]
      rw [digitChar_toNat _ (Nat.mod_lt _ (by decide))]
      congr 1
      omega

theorem natRepr_injective : Function.Injective Nat.repr := by
  intro m n h
  have hd : Nat.toDigits 10 m = Nat.toDigits 10 n := by
    have := congrArg String.data h
    simpa [Nat.repr, List.asString] using this
  have hm := toDigitsCore_value (m + 1) m [] (by omega)
  have hn := toDigitsCore_value (n + 1) n [] (by omega)
  simp only [List.foldl_nil] at hm hn
  unfold Nat.toDigits at hd
  rw [← hm, ← hn, hd]

theorem natRepr_isDigit (n : Nat) : ∀ c ∈ (Nat.repr n).data, c.isDigit = true := by
  intro c hc
  exact toDigitsCore_isDigit (n + 1) n [] (by simp) c (by simpa [Nat.repr, List.asString, Nat.toDigits] using hc)

theorem fmtInt_injective : Function.Injective fmtInt := by
  intro a b h
  unfold fmtInt at h
  cases a with
  | ofNat m =>
    cases b with
    | ofNat n =>
      have : Nat.repr m = Nat.repr n := h
      rw [natRepr_injective this]
    | negSucc n =>
      exfalso
      have h2 : Nat.repr m = "-" ++ Nat.repr (n + 1) := h
      have hmem : '-' ∈ (Nat.repr m).data := by
        rw [h2]
        simp
      have := natRepr_isDigit m '-' hmem
      exact absurd this (by decide)
  | negSucc m =>
    cases b with
    | ofNat n =>
      exfalso
      have h2 : "-" ++ Nat.repr (m + 1) = Nat.repr n := h
      have hmem : '-' ∈ (Nat.repr n).data := by
        rw [← h2]
        simp
      have := natRepr_isDigit n '-' hmem
      exact absurd this (by decide)
    | negSucc n =>
      have h2 : "-" ++ Nat.repr (m + 1) = "-" ++ Nat.repr (n + 1) := h
      have h3 : Nat.repr (m + 1) = Nat.repr (n + 1) := by
        have := congrArg String.data h2
        simp only [String.data_append, List.append_cancel_left_eq] at this
        exact String.ext this
      have := natRepr_injective h3
      have : m = n := by omega
      rw [this]

theorem fmtInt_no_brace (z : Int) : '\x7d' ∉ (fmtInt z).data := by
  intro hmem
  unfold fmtInt at hmem
  cases z with
  | ofNat m =>
    have hm : '\x7d' ∈ (Nat.repr m).data := hmem
    exact absurd (natRepr_isDigit m _ hm) (by decide)
  | negSucc m =>
    have hm : '\x7d' ∈ ("-" ++ Nat.repr (m + 1)).data := hmem
    simp only [String.data_append, List.mem_append] at hm
    rcases hm with h | h
    · exact absurd h (by decide)
    · exact absurd (natRepr_isDigit (m + 1) _ h) (by decide)

/-! ## Strings: concatenation and `intercalate` -/

theorem string_append_left_cancel (p a b : String) (h : p ++ a = p ++ b) : a = b := by
  have := congrArg String.data h
  simp only [String.data_append, List.append_cancel_left_eq] at this
  exact String.ext this

theorem string_append_right_cancel (a b s : String) (h : a ++ s = b ++ s) : a = b := by
  have := congrArg String.data h
  simp only [String.data_append, List.append_cancel_right_eq] at this
  exact String.ext this

theorem intercalate_go_eq (sep : String) :
    ∀ (l : List String) (acc : String),
      String.intercalate.go acc sep l = acc ++ separated sep l := by
  intro l
  induction l with
  | nil =>
    intro acc
    simp [String.intercalate.go, separated]
  | cons a rest ih =>
    intro acc
    simp only [String.intercalate.go, separated, ih, String.append_assoc]

theorem separated_append (sep : String) (l1 l2 : List String) :
    separated sep (l1 ++ l2) = separated sep l1 ++ separated sep l2 := by
  induction l1 with
  | nil => simp [separated]
  | cons a rest ih =>
    rw [List.cons_append, separated, separated, ih]
    simp only [String.append_assoc]

/-- One slot: the joined string is the slot's string between two strings that
do not depend on it. -/
theorem intercalate_slot (sep : String) (A B : List String) :
    ∃ P S : String, ∀ x : String, sep.intercalate (A ++ x :: B) = P ++ x ++ S := by
  cases A with
  | nil =>
    refine ⟨"", separated sep B, ?_⟩
    intro x
    simp [String.intercalate, intercalate_go_eq]
  | cons a A =>
    refine ⟨a ++ separated sep A ++ sep, separated sep B, ?_⟩
    intro x
    simp only [List.cons_append, String.intercalate, intercalate_go_eq, separated_append,
      separated, String.append_assoc]

/-- Two slots. -/
theorem intercalate_two_slots (sep : String) (A B C : List String) :
    ∃ P M S : String, ∀ x y : String,
      sep.intercalate (A ++ x :: (B ++ y :: C)) = P ++ x ++ M ++ y ++ S := by
  cases A with
  | nil =>
    refine ⟨"", separated sep B ++ sep, separated sep C, ?_⟩
    intro x y
    simp [String.intercalate, intercalate_go_eq, separated_append, separated,
      String.append_assoc]
  | cons a A =>
    refine ⟨a ++ separated sep A ++ sep, separated sep B ++ sep, separated sep C, ?_⟩
    intro x y
    simp only [List.cons_append, String.intercalate, intercalate_go_eq, separated_append,
      separated, String.append_assoc]

theorem fmtTransaction_data (t : Transaction) :
    (fmtTransaction t).data =
      '\x7b' :: (t.Sender.data ++ ' ' :: (t.Recipient.data ++ ' ' ::
        ((fmtInt t.Amount).data ++ ['\x7d']))) := by
  simp only [fmtTransaction, String.data_append, List.append_assoc]
  rfl

theorem split_at_separator (c : Char) :
    ∀ (a a' r r' : List Char), c ∉ a → c ∉ a' → a ++ c :: r = a' ++ c :: r' →
      a = a' ∧ r = r' := by
  intro a
  induction a with
  | nil =>
    intro a' r r' _ ha' h
    cases a' with
    | nil =>
      simp only [List.nil_append, List.cons.injEq, true_and] at h
      exact ⟨rfl, h⟩
    | cons x a' =>
      exfalso
      simp only [List.nil_append, List.cons_append, List.cons.injEq] at h
      exact ha' (by rw [← h.1]; exact List.mem_cons_self _ _)
  | cons x a ih =>
    intro a' r r' ha ha' h
    cases a' with
    | nil =>
      exfalso
      simp only [List.nil_append, List.cons_append, List.cons.injEq] at h
      exact ha (by rw [h.1]; exact List.mem_cons_self _ _)
    | cons y a' =>
      simp only [List.cons_append, List.cons.injEq] at h
      have := ih a' r r' (fun hm => ha (List.mem_cons_of_mem _ hm))
        (fun hm => ha' (List.mem_cons_of_mem _ hm)) h.2
      exact ⟨by rw [h.1, this.1], this.2⟩

/-- A rendered transaction with blank-free names is never the beginning of
the rendering of another one. -/
theorem fmtTransaction_eq_of_initial (t1 t2 : Transaction) (u : List Char)
    (hs1 : ' ' ∉ t1.Sender.data) (hr1 : ' ' ∉ t1.Recipient.data)
    (hs2 : ' ' ∉ t2.Sender.data) (hr2 : ' ' ∉ t2.Recipient.data)
    (h : (fmtTransaction t1).data ++ u = (fmtTransaction t2).data) : t1 = t2 := by
  rw [fmtTransaction_data, fmtTransaction_data] at h
  simp only [List.cons_append, List.append_assoc, List.cons.injEq, true_and,
    List.nil_append] at h
  obtain ⟨hS, h⟩ := split_at_separator ' ' _ _ _ _ hs1 hs2 h
  obtain ⟨hR, h⟩ := split_at_separator ' ' _ _ _ _ hr1 hr2 h
  obtain ⟨hA, _⟩ := split_at_separator '\x7d' _ _ _ _ (fmtInt_no_brace _) (fmtInt_no_brace _) h
  cases t1
  cases t2
  simp only at hS hR hA
  simp only [Transaction.mk.injEq]
  exact ⟨String.ext hS, String.ext hR, fmtInt_injective (String.ext hA)⟩

/-- The record, with one transaction of the list singled out: its rendering
stands between two strings that do not depend on it. -/
theorem record_slot (b : Block) (A B : List Transaction) :
    ∃ L R : String, ∀ t : Transaction,
      record { b with Transactions := A ++ t :: B } = L ++ fmtTransaction t ++ R := by
  obtain ⟨P, S, hPS⟩ := intercalate_slot " " (A.map fmtTransaction) (B.map fmtTransaction)
  refine ⟨fmtInt b.Index ++ b.Timestamp ++ "[" ++ P, S ++ "]" ++ b.PrevHash ++ fmtInt b.Nonce, ?_⟩
  intro t
  simp only [record, fmtTransactions, List.map_append, List.map_cons, hPS, String.append_assoc]

/-- The record, with two transactions of the list singled out. -/
theorem record_two_slots (b : Block) (A B C : List Transaction) :
    ∃ L M R : String, ∀ t1 t2 : Transaction,
      record { b with Transactions := A ++ t1 :: (B ++ t2 :: C) } =
        L ++ fmtTransaction t1 ++ M ++ fmtTransaction t2 ++ R := by
  obtain ⟨P, M, S, h⟩ := intercalate_two_slots " " (A.map fmtTransaction)
    (B.map fmtTransaction) (C.map fmtTransaction)
  refine ⟨fmtInt b.Index ++ b.Timestamp ++ "[" ++ P, M,
    S ++ "]" ++ b.PrevHash ++ fmtInt b.Nonce, ?_⟩
  intro t1 t2
  simp only [record, fmtTransactions, List.map_append, List.map_cons, h, String.append_assoc]

/-! ## Tampering with a block of a chain -/

theorem isBlockchainValidChain_set_false (sha256hex : String → String) (chain : List Block)
    (i : Nat) (hi : 1 ≤ i) (h : i < chain.length) (b : Block)
    (hb : isBlockValid sha256hex b (chain.get ⟨i - 1, by omega⟩) = false) :
    isBlockchainValidChain sha256hex (chain.set i b) = false := by
  rw [← Bool.not_eq_true]
  intro hv
  have hlen : i < (chain.set i b).length := by simpa using h
  have := (isBlockchainValidChain_iff_get sha256hex (chain.set i b)).mp hv i hi hlen
  have e1 : (chain.set i b).get ⟨i, hlen⟩ = b := by simp
  have e2 : (chain.set i b).get ⟨i - 1, by omega⟩ = chain.get ⟨i - 1, by omega⟩ := by
    simp only [List.get_eq_getElem]
    rw [List.getElem_set_ne]
    omega
  rw [e1, e2, hb] at this
  exact Bool.noConfusion this

theorem isBlockchainValidChain_of_initial (sha256hex : String → String)
    (p chain : List Block) (hp : p <+: chain)
    (hv : isBlockchainValidChain sha256hex chain = true) :
    isBlockchainValidChain sha256hex p = true := by
  rw [isBlockchainValidChain_iff_chain] at hv ⊢
  exact hv.prefix hp

theorem isBlockchainValidChain_false_of_pair (sha256hex : String → String)
    (chain : List Block) (k : Nat) (hk : 1 ≤ k) (h : k < chain.length)
    (hb : isBlockValid sha256hex (chain.get ⟨k, h⟩) (chain.get ⟨k - 1, by omega⟩) = false) :
    isBlockchainValidChain sha256hex chain = false := by
  rw [← Bool.not_eq_true]
  intro hv
  have := (isBlockchainValidChain_iff_get sha256hex chain).mp hv k hk h
  rw [hb] at this
  exact Bool.noConfusion this

theorem fmtTransaction_ne_of_oneFieldChanged (t t' : Transaction) (h : OneFieldChanged t t') :
    fmtTransaction t' ≠ fmtTransaction t := by
  intro heq
  have hd := congrArg String.data heq
  rw [fmtTransaction_data, fmtTransaction_data] at hd
  simp only [List.cons.injEq, true_and] at hd
  rcases h with ⟨hs, hr, ha⟩ | ⟨hs, hr, ha⟩ | ⟨hs, hr, ha⟩
  · rw [hr, ha] at hd
    exact hs (String.ext (List.append_cancel_right hd))
  · rw [hs, ha] at hd
    have h2 := List.append_cancel_left hd
    simp only [List.cons.injEq, true_and] at h2
    exact hr (String.ext (List.append_cancel_right h2))
  · rw [hs, hr] at hd
    have h2 := List.append_cancel_left hd
    simp only [List.cons.injEq, true_and] at h2
    have h3 := List.append_cancel_left h2
    simp only [List.cons.injEq, true_and] at h3
    exact ha (fmtInt_injective (String.ext (List.append_cancel_right h3)))

theorem record_ne_of_oneFieldChanged (b : Block) (A B : List Transaction)
    (t t' : Transaction) (h : OneFieldChanged t t') :
    record { b with Transactions := A ++ t' :: B } ≠
      record { b with Transactions := A ++ t :: B } := by
  obtain ⟨L, R, hLR⟩ := record_slot b A B
  rw [hLR t', hLR t]
  intro heq
  have h1 := string_append_right_cancel _ _ _ heq
  have h2 := string_append_left_cancel _ _ _ h1
  exact fmtTransaction_ne_of_oneFieldChanged t t' h h2

theorem block_with_own_transactions (b : Block) (txs : List Transaction)
    (h : b.Transactions = txs) : { b with Transactions := txs } = b := by
  cases b
  simp only at h
  simp only [h]

/-! ## Concrete ledgers: the five-block chain -/

set_option maxRecDepth 1000000 in
theorem blockA3_valid : isBlockValid sha256Sum blockA3 blockA2 = true := by
  decide

set_option maxRecDepth 1000000 in
theorem blockA4_valid : isBlockValid sha256Sum blockA4 blockA3 = true := by
  decide

theorem chainA4_valid :
    isBlockchainValidChain sha256Sum [genesisA, blockA1, blockA2, blockA3, blockA4] = true := by
  rw [isBlockchainValidChain_cons_cons, isBlockchainValidChain_cons_cons,
    isBlockchainValidChain_cons_cons, isBlockchainValidChain_cons_cons, blockA1_valid,
    blockA2_valid, blockA3_valid, blockA4_valid]
  rfl

set_option maxRecDepth 1000000 in
theorem blockA2Tampered_digest :
    sha256Sum (record blockA2Tampered) ≠ sha256Sum (record blockA2) := by
  decide

set_option maxRecDepth 1000000 in
theorem blockA2Tampered_invalid : isBlockValid sha256Sum blockA2Tampered blockA1 = false := by
  decide

/-! ## C11 to C15: tampering and the digest -/

/-- C11: in a chain that `isBlockchainValidChain` accepts, replacing the
`Index` of the block at a position `i >= 1` by a different integer, or its
`PrevHash` by a different string, all other data left as it was, gives a chain
that `isBlockchainValidChain` rejects. -/
theorem tampered_index_or_prevHash_rejected (sha256hex : String → String)
    (chain : List Block) (i : Nat) (hi : 1 ≤ i) (h : i < chain.length)
    (hv : isBlockchainValidChain sha256hex chain = true) :
    (∀ j : Int, j ≠ (chain.get ⟨i, h⟩).Index →
      isBlockchainValidChain sha256hex
        (chain.set i { chain.get ⟨i, h⟩ with Index := j }) = false) ∧
    (∀ p : String, p ≠ (chain.get ⟨i, h⟩).PrevHash →
      isBlockchainValidChain sha256hex
        (chain.set i { chain.get ⟨i, h⟩ with PrevHash := p }) = false) := by
  have hpair := (isBlockchainValidChain_iff_get sha256hex chain).mp hv i hi h
  obtain ⟨h1, h2, _, _⟩ := (isBlockValid_eq_true_iff sha256hex _ _).mp hpair
  constructor
  · intro j hj
    apply isBlockchainValidChain_set_false sha256hex chain i hi h
    rw [← Bool.not_eq_true, isBlockValid_eq_true_iff]
    rintro ⟨e1, _⟩
    exact hj (e1.symm.trans h1)
  · intro p hp
    apply isBlockchainValidChain_set_false sha256hex chain i hi h
    rw [← Bool.not_eq_true, isBlockValid_eq_true_iff]
    rintro ⟨_, e2, _⟩
    exact hp (e2.symm.trans h2)

/-- C11, at a concrete chain: in the valid chain `[genesisA, blockA1, blockA2]`
the index of block 1 is replaced by 7, or its `PrevHash` by `0000`; both chains
are rejected. -/
theorem tampered_index_or_prevHash_rejected_witness :
    isBlockchainValidChain sha256Sum
        [genesisA, { blockA1 with Index := 7 }, blockA2] = false ∧
      isBlockchainValidChain sha256Sum
        [genesisA, { blockA1 with PrevHash := "0000" }, blockA2] = false :=
  ⟨(tampered_index_or_prevHash_rejected sha256Sum [genesisA, blockA1, blockA2] 1
      (le_refl 1) (by decide) chainA2_valid).1 7 (by decide),
    (tampered_index_or_prevHash_rejected sha256Sum [genesisA, blockA1, blockA2] 1
      (le_refl 1) (by decide) chainA2_valid).2 "0000" (by decide)⟩

/-- C12: in a chain that `isBlockchainValidChain` accepts, changing exactly one
field (`Sender`, `Recipient` or `Amount`) of one transaction of the block at a
position `i >= 1`, the stored `Hash` left as it was, changes the record that
`calculateHash` digests for that block; and the tampered chain is rejected
when the digest of the changed record differs from the digest of the original
record, so whenever the digest function has no collision. -/
theorem tampered_transaction_rejected (sha256hex : String → String)
    (chain : List Block) (i : Nat) (hi : 1 ≤ i) (h : i < chain.length)
    (A B : List Transaction) (t t' : Transaction)
    (htx : (chain.get ⟨i, h⟩).Transactions = A ++ t :: B)
    (hone : OneFieldChanged t t')
    (hv : isBlockchainValidChain sha256hex chain = true) :
    record { chain.get ⟨i, h⟩ with Transactions := A ++ t' :: B } ≠
        record (chain.get ⟨i, h⟩) ∧
    (sha256hex (record { chain.get ⟨i, h⟩ with Transactions := A ++ t' :: B }) ≠
        sha256hex (record (chain.get ⟨i, h⟩)) →
      isBlockchainValidChain sha256hex
        (chain.set i { chain.get ⟨i, h⟩ with Transactions := A ++ t' :: B }) = false) ∧
    (Function.Injective sha256hex →
      isBlockchainValidChain sha256hex
        (chain.set i { chain.get ⟨i, h⟩ with Transactions := A ++ t' :: B }) = false) := by
  have hrec : record { chain.get ⟨i, h⟩ with Transactions := A ++ t' :: B } ≠
      record (chain.get ⟨i, h⟩) := by
    have := record_ne_of_oneFieldChanged (chain.get ⟨i, h⟩) A B t t' hone
    rwa [block_with_own_transactions _ _ htx] at this
  have hpair := (isBlockchainValidChain_iff_get sha256hex chain).mp hv i hi h
  obtain ⟨_, _, h3, _⟩ := (isBlockValid_eq_true_iff sha256hex _ _).mp hpair
  have hrej : sha256hex (record { chain.get ⟨i, h⟩ with Transactions := A ++ t' :: B }) ≠
        sha256hex (record (chain.get ⟨i, h⟩)) →
      isBlockchainValidChain sha256hex
        (chain.set i { chain.get ⟨i, h⟩ with Transactions := A ++ t' :: B }) = false := by
    intro hdig
    apply isBlockchainValidChain_set_false sha256hex chain i hi h
    rw [← Bool.not_eq_true, isBlockValid_eq_true_iff]
    rintro ⟨_, _, e3, _⟩
    apply hdig
    exact e3.trans h3.symm
  exact ⟨hrec, hrej, fun hinj => hrej (fun hd => hrec (hinj hd))⟩

set_option maxRecDepth 1000000 in
/-- C12, at a concrete chain: in the valid chain `[genesisA, blockA1, blockA2]`
the amount of the transaction of block 2 is changed from 4 to 400; the record
changes, its SHA-256 digest changes, and the chain is rejected. -/
theorem tampered_transaction_rejected_witness :
    record blockA2Tampered ≠ record blockA2 ∧
      isBlockchainValidChain sha256Sum [genesisA, blockA1, blockA2Tampered] = false :=
  ⟨(tampered_transaction_rejected sha256Sum [genesisA, blockA1, blockA2] 2 (by decide)
      (by decide) [] [] { Sender := "B", Recipient := "C", Amount := 4 }
      { Sender := "B", Recipient := "C", Amount := 400 } rfl
      (Or.inr (Or.inr ⟨rfl, rfl, by decide⟩)) chainA2_valid).1,
    (tampered_transaction_rejected sha256Sum [genesisA, blockA1, blockA2] 2 (by decide)
      (by decide) [] [] { Sender := "B", Recipient := "C", Amount := 4 }
      { Sender := "B", Recipient := "C", Amount := 400 } rfl
      (Or.inr (Or.inr ⟨rfl, rfl, by decide⟩)) chainA2_valid).2.1 blockA2Tampered_digest⟩

/-- C13: when `isBlockValid(chain[k], chain[k-1])` is `false` at a position
`k >= 1`, `isBlockchainValidChain` is `false` for the whole chain and for every
prefix of it that contains block `k`; and every prefix of a chain that
`isBlockchainValidChain` accepts is accepted. -/
theorem invalid_pair_rejects_longer_prefixes (sha256hex : String → String)
    (chain : List Block) (k : Nat) (hk : 1 ≤ k) (h : k < chain.length)
    (hb : isBlockValid sha256hex (chain.get ⟨k, h⟩) (chain.get ⟨k - 1, by omega⟩) = false) :
    isBlockchainValidChain sha256hex chain = false ∧
    (∀ p : List Block, p <+: chain → k < p.length →
      isBlockchainValidChain sha256hex p = false) ∧
    (∀ c p : List Block, isBlockchainValidChain sha256hex c = true → p <+: c →
      isBlockchainValidChain sha256hex p = true) := by
  refine ⟨isBlockchainValidChain_false_of_pair sha256hex chain k hk h hb, ?_, ?_⟩
  · intro p hp hkp
    apply isBlockchainValidChain_false_of_pair sha256hex p k hk hkp
    obtain ⟨t, rfl⟩ := hp
    have e1 : (p ++ t).get ⟨k, h⟩ = p.get ⟨k, hkp⟩ := by
      simp only [List.get_eq_getElem]
      exact List.getElem_append_left hkp
    have e2 : (p ++ t).get ⟨k - 1, by omega⟩ = p.get ⟨k - 1, by omega⟩ := by
      simp only [List.get_eq_getElem]
      exact List.getElem_append_left (by omega)
    rw [← e1, ← e2]
    exact hb
  · intro c p hc hp
    exact isBlockchainValidChain_of_initial sha256hex p c hp hc

/-- C13, at the scenario of the specification: the five-block chain
`[genesisA, blockA1, blockA2, blockA3, blockA4]` is valid; with the amount in
block 2 tampered it is rejected at the lengths 3, 4 and 5, and still accepted
at length 2. -/
theorem invalid_pair_rejects_longer_prefixes_witness :
    isBlockchainValidChain sha256Sum [genesisA, blockA1, blockA2, blockA3, blockA4] = true ∧
      isBlockchainValidChain sha256Sum [genesisA, blockA1, blockA2Tampered] = false ∧
      isBlockchainValidChain sha256Sum [genesisA, blockA1, blockA2Tampered, blockA3] = false ∧
      isBlockchainValidChain sha256Sum
        [genesisA, blockA1, blockA2Tampered, blockA3, blockA4] = false ∧
      isBlockchainValidChain sha256Sum [genesisA, blockA1] = true :=
  ⟨chainA4_valid,
    (invalid_pair_rejects_longer_prefixes sha256Sum
      [genesisA, blockA1, blockA2Tampered, blockA3, blockA4] 2 (by decide) (by decide)
      blockA2Tampered_invalid).2.1 [genesisA, blockA1, blockA2Tampered]
      ⟨[blockA3, blockA4], rfl⟩ (by decide),
    (invalid_pair_rejects_longer_prefixes sha256Sum
      [genesisA, blockA1, blockA2Tampered, blockA3, blockA4] 2 (by decide) (by decide)
      blockA2Tampered_invalid).2.1 [genesisA, blockA1, blockA2Tampered, blockA3]
      ⟨[blockA4], rfl⟩ (by decide),
    (invalid_pair_rejects_longer_prefixes sha256Sum
      [genesisA, blockA1, blockA2Tampered, blockA3, blockA4] 2 (by decide) (by decide)
      blockA2Tampered_invalid).1,
    chainA1_valid⟩

/-- C14: `calculateHash` depends on `Index`, `Timestamp`, `Transactions`,
`PrevHash` and `Nonce` only: two blocks that agree on these five fields have
the same digest, whatever their stored `Hash`; in particular the digest of a
block does not change when its stored `Hash` is replaced, and it is a function
of the block (the same block gives the same digest). -/
theorem calculateHash_ignores_stored_hash (sha256hex : String → String) (b1 b2 : Block)
    (hIndex : b1.Index = b2.Index) (hTimestamp : b1.Timestamp = b2.Timestamp)
    (hTransactions : b1.Transactions = b2.Transactions)
    (hPrevHash : b1.PrevHash = b2.PrevHash) (hNonce : b1.Nonce = b2.Nonce) :
    calculateHash sha256hex b1 = calculateHash sha256hex b2 ∧
    (∀ hash : String,
      calculateHash sha256hex { b1 with Hash := hash } = calculateHash sha256hex b1) ∧
    (∀ b : Block, b = b1 → calculateHash sha256hex b = calculateHash sha256hex b1) := by
  refine ⟨?_, fun _ => rfl, fun b hb => by rw [hb]⟩
  simp only [calculateHash, record, hIndex, hTimestamp, hTransactions, hPrevHash, hNonce]

set_option maxRecDepth 1000000 in
/-- C14, at concrete blocks: `blockA1` and the block with the same five fields
and the stored hash `ffff` are different blocks with the same SHA-256 digest,
the stored hash of `blockA1`. -/
theorem calculateHash_ignores_stored_hash_witness :
    ({ blockA1 with Hash := "ffff" } : Block) ≠ blockA1 ∧
      calculateHash sha256Sum { blockA1 with Hash := "ffff" } =
        calculateHash sha256Sum blockA1 ∧
      calculateHash sha256Sum blockA1 = blockA1.Hash :=
  ⟨by decide,
    (calculateHash_ignores_stored_hash sha256Sum { blockA1 with Hash := "ffff" } blockA1
      rfl rfl rfl rfl rfl).1,
    ((isBlockValid_eq_true_iff sha256Sum blockA1 genesisA).mp blockA1_valid).2.2.1⟩

theorem record_ne_of_swap (b : Block) (A B C : List Transaction) (t1 t2 : Transaction)
    (hne : t1 ≠ t2)
    (hs1 : ' ' ∉ t1.Sender.data) (hr1 : ' ' ∉ t1.Recipient.data)
    (hs2 : ' ' ∉ t2.Sender.data) (hr2 : ' ' ∉ t2.Recipient.data) :
    record { b with Transactions := A ++ t2 :: (B ++ t1 :: C) } ≠
      record { b with Transactions := A ++ t1 :: (B ++ t2 :: C) } := by
  obtain ⟨L, M, R, hLMR⟩ := record_two_slots b A B C
  rw [hLMR t2 t1, hLMR t1 t2]
  intro heq
  have hd := congrArg String.data heq
  simp only [String.data_append, List.append_assoc, List.append_cancel_left_eq] at hd
  rcases List.append_eq_append_iff.mp hd with ⟨u, h1, _⟩ | ⟨u, h2, _⟩
  · exact hne (fmtTransaction_eq_of_initial t2 t1 u hs2 hr2 hs1 hr1 h1.symm).symm
  · exact hne (fmtTransaction_eq_of_initial t1 t2 u hs1 hr1 hs2 hr2 h2.symm)

/-- C15, refuted at a concrete block: the transactions `txBlankSender` and
`txBlankRecipient` are different; the block `blockBlanks` holds them at the
positions 0 and 1; swapping them leaves the record that `calculateHash`
digests, and so the digest, as it was. -/
theorem swap_of_different_transactions_same_record :
    txBlankSender ≠ txBlankRecipient ∧
      blockBlanks.Transactions = [txBlankSender, txBlankRecipient] ∧
      record { blockBlanks with Transactions := [txBlankRecipient, txBlankSender] } =
        record blockBlanks ∧
      calculateHash sha256Sum
          { blockBlanks with Transactions := [txBlankRecipient, txBlankSender] } =
        calculateHash sha256Sum blockBlanks :=
  ⟨by decide, rfl, by decide, congrArg sha256Sum (by decide)⟩

/-- C15, as amended: `calculateHash` is sensitive to the order of transactions
whose `Sender` and `Recipient` hold no blank: when the transaction list of a
block holds two different such transactions `t1` and `t2` at two positions
(after the transactions `A`, and after `A`, `t1` and the transactions `B`),
swapping the two changes the record that `calculateHash` digests, and the
digest too when the digest function does not collide on the two records. -/
theorem swap_changes_record_without_blanks (sha256hex : String → String) (b : Block)
    (A B C : List Transaction) (t1 t2 : Transaction)
    (htx : b.Transactions = A ++ t1 :: (B ++ t2 :: C)) (hne : t1 ≠ t2)
    (hs1 : ' ' ∉ t1.Sender.data) (hr1 : ' ' ∉ t1.Recipient.data)
    (hs2 : ' ' ∉ t2.Sender.data) (hr2 : ' ' ∉ t2.Recipient.data) :
    record { b with Transactions := A ++ t2 :: (B ++ t1 :: C) } ≠ record b ∧
    (sha256hex (record { b with Transactions := A ++ t2 :: (B ++ t1 :: C) }) ≠
        sha256hex (record b) →
      calculateHash sha256hex { b with Transactions := A ++ t2 :: (B ++ t1 :: C) } ≠
        calculateHash sha256hex b) ∧
    (Function.Injective sha256hex →
      calculateHash sha256hex { b with Transactions := A ++ t2 :: (B ++ t1 :: C) } ≠
        calculateHash sha256hex b) := by
  have hrec : record { b with Transactions := A ++ t2 :: (B ++ t1 :: C) } ≠ record b := by
    have := record_ne_of_swap b A B C t1 t2 hne hs1 hr1 hs2 hr2
    rwa [block_with_own_transactions _ _ htx] at this
  exact ⟨hrec, fun hd => hd, fun hinj hd => hrec (hinj hd)⟩

set_option maxRecDepth 1000000 in
/-- C15 as amended, at a concrete block: `blockD1` holds `A -> B : 10` then
`C -> D : 5`; with the two swapped the record is another one and so is its
SHA-256 digest. -/
theorem swap_changes_record_without_blanks_witness :
    record { blockD1 with Transactions :=
        [{ Sender := "C", Recipient := "D", Amount := 5 },
          { Sender := "A", Recipient := "B", Amount := 10 }] } ≠ record blockD1 ∧
      calculateHash sha256Sum { blockD1 with Transactions :=
        [{ Sender := "C", Recipient := "D", Amount := 5 },
          { Sender := "A", Recipient := "B", Amount := 10 }] } ≠
        calculateHash sha256Sum blockD1 :=
  ⟨(swap_changes_record_without_blanks sha256Sum blockD1 [] [] []
      { Sender := "A", Recipient := "B", Amount := 10 }
      { Sender := "C", Recipient := "D", Amount := 5 } rfl (by decide)
      (by decide) (by decide) (by decide) (by decide)).1,
    (swap_changes_record_without_blanks sha256Sum blockD1 [] [] []
      { Sender := "A", Recipient := "B", Amount := 10 }
      { Sender := "C", Recipient := "D", Amount := 5 } rfl (by decide)
      (by decide) (by decide) (by decide) (by decide)).2.1 (by decide)⟩

/-! ## Mining: the nonce found -/

theorem generateBlock_eq_proofOfWork (sha256hex : String → String) (fuel : Nat)
    (now : String) (prevBlock : Block) (transactions : List Transaction) :
    generateBlock sha256hex fuel now prevBlock transactions =
      proofOfWork sha256hex fuel (generateBlockCandidate now prevBlock transactions) := rfl

theorem createGenesisBlock_eq_proofOfWork (sha256hex : String → String) (fuel : Nat)
    (now : String) :
    createGenesisBlock sha256hex fuel now =
      proofOfWork sha256hex fuel (genesisCandidate now) := rfl

theorem proofOfWork_fuel_mono (sha256hex : String → String) :
    ∀ (fuel k : Nat) (block b : Block), proofOfWork sha256hex fuel block = some b →
      proofOfWork sha256hex (fuel + k) block = some b := by
  intro fuel
  induction fuel with
  | zero =>
    intro k block b h
    simp [proofOfWork] at h
  | succ fuel ih =>
    intro k block b h
    have e : fuel + 1 + k = (fuel + k) + 1 := by omega
    rw [e]
    unfold proofOfWork at h ⊢
    by_cases hp : stringsHasPrefix (calculateHash sha256hex block)
        (stringsRepeat "0" difficulty) = true
    · simp only [hp, if_true] at h ⊢
      exact h
    · simp only [hp, Bool.false_eq_true, if_false] at h ⊢
      exact ih k _ b h

/-- The loop of `proofOfWork`, entered at nonce `block.Nonce`, returns at the
first nonce that works, `k` increments later, when no increment overflows. -/
theorem proofOfWork_first_working (sha256hex : String → String) :
    ∀ (k : Nat) (block : Block), minInt ≤ block.Nonce → block.Nonce + k ≤ maxInt →
      nonceWorks sha256hex block (block.Nonce + k) = true →
      (∀ j : Nat, j < k → nonceWorks sha256hex block (block.Nonce + j) = false) →
      proofOfWork sha256hex (k + 1) block =
        some { block with
          Nonce := block.Nonce + k
          Hash := calculateHash sha256hex { block with Nonce := block.Nonce + k } } := by
  intro k
  induction k with
  | zero =>
    intro block _ _ hw _
    simp only [Nat.cast_zero, add_zero] at hw ⊢
    have hw2 : stringsHasPrefix (calculateHash sha256hex block)
        (stringsRepeat "0" difficulty) = true := hw
    unfold proofOfWork
    simp only [hw2, if_true]
  | succ k ih =>
    intro block hlo hhi hw hnone
    have h0 : stringsHasPrefix (calculateHash sha256hex block)
        (stringsRepeat "0" difficulty) = false := by
      have := hnone 0 (by omega)
      simp only [Nat.cast_zero, add_zero] at this
      exact this
    have hwrap : wrapInt (block.Nonce + 1) = block.Nonce + 1 :=
      wrapInt_succ_of_lt block.Nonce hlo (by push_cast at hhi; omega)
    unfold proofOfWork
    simp only [h0, Bool.false_eq_true, if_false, hwrap]
    have hrec := ih { block with Nonce := block.Nonce + 1 } (by simp only; omega)
      (by simp only; push_cast at hhi; omega)
      (by
        have e : block.Nonce + 1 + (k : Int) = block.Nonce + ((k + 1 : Nat) : Int) := by
          push_cast; omega
        simp only [nonceWorks, e] at hw ⊢
        exact hw)
      (by
        intro j hj
        have := hnone (j + 1) (by omega)
        have e : block.Nonce + 1 + (j : Int) = block.Nonce + ((j + 1 : Nat) : Int) := by
          push_cast; omega
        simp only [nonceWorks, e] at this ⊢
        exact this)
    rw [hrec]
    have e : block.Nonce + 1 + (k : Int) = block.Nonce + ((k + 1 : Nat) : Int) := by
      push_cast; omega
    simp only [e]

/-- Among the nonces from `block.Nonce` to `n`, the first that works. -/
theorem exists_first_working (sha256hex : String → String) (block : Block) (n : Int)
    (hn : block.Nonce ≤ n) (hw : nonceWorks sha256hex block n = true) :
    ∃ k : Nat, block.Nonce + k ≤ n ∧
      nonceWorks sha256hex block (block.Nonce + k) = true ∧
      ∀ j : Nat, j < k → nonceWorks sha256hex block (block.Nonce + j) = false := by
  have hex : ∃ k : Nat, nonceWorks sha256hex block (block.Nonce + k) = true :=
    ⟨(n - block.Nonce).toNat, by
      have e : block.Nonce + ((n - block.Nonce).toNat : Int) = n := by omega
      rw [e]
      exact hw⟩
  refine ⟨Nat.find hex, ?_, Nat.find_spec hex, ?_⟩
  · have hle : Nat.find hex ≤ (n - block.Nonce).toNat := by
      apply Nat.find_min'
      have e : block.Nonce + ((n - block.Nonce).toNat : Int) = n := by omega
      rw [e]
      exact hw
    omega
  · intro j hj
    have := Nat.find_min hex hj
    simpa using this

theorem proofOfWork_from_zero (sha256hex : String → String) (fuel : Nat)
    (candidate b : Block) (h0 : candidate.Nonce = 0)
    (hp : proofOfWork sha256hex fuel candidate = some b)
    (hex : ∃ n : Int, 0 ≤ n ∧ n ≤ maxInt ∧ nonceWorks sha256hex candidate n = true) :
    0 ≤ b.Nonce ∧ nonceWorks sha256hex candidate b.Nonce = true ∧
      (∀ m : Int, 0 ≤ m → m < b.Nonce → nonceWorks sha256hex candidate m = false) ∧
      b = { candidate with
        Nonce := b.Nonce
        Hash := calculateHash sha256hex { candidate with Nonce := b.Nonce } } := by
  obtain ⟨n, hn0, hnmax, hw⟩ := hex
  obtain ⟨k, hk1, hk2, hk3⟩ := exists_first_working sha256hex candidate n
    (by rw [h0]; exact hn0) hw
  have hfirst := proofOfWork_first_working sha256hex k candidate
    (by rw [h0]; unfold minInt; omega) (by omega) hk2 hk3
  have e1 := proofOfWork_fuel_mono sha256hex (k + 1) fuel candidate _ hfirst
  have e2 := proofOfWork_fuel_mono sha256hex fuel (k + 1) candidate b hp
  rw [Nat.add_comm fuel (k + 1), e1] at e2
  have hb := (Option.some.inj e2).symm
  simp only [h0, zero_add] at hk2 hk3 hb
  have hN : b.Nonce = k := by rw [hb]
  refine ⟨by omega, by rw [hN]; exact hk2, ?_, ?_⟩
  · intro m hm0 hmlt
    have hj := hk3 m.toNat (by omega)
    have e : ((m.toNat : Nat) : Int) = m := by omega
    rw [e] at hj
    exact hj
  · rw [hN]
    exact hb

/-! ## C16 and C17: mining -/

/-- C16: mining searches the nonces upward from 0.  When some nonce among the
non-negative `int` values works for the candidate (its hash begins with four
characters `0`), the block returned by `generateBlock`, and likewise by
`createGenesisBlock`, has as `Nonce` the smallest non-negative integer that
works, as `Hash` the hash of the candidate with that nonce, and every other
field as in the candidate. -/
theorem mined_nonce_is_least (sha256hex : String → String) (fuel : Nat) (now : String)
    (prevBlock : Block) (transactions : List Transaction) :
    (∀ b : Block, generateBlock sha256hex fuel now prevBlock transactions = some b →
      (∃ n : Int, 0 ≤ n ∧ n ≤ maxInt ∧
        nonceWorks sha256hex (generateBlockCandidate now prevBlock transactions) n = true) →
      0 ≤ b.Nonce ∧
        nonceWorks sha256hex (generateBlockCandidate now prevBlock transactions) b.Nonce
          = true ∧
        (∀ m : Int, 0 ≤ m → m < b.Nonce →
          nonceWorks sha256hex (generateBlockCandidate now prevBlock transactions) m
            = false) ∧
        b = { generateBlockCandidate now prevBlock transactions with
          Nonce := b.Nonce
          Hash := calculateHash sha256hex
            { generateBlockCandidate now prevBlock transactions with Nonce := b.Nonce } }) ∧
    (∀ b : Block, createGenesisBlock sha256hex fuel now = some b →
      (∃ n : Int, 0 ≤ n ∧ n ≤ maxInt ∧
        nonceWorks sha256hex (genesisCandidate now) n = true) →
      0 ≤ b.Nonce ∧
        nonceWorks sha256hex (genesisCandidate now) b.Nonce = true ∧
        (∀ m : Int, 0 ≤ m → m < b.Nonce →
          nonceWorks sha256hex (genesisCandidate now) m = false) ∧
        b = { genesisCandidate now with
          Nonce := b.Nonce
          Hash := calculateHash sha256hex { genesisCandidate now with Nonce := b.Nonce } }) := by
  constructor
  · intro b hb hex
    exact proofOfWork_from_zero sha256hex fuel _ b rfl hb hex
  · intro b hb hex
    exact proofOfWork_from_zero sha256hex fuel _ b rfl hb hex

set_option maxRecDepth 1000000 in
/-- C16, at concrete inputs: `createGenesisBlock` at `2024-01-02T02:05:25Z`
returns `genesisA`, whose nonce 2 works while 0 and 1 do not; `generateBlock`
on `genesisA` returns `blockA1`, whose nonce 1 works while 0 does not. -/
theorem mined_nonce_is_least_witness :
    createGenesisBlock sha256Sum 3 "2024-01-02T02:05:25Z" = some genesisA ∧
      genesisA.Nonce = 2 ∧
      (∀ m : Int, 0 ≤ m → m < 2 →
        nonceWorks sha256Sum (genesisCandidate "2024-01-02T02:05:25Z") m = false) ∧
      generateBlock sha256Sum 2 "2024-01-02T18:26:48Z" genesisA
        [{ Sender := "A", Recipient := "B", Amount := 10 }] = some blockA1 ∧
      blockA1.Nonce = 1 ∧
      (∀ m : Int, 0 ≤ m → m < 1 →
        nonceWorks sha256Sum (generateBlockCandidate "2024-01-02T18:26:48Z" genesisA
          [{ Sender := "A", Recipient := "B", Amount := 10 }]) m = false) :=
  ⟨genesisA_mined, rfl,
    ((mined_nonce_is_least sha256Sum 3 "2024-01-02T02:05:25Z" genesisA []).2 genesisA
      genesisA_mined ⟨2, by decide, by decide, by decide⟩).2.2.1,
    blockA1_mined, rfl,
    ((mined_nonce_is_least sha256Sum 2 "2024-01-02T18:26:48Z" genesisA
      [{ Sender := "A", Recipient := "B", Amount := 10 }]).1 blockA1
      blockA1_mined ⟨1, by decide, by decide, by decide⟩).2.2.1⟩

/-- C17: mining does not fail.  When some nonce `n` at or above the starting
nonce of the candidate works (both being `int` values), `proofOfWork` returns
a block, the same for every bound of at least `n - Nonce + 1` iterations; the
block carries its own hash, which begins with four characters `0`, and a
nonce from the starting nonce to `n`. -/
theorem proofOfWork_returns (sha256hex : String → String) (block : Block) (n : Int)
    (hlo : minInt ≤ block.Nonce) (hn : block.Nonce ≤ n) (hhi : n ≤ maxInt)
    (hw : nonceWorks sha256hex block n = true) :
    ∃ b : Block,
      (∀ fuel : Nat, (n - block.Nonce).toNat + 1 ≤ fuel →
        proofOfWork sha256hex fuel block = some b) ∧
      calculateHash sha256hex b = b.Hash ∧
      (∃ rest : List Char, b.Hash.data = '0' :: '0' :: '0' :: '0' :: rest) ∧
      block.Nonce ≤ b.Nonce ∧ b.Nonce ≤ n := by
  obtain ⟨k, hk1, hk2, hk3⟩ := exists_first_working sha256hex block n hn hw
  have hfirst := proofOfWork_first_working sha256hex k block hlo (by omega) hk2 hk3
  refine ⟨{ block with
      Nonce := block.Nonce + k
      Hash := calculateHash sha256hex { block with Nonce := block.Nonce + k } },
    ?_, rfl, ?_, ?_, ?_⟩
  · intro fuel hfuel
    have := proofOfWork_fuel_mono sha256hex (k + 1) (fuel - (k + 1)) block _ hfirst
    have e : k + 1 + (fuel - (k + 1)) = fuel := by omega
    rw [e] at this
    exact this
  · exact (stringsHasPrefix_zeros_iff _).mp hk2
  · simp only
    omega
  · simp only
    exact hk1

set_option maxRecDepth 1000000 in
/-- C17, at a concrete candidate: the genesis candidate at
`2024-01-02T02:05:25Z` starts at nonce 0 and nonce 2 works; `proofOfWork`
returns `genesisA` with a bound of 3 iterations. -/
theorem proofOfWork_returns_witness :
    nonceWorks sha256Sum (genesisCandidate "2024-01-02T02:05:25Z") 2 = true ∧
      ∃ b : Block,
        (∀ fuel : Nat, 3 ≤ fuel →
          proofOfWork sha256Sum fuel (genesisCandidate "2024-01-02T02:05:25Z") = some b) ∧
        calculateHash sha256Sum b = b.Hash ∧
        (∃ rest : List Char, b.Hash.data = '0' :: '0' :: '0' :: '0' :: rest) ∧
        0 ≤ b.Nonce ∧ b.Nonce ≤ 2 :=
  ⟨by decide,
    proofOfWork_returns sha256Sum (genesisCandidate "2024-01-02T02:05:25Z") 2
      (by decide) (by decide) (by decide) (by decide)⟩

/-! ## The peer registry: one lemma per path -/

theorem savePeers_of_held (s : Node) (hm : s.peersMutex = true) :
    savePeers s = .blocked s := by
  simp [savePeers, hm]

theorem peers_any_eq_true_iff (peers : List String) (peer : String) :
    peers.any (fun p => p == peer) = true ↔ peer ∈ peers := by
  rw [List.any_eq_true]
  constructor
  · rintro ⟨p, hp, he⟩
    rw [beq_iff_eq] at he
    rw [← he]
    exact hp
  · intro h
    exact ⟨peer, h, by simp⟩

theorem addPeer_of_held (s : Node) (peer : String) (hm : s.peersMutex = true) :
    addPeer s peer = .blocked s := by
  simp [addPeer, hm]

theorem addPeer_of_present (s : Node) (peer : String) (hm : s.peersMutex = false)
    (hp : peer ∈ s.peers) : addPeer s peer = .returned () s := by
  have hany := (peers_any_eq_true_iff s.peers peer).mpr hp
  cases s with
  | mk chain m p pm =>
    simp only at hm hany
    subst hm
    simp [addPeer, hany]

theorem addPeer_of_new (s : Node) (peer : String) (hm : s.peersMutex = false)
    (hp : peer ∉ s.peers) :
    addPeer s peer = .blocked { s with peers := s.peers ++ [peer], peersMutex := true } := by
  have hany : s.peers.any (fun p => p == peer) = false := by
    rw [← Bool.not_eq_true, peers_any_eq_true_iff]
    exact hp
  simp [addPeer, hm, hany, savePeers]

/-! ## C18 to C20: the handlers and `addPeer` -/

/-- C18: in every ledger state, a submission to `createBlock` whose body
cannot be decoded, or whose transaction list is empty, is answered with 400
Bad Request; the handler makes no call of `generateBlock` and no call of
`addBlock`, and the state, the ledger chain in particular, is as it was. -/
theorem createBlock_malformed_is_bad_request (sha256hex : String → String) (fuel : Nat)
    (now : String) (s : Node) (body : Option (List Transaction))
    (hbad : body = none ∨ body = some []) :
    createBlock sha256hex fuel now s body = ([], some (.returned .badRequest s)) ∧
      Reply.status .badRequest = 400 ∧
      (∀ o, (createBlock sha256hex fuel now s body).2 = some o →
        o.state.Blockchain = s.Blockchain) := by
  have h : createBlock sha256hex fuel now s body = ([], some (.returned .badRequest s)) := by
    rcases hbad with h | h
    · rw [h]
      rfl
    · rw [h]
      rfl
  refine ⟨h, rfl, ?_⟩
  intro o ho
  rw [h] at ho
  simp only [Option.some.injEq] at ho
  rw [← ho]
  rfl

/-- C18, at concrete submissions: on the ledger `[genesisA]`, with the mutex
held or free, a body that cannot be decoded and a body with no transaction are
answered with 400 and no call is made. -/
theorem createBlock_malformed_is_bad_request_witness :
    createBlock sha256Sum 0 "2024-01-03T00:00:00Z" (nodeOf [genesisA]) none =
        ([], some (.returned .badRequest (nodeOf [genesisA]))) ∧
      createBlock sha256Sum 0 "2024-01-03T00:00:00Z"
          { nodeOf [genesisA] with mutex := true } (some []) =
        ([], some (.returned .badRequest { nodeOf [genesisA] with mutex := true })) :=
  ⟨(createBlock_malformed_is_bad_request sha256Sum 0 "2024-01-03T00:00:00Z"
      (nodeOf [genesisA]) none (Or.inl rfl)).1,
    (createBlock_malformed_is_bad_request sha256Sum 0 "2024-01-03T00:00:00Z"
      { nodeOf [genesisA] with mutex := true } (some []) (Or.inr rfl)).1⟩

/-- C19: on a ledger whose mutex is free, `getBlock` at the integer `i`
answers with the block at position `i` of the chain when `0 <= i < len(chain)`
and with 404 Not Found when `i < 0` or `i >= len(chain)`, and in no other
case; it does not panic (no index out of range) and leaves the state, the
chain in particular, as it was. -/
theorem getBlock_answers_by_position (s : Node) (i : Int) (hm : s.mutex = false) :
    (∀ (h0 : 0 ≤ i) (h1 : i < s.Blockchain.length),
      getBlock s (some i) =
        .returned (.ok (s.Blockchain.get ⟨i.toNat, by omega⟩)) s) ∧
    (i < 0 ∨ (s.Blockchain.length : Int) ≤ i →
      getBlock s (some i) = .returned .notFound s) ∧
    ((getBlock s (some i)).value = some .notFound ↔
      (i < 0 ∨ (s.Blockchain.length : Int) ≤ i)) ∧
    (∀ s' : Node, getBlock s (some i) ≠ .panicked s') ∧
    (getBlock s (some i)).state = s := by
  have hin : ∀ (h0 : 0 ≤ i) (h1 : i < s.Blockchain.length),
      getBlock s (some i) =
        .returned (.ok (s.Blockchain.get ⟨i.toNat, by omega⟩)) s := by
    intro h0 h1
    have hlt : i.toNat < s.Blockchain.length := by omega
    cases s with
    | mk chain m p pm =>
      simp only at hm h1 hlt
      subst hm
      have hc : ¬ (i < 0 ∨ (chain.length : Int) ≤ i) := by omega
      simp [getBlock, hc, List.getElem?_eq_getElem hlt]
  have hout : i < 0 ∨ (s.Blockchain.length : Int) ≤ i →
      getBlock s (some i) = .returned .notFound s := by
    intro hc
    cases s with
    | mk chain m p pm =>
      simp only at hm hc
      subst hm
      simp [getBlock, hc]
  by_cases hc : i < 0 ∨ (s.Blockchain.length : Int) ≤ i
  · have := hout hc
    refine ⟨hin, hout, ?_, ?_, ?_⟩
    · rw [this]
      simp [Outcome.value, hc]
    · intro s'
      rw [this]
      exact fun h => Outcome.noConfusion h
    · rw [this]
      rfl
  · have := hin (by omega) (by omega)
    refine ⟨hin, hout, ?_, ?_, ?_⟩
    · rw [this]
      simp [Outcome.value, hc]
    · intro s'
      rw [this]
      exact fun h => Outcome.noConfusion h
    · rw [this]
      rfl

/-- C19, at a concrete ledger: on the chain `[genesisA, blockA1]`, position 1
gives `blockA1`, positions 2 and -1 give 404. -/
theorem getBlock_answers_by_position_witness :
    getBlock (nodeOf [genesisA, blockA1]) (some 1) =
        .returned (.ok blockA1) (nodeOf [genesisA, blockA1]) ∧
      getBlock (nodeOf [genesisA, blockA1]) (some 2) =
        .returned .notFound (nodeOf [genesisA, blockA1]) ∧
      getBlock (nodeOf [genesisA, blockA1]) (some (-1)) =
        .returned .notFound (nodeOf [genesisA, blockA1]) ∧
      Reply.status .notFound = 404 :=
  ⟨(getBlock_answers_by_position (nodeOf [genesisA, blockA1]) 1 rfl).1
      (by decide) (by decide),
    (getBlock_answers_by_position (nodeOf [genesisA, blockA1]) 2 rfl).2.1
      (Or.inr (by decide)),
    (getBlock_answers_by_position (nodeOf [genesisA, blockA1]) (-1) rfl).2.1
      (Or.inl (by decide)),
    rfl⟩

/-- C20: on a registry whose mutex is free, after `addPeer(a)` the registry
contains `a`; when `a` was present the call returns with the state as it was;
when `a` was absent the registry is the old list with `a` appended once; a
second `addPeer(a)`, made in the state the first one leaves or in any state
with that registry and a free mutex, leaves the registry as the first one
left it; a registry without duplicates stays without duplicates, and no
address occurs more often than before or than once. -/
theorem addPeer_is_idempotent_insertion (s : Node) (a : String)
    (hm : s.peersMutex = false) :
    a ∈ (addPeer s a).state.peers ∧
    (a ∈ s.peers → addPeer s a = .returned () s) ∧
    (a ∉ s.peers → (addPeer s a).state.peers = s.peers ++ [a]) ∧
    (addPeer (addPeer s a).state a).state.peers = (addPeer s a).state.peers ∧
    (∀ s2 : Node, s2.peersMutex = false → s2.peers = (addPeer s a).state.peers →
      addPeer s2 a = .returned () s2) ∧
    (s.peers.Nodup → (addPeer s a).state.peers.Nodup) ∧
    (∀ b : String, (addPeer s a).state.peers.count b ≤ max 1 (s.peers.count b)) := by
  by_cases hp : a ∈ s.peers
  · have h := addPeer_of_present s a hm hp
    refine ⟨?_, fun _ => h, fun hn => absurd hp hn, ?_, ?_, ?_, ?_⟩
    · rw [h]
      exact hp
    · rw [h]
      simp only [Outcome.state]
      rw [h]
    · intro s2 hm2 hs2
      rw [h] at hs2
      exact addPeer_of_present s2 a hm2 (by rw [hs2]; exact hp)
    · intro hnd
      rw [h]
      exact hnd
    · intro b
      rw [h]
      exact le_max_right _ _
  · have h := addPeer_of_new s a hm hp
    refine ⟨?_, fun hin => absurd hin hp, fun _ => by rw [h]; rfl, ?_, ?_, ?_, ?_⟩
    · rw [h]
      simp [Outcome.state]
    · rw [h]
      simp only [Outcome.state]
      rw [addPeer_of_held _ a rfl]
    · intro s2 hm2 hs2
      rw [h] at hs2
      exact addPeer_of_present s2 a hm2 (by rw [hs2]; simp [Outcome.state])
    · intro hnd
      rw [h]
      simp only [Outcome.state]
      exact List.Nodup.append hnd (List.nodup_singleton a) (by simpa using hp)
    · intro b
      rw [h]
      simp only [Outcome.state, List.count_append]
      by_cases hb : b = a
      · subst hb
        rw [List.count_eq_zero_of_not_mem hp]
        simp
      · have : List.count b [a] = 0 := by
          rw [List.count_eq_zero]
          simpa using hb
        rw [this]
        exact le_max_right _ _

/-- C20, at a concrete registry: on the registry `[p1]`, `addPeer(p2)` leaves
`[p1, p2]` and `addPeer(p1)` returns with the registry `[p1]`. -/
theorem addPeer_is_idempotent_insertion_witness :
    (addPeer { nodeOf [genesisA] with peers := ["http://localhost:8081"] }
        "http://localhost:8082").state.peers =
        ["http://localhost:8081", "http://localhost:8082"] ∧
      addPeer { nodeOf [genesisA] with peers := ["http://localhost:8081"] }
          "http://localhost:8081" =
        .returned () { nodeOf [genesisA] with peers := ["http://localhost:8081"] } :=
  ⟨(addPeer_is_idempotent_insertion
      { nodeOf [genesisA] with peers := ["http://localhost:8081"] }
      "http://localhost:8082" rfl).2.2.1 (by decide),
    (addPeer_is_idempotent_insertion
      { nodeOf [genesisA] with peers := ["http://localhost:8081"] }
      "http://localhost:8081" rfl).2.1 (by decide)⟩

/-! ## Operations: `removePeer`, the synchronisation pass, the first chain -/

theorem removePeer_of_held (s : Node) (peer : String) (hm : s.peersMutex = true) :
    removePeer s peer = .blocked s := by
  simp [removePeer, hm]

theorem removePeer_of_free (s : Node) (peer : String) (hm : s.peersMutex = false) :
    removePeer s peer =
      .blocked { s with peers := removeFirst peer s.peers, peersMutex := true } := by
  simp [removePeer, hm, savePeers]

theorem addBlock_state_ne_nil (sha256hex : String → String) (s : Node) (b : Block)
    (h : s.Blockchain ≠ []) : (addBlock sha256hex s b).state.Blockchain ≠ [] := by
  cases hm : s.mutex with
  | true =>
    rw [addBlock_of_held sha256hex s b hm]
    exact h
  | false =>
    cases ht : s.Blockchain.getLast? with
    | none => exact absurd (List.getLast?_eq_none_iff.mp ht) h
    | some tip =>
      cases hv : isBlockValid sha256hex b tip with
      | true =>
        rw [addBlock_of_valid sha256hex s b tip hm ht hv]
        simp [Outcome.state]
      | false =>
        rw [addBlock_of_invalid sha256hex s b tip hm ht hv]
        exact h

theorem addBlock_not_panicked (sha256hex : String → String) (s : Node) (b : Block)
    (h : s.Blockchain ≠ []) (s1 : Node) : addBlock sha256hex s b ≠ .panicked s1 := by
  cases hm : s.mutex with
  | true =>
    rw [addBlock_of_held sha256hex s b hm]
    simp
  | false =>
    cases ht : s.Blockchain.getLast? with
    | none => exact absurd (List.getLast?_eq_none_iff.mp ht) h
    | some tip =>
      cases hv : isBlockValid sha256hex b tip with
      | true =>
        rw [addBlock_of_valid sha256hex s b tip hm ht hv]
        simp
      | false =>
        rw [addBlock_of_invalid sha256hex s b tip hm ht hv]
        simp

theorem syncReplace_cases (sha256hex : String → String) (s : Node) (peer : List Block) :
    (syncReplace sha256hex s peer = .blocked s ∧ s.mutex = true) ∨
    (syncReplace sha256hex s peer = .blocked { s with Blockchain := peer, mutex := true } ∧
      s.mutex = false ∧ s.Blockchain.length < peer.length ∧
      isBlockchainValidChain sha256hex peer = true) ∨
    (syncReplace sha256hex s peer = .returned () s ∧ s.mutex = false ∧
      ¬ (s.Blockchain.length < peer.length ∧ isBlockchainValidChain sha256hex peer = true)) := by
  cases hm : s.mutex with
  | true => exact Or.inl ⟨syncReplace_of_held sha256hex s peer hm, rfl⟩
  | false =>
    by_cases hc : s.Blockchain.length < peer.length ∧
        isBlockchainValidChain sha256hex peer = true
    · exact Or.inr (Or.inl ⟨syncReplace_of_better sha256hex s peer hm hc.1 hc.2, rfl, hc.1, hc.2⟩)
    · exact Or.inr (Or.inr ⟨syncReplace_of_not_better sha256hex s peer hm hc, rfl, hc⟩)

theorem syncReplace_state_ne_nil (sha256hex : String → String) (s : Node) (peer : List Block)
    (h : s.Blockchain ≠ []) : (syncReplace sha256hex s peer).state.Blockchain ≠ [] := by
  rcases syncReplace_cases sha256hex s peer with ⟨he, _⟩ | ⟨he, _, hl, _⟩ | ⟨he, _, _⟩
  · rw [he]; exact h
  · rw [he]
    simp only [Outcome.state]
    intro hnil
    rw [hnil] at hl
    simp at hl
  · rw [he]; exact h

theorem initialChain_ne_nil (sha256hex : String → String) (fuel : Nat) (now : String)
    (loaded : Option (List Block)) (chain : List Block)
    (h : initialChain sha256hex fuel now loaded = some chain) : chain ≠ [] := by
  unfold initialChain at h
  simp only at h
  by_cases hl : (loaded.getD []).length = 0
  · rw [if_pos hl] at h
    cases hg : createGenesisBlock sha256hex fuel now with
    | none => simp [hg] at h
    | some g =>
      simp only [hg, Option.some.injEq] at h
      rw [← h]
      simp
  · rw [if_neg hl] at h
    simp only [Option.some.injEq] at h
    rw [← h]
    intro hnil
    exact hl (by rw [hnil]; rfl)

theorem createBlock_not_panicked (sha256hex : String → String) (fuel : Nat) (now : String)
    (s : Node) (body : Option (List Transaction)) (h : s.Blockchain ≠ []) (s1 : Node) :
    (createBlock sha256hex fuel now s body).2 ≠ some (.panicked s1) := by
  unfold createBlock
  cases body with
  | none => simp
  | some transactions =>
    simp only
    by_cases h0 : transactions.length = 0
    · simp [h0]
    · rw [if_neg h0]
      cases hm : s.mutex with
      | true => simp
      | false =>
        simp only [Bool.false_eq_true, if_false]
        cases ht : s.Blockchain.getLast? with
        | none => exact absurd (List.getLast?_eq_none_iff.mp ht) h
        | some prevBlock =>
          simp only
          cases hg : generateBlock sha256hex fuel now prevBlock transactions with
          | none => simp
          | some newBlock =>
            simp only
            have hnp := addBlock_not_panicked sha256hex
              { Blockchain := s.Blockchain, mutex := false, peers := s.peers,
                peersMutex := s.peersMutex } newBlock h
            cases ha : addBlock sha256hex
              { Blockchain := s.Blockchain, mutex := false, peers := s.peers,
                peersMutex := s.peersMutex } newBlock with
            | returned v s3 =>
              cases v <;> simp
            | blocked s3 => simp
            | panicked s3 => exact absurd ha (hnp s3)

theorem syncLoop_nil (sha256hex : String → String) (fetch : String → Option (List Block))
    (s : Node) : syncLoop sha256hex fetch s [] = .returned () s := rfl

theorem syncLoop_cons_none (sha256hex : String → String)
    (fetch : String → Option (List Block)) (s : Node) (peer : String) (rest : List String)
    (hf : fetch peer = none) :
    syncLoop sha256hex fetch s (peer :: rest) = syncLoop sha256hex fetch s rest := by
  rw [syncLoop, hf]

theorem fetchedChains_cons_none (sha256hex : String → String)
    (fetch : String → Option (List Block)) (s : Node) (peer : String) (rest : List String)
    (hf : fetch peer = none) :
    fetchedChains sha256hex fetch s (peer :: rest) = fetchedChains sha256hex fetch s rest := by
  rw [fetchedChains, hf]

theorem syncLoop_cons_held (sha256hex : String → String)
    (fetch : String → Option (List Block)) (s : Node) (peer : String) (rest : List String)
    (chain : List Block) (hf : fetch peer = some chain) (hm : s.mutex = true) :
    syncLoop sha256hex fetch s (peer :: rest) = .blocked s ∧
      fetchedChains sha256hex fetch s (peer :: rest) = [chain] := by
  rw [syncLoop, fetchedChains, hf]
  simp only [syncReplace_of_held sha256hex s chain hm, and_self]

theorem syncLoop_cons_better (sha256hex : String → String)
    (fetch : String → Option (List Block)) (s : Node) (peer : String) (rest : List String)
    (chain : List Block) (hf : fetch peer = some chain) (hm : s.mutex = false)
    (hl : s.Blockchain.length < chain.length)
    (hv : isBlockchainValidChain sha256hex chain = true) :
    syncLoop sha256hex fetch s (peer :: rest) =
        .blocked { s with Blockchain := chain, mutex := true } ∧
      fetchedChains sha256hex fetch s (peer :: rest) = [chain] := by
  rw [syncLoop, fetchedChains, hf]
  simp only [syncReplace_of_better sha256hex s chain hm hl hv, and_self]

theorem syncLoop_cons_not_better (sha256hex : String → String)
    (fetch : String → Option (List Block)) (s : Node) (peer : String) (rest : List String)
    (chain : List Block) (hf : fetch peer = some chain) (hm : s.mutex = false)
    (hc : ¬ (s.Blockchain.length < chain.length ∧
      isBlockchainValidChain sha256hex chain = true)) :
    syncLoop sha256hex fetch s (peer :: rest) = syncLoop sha256hex fetch s rest ∧
      fetchedChains sha256hex fetch s (peer :: rest) =
        chain :: fetchedChains sha256hex fetch s rest := by
  rw [syncLoop, fetchedChains, hf]
  simp only [syncReplace_of_not_better sha256hex s chain hm hc, and_self]

/-- The peers whose fetch fails do not count: the pass is the pass over the
reachable peers. -/
theorem syncLoop_filter (sha256hex : String → String)
    (fetch : String → Option (List Block)) (s : Node) (peers : List String) :
    syncLoop sha256hex fetch s (peers.filter (fun p => (fetch p).isSome)) =
        syncLoop sha256hex fetch s peers ∧
      fetchedChains sha256hex fetch s (peers.filter (fun p => (fetch p).isSome)) =
        fetchedChains sha256hex fetch s peers := by
  induction peers generalizing s with
  | nil => exact ⟨rfl, rfl⟩
  | cons peer rest ih =>
    cases hf : fetch peer with
    | none =>
      rw [List.filter_cons_of_neg (by simp [hf]), syncLoop_cons_none _ _ _ _ _ hf,
        fetchedChains_cons_none _ _ _ _ _ hf]
      exact ih s
    | some chain =>
      rw [List.filter_cons_of_pos (by simp [hf])]
      rw [syncLoop, syncLoop, fetchedChains, fetchedChains, hf]
      simp only
      cases syncReplace sha256hex s chain with
      | returned v s1 =>
        simp only
        exact ⟨(ih s1).1, by rw [(ih s1).2]⟩
      | blocked s1 => exact ⟨rfl, rfl⟩
      | panicked s1 => exact ⟨rfl, rfl⟩

/-- A pass in which no fetched chain is both longer than the ledger's chain
and valid returns with the state as it was, and every reachable peer's chain
has been fetched. -/
theorem syncLoop_of_none_better (sha256hex : String → String)
    (fetch : String → Option (List Block)) (s : Node) (hm : s.mutex = false)
    (peers : List String)
    (hno : ∀ peer ∈ peers, ∀ chain, fetch peer = some chain →
      ¬ (s.Blockchain.length < chain.length ∧
        isBlockchainValidChain sha256hex chain = true)) :
    syncLoop sha256hex fetch s peers = .returned () s ∧
      fetchedChains sha256hex fetch s peers = peers.filterMap fetch := by
  induction peers with
  | nil => exact ⟨rfl, rfl⟩
  | cons peer rest ih =>
    have ih2 := ih (fun p hp => hno p (List.mem_cons_of_mem _ hp))
    cases hf : fetch peer with
    | none =>
      rw [syncLoop_cons_none _ _ _ _ _ hf, fetchedChains_cons_none _ _ _ _ _ hf,
        List.filterMap_cons_none hf]
      exact ih2
    | some chain =>
      have hc := hno peer (List.mem_cons_self _ _) chain hf
      obtain ⟨h1, h2⟩ := syncLoop_cons_not_better sha256hex fetch s peer rest chain hf hm hc
      rw [h1, h2, List.filterMap_cons_some hf, ih2.2]
      exact ⟨ih2.1, rfl⟩

/-- What a pass started with the chain mutex free leaves: the chain is the
chain before the pass or one of the fetched chains, it is at least as long as
the chain before the pass and as every valid fetched chain. -/
theorem syncLoop_chain (sha256hex : String → String)
    (fetch : String → Option (List Block)) (s : Node) (hm : s.mutex = false)
    (peers : List String) :
    ((syncLoop sha256hex fetch s peers).state.Blockchain = s.Blockchain ∨
      (syncLoop sha256hex fetch s peers).state.Blockchain ∈
        fetchedChains sha256hex fetch s peers) ∧
    s.Blockchain.length ≤ (syncLoop sha256hex fetch s peers).state.Blockchain.length ∧
    ∀ chain ∈ fetchedChains sha256hex fetch s peers,
      isBlockchainValidChain sha256hex chain = true →
        chain.length ≤ (syncLoop sha256hex fetch s peers).state.Blockchain.length := by
  induction peers with
  | nil =>
    refine ⟨Or.inl rfl, Nat.le_refl _, ?_⟩
    intro chain hc
    simp [fetchedChains] at hc
  | cons peer rest ih =>
    cases hf : fetch peer with
    | none =>
      rw [syncLoop_cons_none _ _ _ _ _ hf, fetchedChains_cons_none _ _ _ _ _ hf]
      exact ih
    | some chain =>
      by_cases hc : s.Blockchain.length < chain.length ∧
          isBlockchainValidChain sha256hex chain = true
      · obtain ⟨h1, h2⟩ :=
          syncLoop_cons_better sha256hex fetch s peer rest chain hf hm hc.1 hc.2
        rw [h1, h2]
        simp only [Outcome.state, List.mem_singleton, or_true, true_and]
        refine ⟨Nat.le_of_lt hc.1, ?_⟩
        intro c hceq _
        rw [hceq]
      · obtain ⟨h1, h2⟩ := syncLoop_cons_not_better sha256hex fetch s peer rest chain hf hm hc
        rw [h1, h2]
        obtain ⟨ih1, ih2, ih3⟩ := ih
        refine ⟨?_, ih2, ?_⟩
        · rcases ih1 with h | h
          · exact Or.inl h
          · exact Or.inr (List.mem_cons_of_mem _ h)
        · intro c hcmem hcv
          rcases List.mem_cons.mp hcmem with heq | hmem
          · rw [heq]
            by_cases hlt : s.Blockchain.length < chain.length
            · exact absurd ⟨hlt, by rw [← heq]; exact hcv⟩ hc
            · omega
          · exact ih3 c hmem hcv

/-- The pass stops at the first peer whose chain is adopted: the peers before
it have been fetched, the peers after it are not. -/
theorem syncLoop_stops_at_first_better (sha256hex : String → String)
    (fetch : String → Option (List Block)) (s : Node) (hm : s.mutex = false)
    (peer : String) (rest : List String) (chain : List Block)
    (hf : fetch peer = some chain) (hl : s.Blockchain.length < chain.length)
    (hv : isBlockchainValidChain sha256hex chain = true) (before : List String)
    (hno : ∀ p ∈ before, ∀ c, fetch p = some c →
      ¬ (s.Blockchain.length < c.length ∧ isBlockchainValidChain sha256hex c = true)) :
    syncLoop sha256hex fetch s (before ++ peer :: rest) =
        .blocked { s with Blockchain := chain, mutex := true } ∧
      fetchedChains sha256hex fetch s (before ++ peer :: rest) =
        before.filterMap fetch ++ [chain] := by
  induction before with
  | nil => exact syncLoop_cons_better sha256hex fetch s peer rest chain hf hm hl hv
  | cons p before ih =>
    have ih2 := ih (fun q hq => hno q (List.mem_cons_of_mem _ hq))
    rw [List.cons_append]
    cases hp : fetch p with
    | none =>
      rw [syncLoop_cons_none _ _ _ _ _ hp, fetchedChains_cons_none _ _ _ _ _ hp,
        List.filterMap_cons_none hp]
      exact ih2
    | some c =>
      have hc := hno p (List.mem_cons_self _ _) c hp
      obtain ⟨h1, h2⟩ := syncLoop_cons_not_better sha256hex fetch s p
        (before ++ peer :: rest) c hp hm hc
      rw [h1, h2, List.filterMap_cons_some hp, ih2.1, ih2.2]
      exact ⟨rfl, rfl⟩

theorem syncLoop_state_ne_nil (sha256hex : String → String)
    (fetch : String → Option (List Block)) (peers : List String) :
    ∀ s : Node, s.Blockchain ≠ [] →
      (syncLoop sha256hex fetch s peers).state.Blockchain ≠ [] := by
  induction peers with
  | nil =>
    intro s h
    exact h
  | cons peer rest ih =>
    intro s h
    rw [syncLoop]
    cases fetch peer with
    | none => exact ih s h
    | some chain =>
      have hs := syncReplace_state_ne_nil sha256hex s chain h
      simp only
      cases hr : syncReplace sha256hex s chain with
      | returned v s1 =>
        rw [hr] at hs
        exact ih s1 hs
      | blocked s1 =>
        rw [hr] at hs
        exact hs
      | panicked s1 =>
        rw [hr] at hs
        exact hs

/-! ## The peer registry: `removePeer` -/

theorem removeFirst_eq_erase (peer : String) (l : List String) :
    removeFirst peer l = l.erase peer := by
  induction l with
  | nil => rfl
  | cons p rest ih =>
    by_cases h : p = peer
    · subst h
      simp [removeFirst]
    · have hb : (p == peer) = false := by simpa using h
      rw [removeFirst, List.erase_cons, hb, ih]

theorem removeFirst_of_not_mem (peer : String) (l : List String) (h : peer ∉ l) :
    removeFirst peer l = l := by
  rw [removeFirst_eq_erase]
  exact List.erase_of_not_mem h

theorem removeFirst_others (peer : String) (l : List String) :
    (removeFirst peer l).filter (fun p => p != peer) = l.filter (fun p => p != peer) := by
  induction l with
  | nil => rfl
  | cons p rest ih =>
    by_cases h : p = peer
    · subst h
      simp [removeFirst]
    · have hb : (p == peer) = false := by simpa using h
      rw [removeFirst, hb]
      simp only [Bool.false_eq_true, if_false]
      rw [List.filter_cons, List.filter_cons, ih]

theorem removeFirst_count (peer : String) (l : List String) :
    (removeFirst peer l).count peer = l.count peer - 1 := by
  rw [removeFirst_eq_erase]
  exact List.count_erase_self peer l

theorem not_mem_removeFirst (peer : String) (l : List String) (h : l.count peer ≤ 1) :
    peer ∉ removeFirst peer l := by
  rw [← List.count_eq_zero, removeFirst_count]
  omega

/-! ## The chain mutex along a call: the steps executed -/

/-- Statements other than `Lock` and `Unlock` are executed with the mutex as
it is and leave it so. -/
theorem executed_append_plain (held : Bool) (l1 l2 : List Step)
    (h : ∀ x ∈ l1, x ≠ Step.lock ∧ x ≠ Step.unlock) :
    executed held (l1 ++ l2) = l1.map (fun x => (x, held)) ++ executed held l2 := by
  induction l1 with
  | nil => rfl
  | cons x rest ih =>
    have hx := h x (List.mem_cons_self _ _)
    have ih2 := ih (fun y hy => h y (List.mem_cons_of_mem _ hy))
    cases x with
    | lock => exact absurd rfl hx.1
    | unlock => exact absurd rfl hx.2
    | mine => rw [List.cons_append, executed, ih2, List.map_cons, List.cons_append]
    | httpGet p => rw [List.cons_append, executed, ih2, List.map_cons, List.cons_append]
    | goPost p => rw [List.cons_append, executed, ih2, List.map_cons, List.cons_append]
    | notifyWrite => rw [List.cons_append, executed, ih2, List.map_cons, List.cons_append]
    | fileWrite => rw [List.cons_append, executed, ih2, List.map_cons, List.cons_append]

/-- Only statements of the list are executed. -/
theorem executed_subset (l : List Step) :
    ∀ (held : Bool) (x : Step × Bool), x ∈ executed held l → x.1 ∈ l := by
  induction l with
  | nil =>
    intro held x hx
    simp [executed] at hx
  | cons y rest ih =>
    intro held x hx
    cases y with
    | lock =>
      cases held with
      | true =>
        simp only [executed, if_true, List.mem_singleton] at hx
        rw [hx]
        exact List.mem_cons_self _ _
      | false =>
        simp only [executed, Bool.false_eq_true, if_false, List.mem_cons] at hx
        rcases hx with hx | hx
        · rw [hx]
          exact List.mem_cons_self _ _
        · exact List.mem_cons_of_mem _ (ih _ x hx)
    | unlock =>
      simp only [executed, List.mem_cons] at hx
      rcases hx with hx | hx
      · rw [hx]
        exact List.mem_cons_self _ _
      · exact List.mem_cons_of_mem _ (ih _ x hx)
    | mine =>
      simp only [executed, List.mem_cons] at hx
      rcases hx with hx | hx
      · rw [hx]
        exact List.mem_cons_self _ _
      · exact List.mem_cons_of_mem _ (ih _ x hx)
    | httpGet p =>
      simp only [executed, List.mem_cons] at hx
      rcases hx with hx | hx
      · rw [hx]
        exact List.mem_cons_self _ _
      · exact List.mem_cons_of_mem _ (ih _ x hx)
    | goPost p =>
      simp only [executed, List.mem_cons] at hx
      rcases hx with hx | hx
      · rw [hx]
        exact List.mem_cons_self _ _
      · exact List.mem_cons_of_mem _ (ih _ x hx)
    | notifyWrite =>
      simp only [executed, List.mem_cons] at hx
      rcases hx with hx | hx
      · rw [hx]
        exact List.mem_cons_self _ _
      · exact List.mem_cons_of_mem _ (ih _ x hx)
    | fileWrite =>
      simp only [executed, List.mem_cons] at hx
      rcases hx with hx | hx
      · rw [hx]
        exact List.mem_cons_self _ _
      · exact List.mem_cons_of_mem _ (ih _ x hx)

theorem addBlockSteps_of_valid (sha256hex : String → String) (connections : Nat) (s : Node)
    (b tip : Block) (ht : s.Blockchain.getLast? = some tip)
    (hv : isBlockValid sha256hex b tip = true) :
    addBlockSteps sha256hex connections s b =
      Step.lock :: ((s.peers.map Step.goPost ++ List.replicate connections Step.notifyWrite) ++
        (saveBlockchainSteps ++ [Step.unlock])) := by
  simp [addBlockSteps, ht, hv]

/-- The accepting path of `addBlock`, statement by statement: the goroutines of
`broadcastBlock` are started and the connections are written to with the chain
mutex held, and execution stops at the `Lock` of `saveBlockchain`. -/
theorem executed_addBlockSteps_of_valid (sha256hex : String → String) (connections : Nat)
    (s : Node) (b tip : Block) (ht : s.Blockchain.getLast? = some tip)
    (hv : isBlockValid sha256hex b tip = true) :
    executed false (addBlockSteps sha256hex connections s b) =
      (Step.lock, false) :: (s.peers.map (fun p => (Step.goPost p, true)) ++
        List.replicate connections (Step.notifyWrite, true) ++ [(Step.lock, true)]) := by
  rw [addBlockSteps_of_valid sha256hex connections s b tip ht hv]
  have hplain : ∀ x ∈ s.peers.map Step.goPost ++ List.replicate connections Step.notifyWrite,
      x ≠ Step.lock ∧ x ≠ Step.unlock := by
    intro x hx
    rcases List.mem_append.mp hx with h | h
    · obtain ⟨p, _, hp⟩ := List.mem_map.mp h
      rw [← hp]
      exact ⟨by simp, by simp⟩
    · rw [List.eq_of_mem_replicate h]
      exact ⟨by simp, by simp⟩
  simp only [executed, Bool.false_eq_true, if_false]
  rw [executed_append_plain true _ _ hplain]
  simp [saveBlockchainSteps, executed, List.map_replicate]

theorem mine_not_in_addBlockSteps (sha256hex : String → String) (connections : Nat) (s : Node)
    (b : Block) : Step.mine ∉ addBlockSteps sha256hex connections s b := by
  unfold addBlockSteps
  cases s.Blockchain.getLast? with
  | none => simp
  | some tip =>
    by_cases hv : isBlockValid sha256hex b tip = true
    · simp [hv, saveBlockchainSteps]
    · simp [hv]

/-- In `createBlock` the mining is done with the chain mutex released. -/
theorem createBlockSteps_mine_free (sha256hex : String → String) (fuel : Nat) (now : String)
    (connections : Nat) (s : Node) (transactions : List Transaction) :
    (Step.mine, true) ∉
      executed false (createBlockSteps sha256hex fuel now connections s transactions) := by
  unfold createBlockSteps
  cases s.Blockchain.getLast? with
  | none => simp [executed]
  | some prevBlock =>
    simp only [executed, Bool.false_eq_true, if_false, List.mem_cons, Prod.mk.injEq,
      reduceCtorEq, false_and, true_and, false_or, not_or]
    cases generateBlock sha256hex fuel now prevBlock transactions with
    | none => simp [executed]
    | some newBlock =>
      simp only
      intro hmem
      exact mine_not_in_addBlockSteps sha256hex connections s newBlock
        (executed_subset _ _ _ hmem)

/-- In the loop of `syncBlockchain` every fetch is done with the chain mutex
not held. -/
theorem syncLoopSteps_fetch_free (sha256hex : String → String)
    (fetch : String → Option (List Block)) (p : String) :
    ∀ (peers : List String) (s : Node),
      (Step.httpGet p, true) ∉ executed false (syncLoopSteps sha256hex fetch s peers) := by
  intro peers
  induction peers with
  | nil =>
    intro s
    simp [syncLoopSteps, executed]
  | cons peer rest ih =>
    intro s
    rw [syncLoopSteps]
    cases fetch peer with
    | none =>
      simp only [executed, List.mem_cons, Prod.mk.injEq, not_or]
      exact ⟨by simp, ih s⟩
    | some chain =>
      simp only
      by_cases hc : (decide (chain.length > s.Blockchain.length)
          && isBlockchainValidChain sha256hex chain) = true
      · rw [if_pos hc]
        simp [executed, saveBlockchainSteps]
      · rw [if_neg hc]
        simp only [executed, Bool.false_eq_true, if_false, List.mem_cons, Prod.mk.injEq,
          not_or]
        exact ⟨by simp, by simp, by simp, ih s⟩

/-! ## The record as a list of characters -/

theorem fmtInt_no_bracket (z : Int) : '[' ∉ (fmtInt z).data := by
  intro hmem
  unfold fmtInt at hmem
  cases z with
  | ofNat m =>
    have hm : '[' ∈ (Nat.repr m).data := hmem
    exact absurd (natRepr_isDigit m _ hm) (by decide)
  | negSucc m =>
    have hm : '[' ∈ ("-" ++ Nat.repr (m + 1)).data := hmem
    simp only [String.data_append, List.mem_append] at hm
    rcases hm with h | h
    · exact absurd h (by decide)
    · exact absurd (natRepr_isDigit (m + 1) _ h) (by decide)

theorem separated_cons_data (a : String) (rest : List String) :
    (separated " " (a :: rest)).data = ' ' :: (a.data ++ (separated " " rest).data) := by
  simp only [separated, String.data_append, List.append_assoc]
  rfl

theorem intercalate_cons_data (a : String) (rest : List String) :
    (" ".intercalate (a :: rest)).data = a.data ++ (separated " " rest).data := by
  simp only [String.intercalate, intercalate_go_eq, String.data_append]

theorem record_data (b : Block) :
    (record b).data =
      (fmtInt b.Index).data ++ (b.Timestamp.data ++
        '[' :: ((" ".intercalate (b.Transactions.map fmtTransaction)).data ++
          ']' :: (b.PrevHash.data ++ (fmtInt b.Nonce).data))) := by
  simp only [record, fmtTransactions, String.data_append, List.append_assoc]
  rfl

/-- Two rendered transactions with blank-free names, each followed by any
text: when the two texts are equal the transactions are equal, and so is what
follows them. -/
theorem fmtTransaction_unique (t1 t2 : Transaction) (u1 u2 : List Char)
    (hs1 : ' ' ∉ t1.Sender.data) (hr1 : ' ' ∉ t1.Recipient.data)
    (hs2 : ' ' ∉ t2.Sender.data) (hr2 : ' ' ∉ t2.Recipient.data)
    (h : (fmtTransaction t1).data ++ u1 = (fmtTransaction t2).data ++ u2) :
    t1 = t2 ∧ u1 = u2 := by
  have ht : t1 = t2 := by
    rcases List.append_eq_append_iff.mp h with ⟨a, h1, _⟩ | ⟨c, h1, _⟩
    · exact fmtTransaction_eq_of_initial t1 t2 a hs1 hr1 hs2 hr2 h1.symm
    · exact (fmtTransaction_eq_of_initial t2 t1 c hs2 hr2 hs1 hr1 h1.symm).symm
  subst ht
  exact ⟨rfl, List.append_cancel_left h⟩

/-- The transactions after the first one, followed by the closing bracket. -/
theorem separated_unique :
    ∀ (l1 l2 : List Transaction) (u1 u2 : List Char),
      (∀ t ∈ l1, ' ' ∉ t.Sender.data ∧ ' ' ∉ t.Recipient.data) →
      (∀ t ∈ l2, ' ' ∉ t.Sender.data ∧ ' ' ∉ t.Recipient.data) →
      (separated " " (l1.map fmtTransaction)).data ++ ']' :: u1 =
        (separated " " (l2.map fmtTransaction)).data ++ ']' :: u2 →
      l1 = l2 ∧ u1 = u2 := by
  intro l1
  induction l1 with
  | nil =>
    intro l2 u1 u2 _ _ h
    cases l2 with
    | nil =>
      have h2 : ']' :: u1 = ']' :: u2 := h
      exact ⟨rfl, List.tail_eq_of_cons_eq h2⟩
    | cons t2 r2 =>
      exfalso
      rw [List.map_cons, separated_cons_data] at h
      have h2 : ']' :: u1 = ' ' :: (((fmtTransaction t2).data ++
          (separated " " (r2.map fmtTransaction)).data) ++ ']' :: u2) := h
      exact absurd (List.head_eq_of_cons_eq h2) (by decide)
  | cons t1 r1 ih =>
    intro l2 u1 u2 h1 h2 h
    cases l2 with
    | nil =>
      exfalso
      rw [List.map_cons, separated_cons_data] at h
      have h3 : ' ' :: (((fmtTransaction t1).data ++
          (separated " " (r1.map fmtTransaction)).data) ++ ']' :: u1) = ']' :: u2 := h
      exact absurd (List.head_eq_of_cons_eq h3) (by decide)
    | cons t2 r2 =>
      rw [List.map_cons, List.map_cons, separated_cons_data, separated_cons_data] at h
      simp only [List.cons_append, List.append_assoc, List.cons.injEq, true_and] at h
      have hb1 := h1 t1 (List.mem_cons_self _ _)
      have hb2 := h2 t2 (List.mem_cons_self _ _)
      obtain ⟨ht, hrest⟩ := fmtTransaction_unique t1 t2 _ _ hb1.1 hb1.2 hb2.1 hb2.2 h
      obtain ⟨hl, hu⟩ := ih r2 u1 u2 (fun t hm => h1 t (List.mem_cons_of_mem _ hm))
        (fun t hm => h2 t (List.mem_cons_of_mem _ hm)) hrest
      exact ⟨by rw [ht, hl], hu⟩

/-- The rendered list, followed by the closing bracket. -/
theorem intercalate_unique (l1 l2 : List Transaction) (u1 u2 : List Char)
    (h1 : ∀ t ∈ l1, ' ' ∉ t.Sender.data ∧ ' ' ∉ t.Recipient.data)
    (h2 : ∀ t ∈ l2, ' ' ∉ t.Sender.data ∧ ' ' ∉ t.Recipient.data)
    (h : (" ".intercalate (l1.map fmtTransaction)).data ++ ']' :: u1 =
      (" ".intercalate (l2.map fmtTransaction)).data ++ ']' :: u2) :
    l1 = l2 ∧ u1 = u2 := by
  cases l1 with
  | nil =>
    cases l2 with
    | nil =>
      have h3 : ']' :: u1 = ']' :: u2 := h
      exact ⟨rfl, List.tail_eq_of_cons_eq h3⟩
    | cons t2 r2 =>
      exfalso
      have h0 : (" ".intercalate (List.map fmtTransaction [])).data = [] := rfl
      rw [h0, List.map_cons, intercalate_cons_data, fmtTransaction_data] at h
      simp only [List.nil_append, List.cons_append] at h
      exact absurd (List.head_eq_of_cons_eq h) (by decide)
  | cons t1 r1 =>
    cases l2 with
    | nil =>
      exfalso
      have h0 : (" ".intercalate (List.map fmtTransaction [])).data = [] := rfl
      rw [h0, List.map_cons, intercalate_cons_data, fmtTransaction_data] at h
      simp only [List.nil_append, List.cons_append] at h
      exact absurd (List.head_eq_of_cons_eq h) (by decide)
    | cons t2 r2 =>
      rw [List.map_cons, List.map_cons, intercalate_cons_data, intercalate_cons_data] at h
      simp only [List.append_assoc] at h
      have hb1 := h1 t1 (List.mem_cons_self _ _)
      have hb2 := h2 t2 (List.mem_cons_self _ _)
      obtain ⟨ht, hrest⟩ := fmtTransaction_unique t1 t2 _ _ hb1.1 hb1.2 hb2.1 hb2.2 h
      obtain ⟨hl, hu⟩ := separated_unique r1 r2 u1 u2
        (fun t hm => h1 t (List.mem_cons_of_mem _ hm))
        (fun t hm => h2 t (List.mem_cons_of_mem _ hm)) hrest
      exact ⟨by rw [ht, hl], hu⟩

/-- The record determines the five hashed fields of a block among the blocks
whose timestamps have one length and hold no opening bracket, whose previous
hashes have one length, and whose senders and recipients hold no blank. -/
theorem record_fields_eq (b1 b2 : Block)
    (hT : b1.Timestamp.data.length = b2.Timestamp.data.length)
    (hT1 : '[' ∉ b1.Timestamp.data) (hT2 : '[' ∉ b2.Timestamp.data)
    (hP : b1.PrevHash.data.length = b2.PrevHash.data.length)
    (hB1 : ∀ t ∈ b1.Transactions, ' ' ∉ t.Sender.data ∧ ' ' ∉ t.Recipient.data)
    (hB2 : ∀ t ∈ b2.Transactions, ' ' ∉ t.Sender.data ∧ ' ' ∉ t.Recipient.data)
    (h : record b1 = record b2) :
    b1.Index = b2.Index ∧ b1.Timestamp = b2.Timestamp ∧
      b1.Transactions = b2.Transactions ∧ b1.PrevHash = b2.PrevHash ∧
      b1.Nonce = b2.Nonce := by
  have hd := congrArg String.data h
  rw [record_data, record_data, ← List.append_assoc, ← List.append_assoc _ b2.Timestamp.data] at hd
  have hn1 : '[' ∉ (fmtInt b1.Index).data ++ b1.Timestamp.data := by
    intro hm
    rcases List.mem_append.mp hm with hm | hm
    · exact fmtInt_no_bracket _ hm
    · exact hT1 hm
  have hn2 : '[' ∉ (fmtInt b2.Index).data ++ b2.Timestamp.data := by
    intro hm
    rcases List.mem_append.mp hm with hm | hm
    · exact fmtInt_no_bracket _ hm
    · exact hT2 hm
  obtain ⟨hhead, htail⟩ := split_at_separator '[' _ _ _ _ hn1 hn2 hd
  obtain ⟨hI, hTs⟩ := List.append_inj' hhead hT
  obtain ⟨htx, hrest⟩ := intercalate_unique _ _ _ _ hB1 hB2 htail
  obtain ⟨hPs, hN⟩ := List.append_inj hrest hP
  exact ⟨fmtInt_injective (String.ext hI), String.ext hTs, htx, String.ext hPs,
    fmtInt_injective (String.ext hN)⟩

/-! ## Concrete ledgers: blanks in the names, an invalid ledger -/

set_option maxRecDepth 1000000 in
theorem blockBlankSender_valid : isBlockValid sha256Sum blockBlankSender genesisA = true := by
  decide

theorem blockBlankRecipient_record : record blockBlankRecipient = record blockBlankSender := by
  decide

theorem blockBlankRecipient_valid :
    isBlockValid sha256Sum blockBlankRecipient genesisA = true := by
  have h := blockBlankSender_valid
  simp only [isBlockValid, calculateHash, blockBlankRecipient_record] at h ⊢
  exact h

set_option maxRecDepth 1000000 in
theorem blockB1_digest : sha256Sum (record blockA1) ≠ sha256Sum (record blockB1) := by
  decide

/-! ## C21: `removePeer` -/

/-- C21, refuted at a concrete registry: `peers.json` can hold an address
twice (`loadPeers` takes the list as it is); on the registry
`[8081, 8082, 8081]` the call `removePeer(8081)` takes out the first
occurrence only, so the registry it leaves still contains the address, and a
second `removePeer(8081)` on that registry changes it again. -/
theorem removePeer_leaves_second_occurrence :
    (removePeer (nodeWith [genesisA]
        ["http://localhost:8081", "http://localhost:8082", "http://localhost:8081"])
        "http://localhost:8081").state.peers =
        ["http://localhost:8082", "http://localhost:8081"] ∧
      "http://localhost:8081" ∈ (removePeer (nodeWith [genesisA]
        ["http://localhost:8081", "http://localhost:8082", "http://localhost:8081"])
        "http://localhost:8081").state.peers ∧
      (removePeer (nodeWith [genesisA] ["http://localhost:8082", "http://localhost:8081"])
        "http://localhost:8081").state.peers = ["http://localhost:8082"] := by
  decide

/-- C21, as amended: called with the registry mutex free, `removePeer(a)`
leaves the registry with the first occurrence of `a` taken out: the other
addresses are all there in their original order and `a` occurs once less (the
registry is as it was when `a` was absent).  When the registry holds `a` at
most once, the registry left does not contain `a`, and a second
`removePeer(a)`, in the state left or in any state with that registry, leaves
the registry as it is. -/
theorem removePeer_removes_first_occurrence (s : Node) (a : String)
    (hm : s.peersMutex = false) :
    (removePeer s a).state.peers = removeFirst a s.peers ∧
    ((removePeer s a).state.peers.filter (fun p => p != a) =
      s.peers.filter (fun p => p != a)) ∧
    (removePeer s a).state.peers.count a = s.peers.count a - 1 ∧
    (a ∉ s.peers → (removePeer s a).state.peers = s.peers) ∧
    (s.peers.count a ≤ 1 →
      a ∉ (removePeer s a).state.peers ∧
      (removePeer (removePeer s a).state a).state.peers = (removePeer s a).state.peers ∧
      ∀ s2 : Node, s2.peers = (removePeer s a).state.peers →
        (removePeer s2 a).state.peers = s2.peers) := by
  have hst : (removePeer s a).state.peers = removeFirst a s.peers := by
    rw [removePeer_of_free s a hm]
    rfl
  refine ⟨hst, ?_, ?_, ?_, ?_⟩
  · rw [hst]
    exact removeFirst_others a s.peers
  · rw [hst]
    exact removeFirst_count a s.peers
  · intro hn
    rw [hst]
    exact removeFirst_of_not_mem a s.peers hn
  · intro hc
    have hnot : a ∉ (removePeer s a).state.peers := by
      rw [hst]
      exact not_mem_removeFirst a s.peers hc
    refine ⟨hnot, ?_, ?_⟩
    · rw [removePeer_of_free s a hm]
      rfl
    · intro s2 h2
      cases hm2 : s2.peersMutex with
      | true =>
        rw [removePeer_of_held s2 a hm2]
        rfl
      | false =>
        rw [removePeer_of_free s2 a hm2]
        simp only [Outcome.state]
        exact removeFirst_of_not_mem a s2.peers (by rw [h2]; exact hnot)

/-- C21 as amended, at a concrete registry: from `[8081, 8082]` the call
`removePeer(8081)` leaves `[8082]`, and a second call on that registry leaves
it so. -/
theorem removePeer_removes_first_occurrence_witness :
    (removePeer (nodeWith [genesisA] ["http://localhost:8081", "http://localhost:8082"])
        "http://localhost:8081").state.peers =
        removeFirst "http://localhost:8081"
          ["http://localhost:8081", "http://localhost:8082"] ∧
      removeFirst "http://localhost:8081"
          ["http://localhost:8081", "http://localhost:8082"] = ["http://localhost:8082"] ∧
      "http://localhost:8081" ∉
        (removePeer (nodeWith [genesisA] ["http://localhost:8081", "http://localhost:8082"])
          "http://localhost:8081").state.peers :=
  ⟨(removePeer_removes_first_occurrence
      (nodeWith [genesisA] ["http://localhost:8081", "http://localhost:8082"])
      "http://localhost:8081" rfl).1,
    by decide,
    ((removePeer_removes_first_occurrence
      (nodeWith [genesisA] ["http://localhost:8081", "http://localhost:8082"])
      "http://localhost:8081" rfl).2.2.2.2 (by decide)).1⟩

/-! ## C22: failing peers in a synchronisation pass -/

/-- C22: in a pass of `syncBlockchain` over a list of peers, started with the
chain mutex free, the peers whose fetch fails do not count: the pass ends as
the pass over the list without them ends, and the same chains are handed to
the replace step in the same order.  As long as no fetched chain is adopted
the pass returns and every reachable peer's chain has been handed to the
replace step, in list order.  The first adoption ends the pass: the replace
step is stopped in `saveBlockchain` with the adopted chain in the ledger; the
chains fetched are those of the reachable peers up to that one, and the peers
after it are never fetched. -/
theorem syncBlockchain_skips_failing_peers (sha256hex : String → String)
    (fetch : String → Option (List Block)) (s : Node) (hm : s.mutex = false)
    (peers : List String) :
    (syncLoop sha256hex fetch s peers =
        syncLoop sha256hex fetch s (peers.filter (fun p => (fetch p).isSome)) ∧
      fetchedChains sha256hex fetch s peers =
        fetchedChains sha256hex fetch s (peers.filter (fun p => (fetch p).isSome))) ∧
    ((∀ peer ∈ peers, ∀ chain, fetch peer = some chain →
        ¬ (s.Blockchain.length < chain.length ∧
          isBlockchainValidChain sha256hex chain = true)) →
      syncLoop sha256hex fetch s peers = .returned () s ∧
        fetchedChains sha256hex fetch s peers = peers.filterMap fetch) ∧
    (∀ (before : List String) (peer : String) (rest : List String) (chain : List Block),
      peers = before ++ peer :: rest →
      (∀ p ∈ before, ∀ c, fetch p = some c →
        ¬ (s.Blockchain.length < c.length ∧ isBlockchainValidChain sha256hex c = true)) →
      fetch peer = some chain →
      s.Blockchain.length < chain.length → isBlockchainValidChain sha256hex chain = true →
      syncLoop sha256hex fetch s peers =
          .blocked { s with Blockchain := chain, mutex := true } ∧
        fetchedChains sha256hex fetch s peers = before.filterMap fetch ++ [chain]) := by
  refine ⟨?_, ?_, ?_⟩
  · have h := syncLoop_filter sha256hex fetch s peers
    exact ⟨h.1.symm, h.2.symm⟩
  · intro hno
    exact syncLoop_of_none_better sha256hex fetch s hm peers hno
  · intro before peer rest chain hp hno hf hl hv
    rw [hp]
    exact syncLoop_stops_at_first_better sha256hex fetch s hm peer rest chain hf hl hv
      before hno

/-- C22, at a concrete ledger: the ledger `[genesisA]` knows the peers 8081 and
8082, both reachable, holding `[genesisA, blockA1]` and
`[genesisA, blockA1, blockA2]`.  The pass adopts the chain of 8081 and is
stopped there: the chain of 8082 is not among the chains fetched. -/
theorem syncBlockchain_skips_failing_peers_witness :
    fetchTwo "http://localhost:8082" = some [genesisA, blockA1, blockA2] ∧
      syncBlockchain sha256Sum fetchTwo
          (nodeWith [genesisA] ["http://localhost:8081", "http://localhost:8082"]) =
        .blocked { nodeWith [genesisA] ["http://localhost:8081", "http://localhost:8082"] with
          Blockchain := [genesisA, blockA1], mutex := true } ∧
      fetchedChains sha256Sum fetchTwo
          (nodeWith [genesisA] ["http://localhost:8081", "http://localhost:8082"])
          ["http://localhost:8081", "http://localhost:8082"] = [[genesisA, blockA1]] :=
  ⟨by decide,
    ((syncBlockchain_skips_failing_peers sha256Sum fetchTwo
      (nodeWith [genesisA] ["http://localhost:8081", "http://localhost:8082"]) rfl
      ["http://localhost:8081", "http://localhost:8082"]).2.2 []
      "http://localhost:8081" ["http://localhost:8082"] [genesisA, blockA1] rfl
      (fun _ hp => absurd hp (List.not_mem_nil _)) (by decide) (by decide) chainA1_valid).1,
    ((syncBlockchain_skips_failing_peers sha256Sum fetchTwo
      (nodeWith [genesisA] ["http://localhost:8081", "http://localhost:8082"]) rfl
      ["http://localhost:8081", "http://localhost:8082"]).2.2 []
      "http://localhost:8081" ["http://localhost:8082"] [genesisA, blockA1] rfl
      (fun _ hp => absurd hp (List.not_mem_nil _)) (by decide) (by decide) chainA1_valid).2⟩

/-! ## C23: two chains from one genesis -/

/-- C23, refuted at concrete chains: `[genesisA, blockA1, blockA2]` (length 3)
and `[genesisA, blockA1, blockA2, blockA3, blockA4]` (length 5) are valid and
start with the same genesis block; presented first to the ledger that holds
`[genesisA]`, the chain of length 3 becomes the ledger's chain. -/
theorem shorter_chain_adopted_when_first :
    [genesisA, blockA1, blockA2].length = 3 ∧
      [genesisA, blockA1, blockA2, blockA3, blockA4].length = 5 ∧
      isBlockchainValidChain sha256Sum [genesisA, blockA1, blockA2] = true ∧
      isBlockchainValidChain sha256Sum [genesisA, blockA1, blockA2, blockA3, blockA4] = true ∧
      (syncReplace sha256Sum (nodeOf [genesisA]) [genesisA, blockA1, blockA2]).state.Blockchain =
        [genesisA, blockA1, blockA2] :=
  ⟨rfl, rfl, chainA2_valid, chainA4_valid, by
    rw [syncReplace_of_better sha256Sum (nodeOf [genesisA]) [genesisA, blockA1, blockA2] rfl
      (by decide) chainA2_valid]
    rfl⟩

/-- C23, as amended: for a valid chain `c3` of length 3 and a valid chain `c5`
of length 5, presented to the replace step of a ledger whose mutex is free:
the ledger that holds a genesis block alone adopts whichever of the two is
presented (each is longer than its chain); the ledger that holds `c3` adopts
`c5`; the ledger that holds `c5` keeps it when `c3` is presented, the step
returning with the state as it was. -/
theorem longer_chain_never_replaced (sha256hex : String → String) (g : Block)
    (c3 c5 : List Block) (s : Node) (h3 : c3.length = 3) (h5 : c5.length = 5)
    (hv3 : isBlockchainValidChain sha256hex c3 = true)
    (hv5 : isBlockchainValidChain sha256hex c5 = true) (hm : s.mutex = false) :
    (s.Blockchain = [g] →
      (syncReplace sha256hex s c3).state.Blockchain = c3 ∧
        (syncReplace sha256hex s c5).state.Blockchain = c5) ∧
    (s.Blockchain = c3 → (syncReplace sha256hex s c5).state.Blockchain = c5) ∧
    (s.Blockchain = c5 → syncReplace sha256hex s c3 = .returned () s) := by
  refine ⟨?_, ?_, ?_⟩
  · intro hs
    have hl3 : s.Blockchain.length < c3.length := by rw [hs, h3]; simp
    have hl5 : s.Blockchain.length < c5.length := by rw [hs, h5]; simp
    rw [syncReplace_of_better sha256hex s c3 hm hl3 hv3,
      syncReplace_of_better sha256hex s c5 hm hl5 hv5]
    exact ⟨rfl, rfl⟩
  · intro hs
    have hl5 : s.Blockchain.length < c5.length := by rw [hs, h3, h5]; decide
    rw [syncReplace_of_better sha256hex s c5 hm hl5 hv5]
    rfl
  · intro hs
    apply syncReplace_of_not_better sha256hex s c3 hm
    rintro ⟨hl, _⟩
    rw [hs, h3, h5] at hl
    omega

/-- C23 as amended, at concrete chains: the ledger `[genesisA]` adopts the
chain of length 5, and the ledger holding the chain of length 5 keeps it
against the chain of length 3. -/
theorem longer_chain_never_replaced_witness :
    (syncReplace sha256Sum (nodeOf [genesisA])
        [genesisA, blockA1, blockA2, blockA3, blockA4]).state.Blockchain =
        [genesisA, blockA1, blockA2, blockA3, blockA4] ∧
      syncReplace sha256Sum (nodeOf [genesisA, blockA1, blockA2, blockA3, blockA4])
          [genesisA, blockA1, blockA2] =
        .returned () (nodeOf [genesisA, blockA1, blockA2, blockA3, blockA4]) :=
  ⟨((longer_chain_never_replaced sha256Sum genesisA [genesisA, blockA1, blockA2]
      [genesisA, blockA1, blockA2, blockA3, blockA4] (nodeOf [genesisA]) rfl rfl chainA2_valid
      chainA4_valid rfl).1 rfl).2,
    (longer_chain_never_replaced sha256Sum genesisA [genesisA, blockA1, blockA2]
      [genesisA, blockA1, blockA2, blockA3, blockA4]
      (nodeOf [genesisA, blockA1, blockA2, blockA3, blockA4]) rfl rfl chainA2_valid
      chainA4_valid rfl).2.2 rfl⟩

/-! ## C24: what is done while the chain mutex is held -/

/-- C24: the accepting path of `addBlock` does its notification writes with
the chain mutex held.  For a candidate valid against the tip, called with the
mutex free and `connections` websocket connections open, the statements
executed are: `Lock`; the start of one `http.Post` goroutine a peer and one
`conn.WriteMessage` a connection, all with the mutex held; then the `Lock` of
`saveBlockchain`, where execution stops.  In `createBlock` the mining is done
with the mutex released, and in `syncBlockchain` every `http.Get` is done with
the mutex not held. -/
theorem addBlock_notifies_with_mutex_held (sha256hex : String → String) (connections : Nat)
    (s : Node) (b tip : Block) (ht : s.Blockchain.getLast? = some tip)
    (hv : isBlockValid sha256hex b tip = true) (hc : 0 < connections) :
    executed false (addBlockSteps sha256hex connections s b) =
      (Step.lock, false) :: (s.peers.map (fun p => (Step.goPost p, true)) ++
        List.replicate connections (Step.notifyWrite, true) ++ [(Step.lock, true)]) ∧
    (Step.notifyWrite, true) ∈ executed false (addBlockSteps sha256hex connections s b) ∧
    (∀ (fuel : Nat) (now : String) (transactions : List Transaction),
      (Step.mine, true) ∉
        executed false (createBlockSteps sha256hex fuel now connections s transactions)) ∧
    (∀ (fetch : String → Option (List Block)) (p : String),
      (Step.httpGet p, true) ∉ executed false (syncLoopSteps sha256hex fetch s s.peers)) := by
  have hex := executed_addBlockSteps_of_valid sha256hex connections s b tip ht hv
  refine ⟨hex, ?_, ?_, ?_⟩
  · rw [hex]
    apply List.mem_cons_of_mem
    apply List.mem_append_left
    apply List.mem_append_right
    obtain ⟨n, hn⟩ := Nat.exists_eq_succ_of_ne_zero (Nat.pos_iff_ne_zero.mp hc)
    rw [hn, List.replicate_succ]
    exact List.mem_cons_self _ _
  · intro fuel now transactions
    exact createBlockSteps_mine_free sha256hex fuel now connections s transactions
  · intro fetch p
    exact syncLoopSteps_fetch_free sha256hex fetch p s.peers s

/-- C24, at a concrete ledger: the ledger `[genesisA]` with the peer 8081 and
one websocket connection receives the valid candidate `blockA1`; the write to
the connection is done with the chain mutex held. -/
theorem addBlock_notifies_with_mutex_held_witness :
    executed false
        (addBlockSteps sha256Sum 1 (nodeWith [genesisA] ["http://localhost:8081"]) blockA1) =
      [(Step.lock, false), (Step.goPost "http://localhost:8081", true),
        (Step.notifyWrite, true), (Step.lock, true)] :=
  (addBlock_notifies_with_mutex_held sha256Sum 1
    (nodeWith [genesisA] ["http://localhost:8081"]) blockA1 genesisA rfl blockA1_valid
    (by decide)).1

/-! ## C25: the monitor -/

/-- C26: with both mutexes free when the call is made, each of the four
operations locks again the mutex it holds and stays blocked there, the mutex
held: `addBlock` with a candidate valid against the tip and the replace step
with a longer valid chain in the `Lock` of `saveBlockchain`; `addPeer` with an
address not in the registry and `removePeer` with any address in the `Lock` of
`savePeers`. -/
theorem operations_block_on_own_lock (sha256hex : String → String) (s : Node)
    (hm : s.mutex = false) (hp : s.peersMutex = false) :
    (∀ b tip : Block, s.Blockchain.getLast? = some tip →
      isBlockValid sha256hex b tip = true →
      addBlock sha256hex s b =
        .blocked { s with Blockchain := s.Blockchain ++ [b], mutex := true }) ∧
    (∀ chain : List Block, s.Blockchain.length < chain.length →
      isBlockchainValidChain sha256hex chain = true →
      syncReplace sha256hex s chain = .blocked { s with Blockchain := chain, mutex := true }) ∧
    (∀ a : String, a ∉ s.peers →
      addPeer s a = .blocked { s with peers := s.peers ++ [a], peersMutex := true }) ∧
    (∀ a : String,
      removePeer s a =
        .blocked { s with peers := removeFirst a s.peers, peersMutex := true }) :=
  ⟨fun b tip ht hv => addBlock_of_valid sha256hex s b tip hm ht hv,
    fun chain hl hv => syncReplace_of_better sha256hex s chain hm hl hv,
    fun a ha => addPeer_of_new s a hp ha,
    fun a => removePeer_of_free s a hp⟩

/-- C26, at a concrete node: the ledger `[genesisA]` with the peer 8081.  The
valid candidate `blockA1`, the longer valid chain `[genesisA, blockA1]`, the
new address 8082 and the known address 8081: none of the four calls returns,
each is blocked with its mutex held. -/
theorem operations_block_on_own_lock_witness :
    addBlock sha256Sum (nodeWith [genesisA] ["http://localhost:8081"]) blockA1 =
        .blocked { nodeWith [genesisA] ["http://localhost:8081"] with
          Blockchain := [genesisA] ++ [blockA1], mutex := true } ∧
      syncReplace sha256Sum (nodeWith [genesisA] ["http://localhost:8081"])
          [genesisA, blockA1] =
        .blocked { nodeWith [genesisA] ["http://localhost:8081"] with
          Blockchain := [genesisA, blockA1], mutex := true } ∧
      addPeer (nodeWith [genesisA] ["http://localhost:8081"]) "http://localhost:8082" =
        .blocked { nodeWith [genesisA] ["http://localhost:8081"] with
          peers := ["http://localhost:8081"] ++ ["http://localhost:8082"],
          peersMutex := true } ∧
      removePeer (nodeWith [genesisA] ["http://localhost:8081"]) "http://localhost:8081" =
        .blocked { nodeWith [genesisA] ["http://localhost:8081"] with
          peers := removeFirst "http://localhost:8081" ["http://localhost:8081"],
          peersMutex := true } :=
  ⟨(operations_block_on_own_lock sha256Sum (nodeWith [genesisA] ["http://localhost:8081"])
      rfl rfl).1 blockA1 genesisA rfl blockA1_valid,
    (operations_block_on_own_lock sha256Sum (nodeWith [genesisA] ["http://localhost:8081"])
      rfl rfl).2.1 [genesisA, blockA1] (by decide) chainA1_valid,
    (operations_block_on_own_lock sha256Sum (nodeWith [genesisA] ["http://localhost:8081"])
      rfl rfl).2.2.1 "http://localhost:8082" (by decide),
    (operations_block_on_own_lock sha256Sum (nodeWith [genesisA] ["http://localhost:8081"])
      rfl rfl).2.2.2 "http://localhost:8081"⟩

/-! ## C27: the record and the fields it is made of -/

/-- C27, refuted at concrete blocks.  `blockBlankSender` and
`blockBlankRecipient` have different transaction lists (`A B -> C : 1` and
`A -> B C : 1`) and the same other fields; their records are the same string,
so they have the same SHA-256 hash with no collision, and both are valid
blocks on `genesisA`.  The record does not mark the ends of the other fields
either: index 1 with timestamp `2024...` and index 12 with timestamp `024...`
give one record, as do previous hash `ab1` with nonce 2 and previous hash `ab`
with nonce 12. -/
theorem different_blocks_same_record :
    blockBlankSender.Transactions ≠ blockBlankRecipient.Transactions ∧
      record blockBlankSender = record blockBlankRecipient ∧
      calculateHash sha256Sum blockBlankSender = calculateHash sha256Sum blockBlankRecipient ∧
      isBlockValid sha256Sum blockBlankSender genesisA = true ∧
      isBlockValid sha256Sum blockBlankRecipient genesisA = true ∧
      record { blockA1 with Index := 1, Timestamp := "2024-01-02T18:26:48Z" } =
        record { blockA1 with Index := 12, Timestamp := "024-01-02T18:26:48Z" } ∧
      record { blockA1 with PrevHash := "ab1", Nonce := 2 } =
        record { blockA1 with PrevHash := "ab", Nonce := 12 } :=
  ⟨by decide, blockBlankRecipient_record.symm,
    congrArg sha256Sum blockBlankRecipient_record.symm,
    blockBlankSender_valid, blockBlankRecipient_valid, by decide, by decide⟩

/-- C27, as amended: the record is injective in the hashed fields among blocks
whose timestamps have the same length and hold no opening bracket, whose
previous hashes have the same length, and whose transactions have senders and
recipients without a blank.  Two such blocks that differ in `Index`,
`Timestamp`, `Transactions`, `PrevHash` or `Nonce` have different records, and
so different hashes when the digest function does not collide on the two
records. -/
theorem record_injective_on_uniform_blocks (sha256hex : String → String) (b1 b2 : Block)
    (hT : b1.Timestamp.length = b2.Timestamp.length)
    (hT1 : '[' ∉ b1.Timestamp.data) (hT2 : '[' ∉ b2.Timestamp.data)
    (hP : b1.PrevHash.length = b2.PrevHash.length)
    (hB1 : ∀ t ∈ b1.Transactions, ' ' ∉ t.Sender.data ∧ ' ' ∉ t.Recipient.data)
    (hB2 : ∀ t ∈ b2.Transactions, ' ' ∉ t.Sender.data ∧ ' ' ∉ t.Recipient.data)
    (hne : b1.Index ≠ b2.Index ∨ b1.Timestamp ≠ b2.Timestamp ∨
      b1.Transactions ≠ b2.Transactions ∨ b1.PrevHash ≠ b2.PrevHash ∨
      b1.Nonce ≠ b2.Nonce) :
    record b1 ≠ record b2 ∧
    (sha256hex (record b1) ≠ sha256hex (record b2) →
      calculateHash sha256hex b1 ≠ calculateHash sha256hex b2) ∧
    (Function.Injective sha256hex →
      calculateHash sha256hex b1 ≠ calculateHash sha256hex b2) := by
  have hrec : record b1 ≠ record b2 := by
    intro h
    obtain ⟨h1, h2, h3, h4, h5⟩ := record_fields_eq b1 b2 hT hT1 hT2 hP hB1 hB2 h
    rcases hne with hn | hn | hn | hn | hn
    · exact hn h1
    · exact hn h2
    · exact hn h3
    · exact hn h4
    · exact hn h5
  exact ⟨hrec, fun hd => hd, fun hinj hd => hrec (hinj hd)⟩

set_option maxRecDepth 1000000 in
/-- C27 as amended, at concrete blocks: `blockA1` and `blockB1`, both mined on
`genesisA`, differ in their transactions; their records differ and so do
their SHA-256 hashes. -/
theorem record_injective_on_uniform_blocks_witness :
    record blockA1 ≠ record blockB1 ∧
      calculateHash sha256Sum blockA1 ≠ calculateHash sha256Sum blockB1 :=
  ⟨(record_injective_on_uniform_blocks sha256Sum blockA1 blockB1 (by decide) (by decide)
      (by decide) (by decide) (by decide) (by decide) (Or.inr (Or.inl (by decide)))).1,
    (record_injective_on_uniform_blocks sha256Sum blockA1 blockB1 (by decide) (by decide)
      (by decide) (by decide) (by decide) (by decide) (Or.inr (Or.inl (by decide)))).2.1
      blockB1_digest⟩

/-! ## C28: the two chain checks -/

/-- C28: the loop of `isBlockchainValid` over the ledger's chain gives the
boolean that `isBlockchainValidChain` gives on that chain; called with the
chain mutex free, `isBlockchainValid` returns that boolean and leaves the
state as it was; in every state the boolean it returns, when it returns, is
that one. -/
theorem validators_agree (sha256hex : String → String) (s : Node) :
    isBlockchainValid.loop sha256hex s.Blockchain 1 s.Blockchain.length =
      isBlockchainValidChain sha256hex s.Blockchain ∧
    isBlockchainValid sha256hex { s with mutex := false } =
      .returned (isBlockchainValidChain sha256hex s.Blockchain) { s with mutex := false } ∧
    (isBlockchainValid sha256hex s).value =
      (if s.mutex then none else some (isBlockchainValidChain sha256hex s.Blockchain)) := by
  refine ⟨?_, ?_, ?_⟩
  · rw [isBlockchainValid_loop_eq]
    rfl
  · exact isBlockchainValid_of_free sha256hex { s with mutex := false } rfl
  · cases hm : s.mutex with
    | true => simp [isBlockchainValid, hm, Outcome.value]
    | false =>
      rw [isBlockchainValid_of_free sha256hex s hm]
      simp [Outcome.value]

/-! ## C29: the chain is never empty -/

/-- C29: the chain `main` starts with is not empty, and from a non-empty chain
every `addBlock` call, every replace step and every pass of `syncBlockchain`
leaves the chain non-empty; on a non-empty chain neither `addBlock` nor
`createBlock` panics at `Blockchain[len(Blockchain)-1]`. -/
theorem chain_never_empty (sha256hex : String → String) (s : Node)
    (h : s.Blockchain ≠ []) :
    (∀ b : Block, (addBlock sha256hex s b).state.Blockchain ≠ [] ∧
      ∀ s1 : Node, addBlock sha256hex s b ≠ .panicked s1) ∧
    (∀ chain : List Block, (syncReplace sha256hex s chain).state.Blockchain ≠ []) ∧
    (∀ fetch : String → Option (List Block),
      (syncBlockchain sha256hex fetch s).state.Blockchain ≠ []) ∧
    (∀ (fuel : Nat) (now : String) (body : Option (List Transaction)) (s1 : Node),
      (createBlock sha256hex fuel now s body).2 ≠ some (.panicked s1)) ∧
    (∀ (fuel : Nat) (now : String) (loaded : Option (List Block)) (chain : List Block),
      initialChain sha256hex fuel now loaded = some chain → chain ≠ []) :=
  ⟨fun b => ⟨addBlock_state_ne_nil sha256hex s b h, addBlock_not_panicked sha256hex s b h⟩,
    fun chain => syncReplace_state_ne_nil sha256hex s chain h,
    fun fetch => syncLoop_state_ne_nil sha256hex fetch s.peers s h,
    fun fuel now body s1 => createBlock_not_panicked sha256hex fuel now s body h s1,
    fun fuel now loaded chain hi => initialChain_ne_nil sha256hex fuel now loaded chain hi⟩

set_option maxRecDepth 1000000 in
/-- C29, at a concrete ledger: with no file to load, `main` starts with the
chain `[genesisA]`; from it, the call `addBlock(blockA1)` leaves a non-empty
chain and does not panic. -/
theorem chain_never_empty_witness :
    initialChain sha256Sum 3 "2024-01-02T02:05:25Z" none = some [genesisA] ∧
      (addBlock sha256Sum (nodeOf [genesisA]) blockA1).state.Blockchain ≠ [] ∧
      ∀ s1 : Node, addBlock sha256Sum (nodeOf [genesisA]) blockA1 ≠ .panicked s1 :=
  ⟨by decide,
    ((chain_never_empty sha256Sum (nodeOf [genesisA]) (by decide)).1 blockA1).1,
    ((chain_never_empty sha256Sum (nodeOf [genesisA]) (by decide)).1 blockA1).2⟩

/-! ## C30: the length of the chain -/

/-- C30: in every state an `addBlock` call leaves the chain as long as it was
or longer by exactly one block, and a replace step leaves the chain as it was
or strictly longer.  After a pass of `syncBlockchain` begun with the chain
mutex free, the ledger's chain is the chain before the pass or one of the
chains fetched, it is at least as long as the chain before the pass, and it is
at least as long as every valid chain that was fetched. -/
theorem chain_length_never_decreases (sha256hex : String → String)
    (fetch : String → Option (List Block)) (s : Node) (hm : s.mutex = false) :
    (∀ (s0 : Node) (b : Block),
      (addBlock sha256hex s0 b).state.Blockchain.length = s0.Blockchain.length ∨
      (addBlock sha256hex s0 b).state.Blockchain.length = s0.Blockchain.length + 1) ∧
    (∀ (s0 : Node) (chain : List Block),
      (syncReplace sha256hex s0 chain).state.Blockchain = s0.Blockchain ∨
      s0.Blockchain.length < (syncReplace sha256hex s0 chain).state.Blockchain.length) ∧
    ((syncBlockchain sha256hex fetch s).state.Blockchain = s.Blockchain ∨
      (syncBlockchain sha256hex fetch s).state.Blockchain ∈
        fetchedChains sha256hex fetch s s.peers) ∧
    s.Blockchain.length ≤ (syncBlockchain sha256hex fetch s).state.Blockchain.length ∧
    (∀ chain ∈ fetchedChains sha256hex fetch s s.peers,
      isBlockchainValidChain sha256hex chain = true →
        chain.length ≤ (syncBlockchain sha256hex fetch s).state.Blockchain.length) := by
  refine ⟨?_, ?_, syncLoop_chain sha256hex fetch s hm s.peers⟩
  · intro s0 b
    cases hm0 : s0.mutex with
    | true =>
      rw [addBlock_of_held sha256hex s0 b hm0]
      exact Or.inl rfl
    | false =>
      cases ht : s0.Blockchain.getLast? with
      | none =>
        rw [addBlock_of_empty sha256hex s0 b hm0 (List.getLast?_eq_none_iff.mp ht)]
        exact Or.inl rfl
      | some tip =>
        cases hv : isBlockValid sha256hex b tip with
        | true =>
          rw [addBlock_of_valid sha256hex s0 b tip hm0 ht hv]
          exact Or.inr (by simp [Outcome.state])
        | false =>
          rw [addBlock_of_invalid sha256hex s0 b tip hm0 ht hv]
          exact Or.inl rfl
  · intro s0 chain
    rcases syncReplace_cases sha256hex s0 chain with ⟨he, _⟩ | ⟨he, _, hl, _⟩ | ⟨he, _, _⟩
    · rw [he]
      exact Or.inl rfl
    · rw [he]
      exact Or.inr hl
    · rw [he]
      exact Or.inl rfl

/-- C30, at a concrete ledger: the ledger `[genesisA, blockA1]` knows the peers
8080 (not reachable), 8081 (holding `[genesisA, blockA1]`) and 8082 (holding
`[genesisA, blockA1, blockA2]`); after the pass its chain is at least as long
as the valid chain of 8082, which was fetched. -/
theorem chain_length_never_decreases_witness :
    [genesisA, blockA1, blockA2] ∈ fetchedChains sha256Sum fetchTwo
        (nodeWith [genesisA, blockA1]
          ["http://localhost:8080", "http://localhost:8081", "http://localhost:8082"])
        ["http://localhost:8080", "http://localhost:8081", "http://localhost:8082"] ∧
      [genesisA, blockA1, blockA2].length ≤
        (syncBlockchain sha256Sum fetchTwo
          (nodeWith [genesisA, blockA1]
            ["http://localhost:8080", "http://localhost:8081",
              "http://localhost:8082"])).state.Blockchain.length :=
  ⟨by
      have h8080 : fetchTwo "http://localhost:8080" = none := by decide
      have h8081 : fetchTwo "http://localhost:8081" = some [genesisA, blockA1] := by decide
      have h8082 : fetchTwo "http://localhost:8082" = some [genesisA, blockA1, blockA2] := by
        decide
      rw [fetchedChains_cons_none _ _ _ _ _ h8080,
        (syncLoop_cons_not_better sha256Sum fetchTwo _ _ _ _ h8081 rfl
          (fun hc => absurd hc.1 (by decide))).2,
        (syncLoop_cons_better sha256Sum fetchTwo _ _ _ _ h8082 rfl (by decide)
          chainA2_valid).2]
      simp,
    (chain_length_never_decreases sha256Sum fetchTwo
      (nodeWith [genesisA, blockA1]
        ["http://localhost:8080", "http://localhost:8081", "http://localhost:8082"])
      rfl).2.2.2.2 [genesisA, blockA1, blockA2]
      (by
        have h8080 : fetchTwo "http://localhost:8080" = none := by decide
        have h8081 : fetchTwo "http://localhost:8081" = some [genesisA, blockA1] := by decide
        have h8082 : fetchTwo "http://localhost:8082" = some [genesisA, blockA1, blockA2] := by
          decide
        rw [show (nodeWith [genesisA, blockA1]
            ["http://localhost:8080", "http://localhost:8081", "http://localhost:8082"]).peers =
            ["http://localhost:8080", "http://localhost:8081", "http://localhost:8082"] from rfl,
          fetchedChains_cons_none _ _ _ _ _ h8080,
          (syncLoop_cons_not_better sha256Sum fetchTwo _ _ _ _ h8081 rfl
            (fun hc => absurd hc.1 (by decide))).2,
          (syncLoop_cons_better sha256Sum fetchTwo _ _ _ _ h8082 rfl (by decide)
            chainA2_valid).2]
        simp)
      chainA2_valid⟩

end BlockChain
